import Mathlib

/-!
# Antenna graph engine (grafo.c): shallow embedding and verified properties

The C program stores antennas in a singly linked list (field prox) hanging off
the graph header, and the edges of every antenna in a second singly linked list
(field prox of Aresta).  The embedding keeps an explicit heap:

* an address is a natural number; mem maps every address to the record stored there;
* the chain of prox pointers from grafo->vertices is the list vertices
  (head of the list = first node of the chain);
* the chain of Aresta cells of an antenna is the list arestas of destination addresses
  (head of the list = first cell of the chain);
* malloc is a bump allocator: prox_livre is the next unused address.

Callbacks only observe; every operation that takes a callback returns the sequence of
callback invocations (the trace) next to the final heap.

The two scratch buffers (the queue of bfs, the path buffer of encontrar_caminhos) are
represented by the list of the cells written so far; the functions return these lists, so
that the number of cells ever written can be compared with the allocated size num_vertices.
Recursion and the outer loop of bfs are bounded by an explicit first argument; the entry
points pass a bound computed from the graph, and the theorems show that it is never reached
on a graph whose edges lead to stored nodes.
-/

namespace Grafo2

/-- One byte: the C type char, and the unit of the binary file. -/
abbrev Byte := Fin 256

/-- The struct Antena: frequencia, x, y, visitado and the chain of edges
(destinations, first cell first).  The prox pointer is represented by the position of the
address in the list vertices of the graph. -/
structure Antena where
  frequencia : Byte
  x : Int
  y : Int
  visitado : Bool
  arestas : List Nat
deriving DecidableEq, Repr

instance : Inhabited Antena := ⟨⟨0, 0, 0, false, []⟩⟩

/-- The struct Grafo together with the heap it lives in. -/
structure Grafo where
  mem : Nat → Antena
  prox_livre : Nat
  vertices : List Nat
  num_vertices : Int

namespace Grafo

/-- Frequency of the antenna stored at an address. -/
def freq (g : Grafo) (p : Nat) : Byte := (g.mem p).frequencia

/-- Edge chain of the antenna stored at an address. -/
def adj (g : Grafo) (p : Nat) : List Nat := (g.mem p).arestas

/-- Visited flag of the antenna stored at an address. -/
def vis (g : Grafo) (p : Nat) : Bool := (g.mem p).visitado

/-- The (frequencia, x, y) triple of the antenna stored at an address. -/
def triplo (g : Grafo) (p : Nat) : Byte × Int × Int :=
  ((g.mem p).frequencia, (g.mem p).x, (g.mem p).y)

/-- Heap write of a whole record. -/
def escrever (g : Grafo) (p : Nat) (a : Antena) : Grafo :=
  { g with mem := fun q => if q = p then a else g.mem q }

/-- The assignment  p->visitado = b. -/
def marcar (g : Grafo) (p : Nat) (b : Bool) : Grafo :=
  g.escrever p { g.mem p with visitado := b }

/-- The assignment  p->arestas = as  (the whole chain is replaced). -/
def comArestas (g : Grafo) (p : Nat) (as : List Nat) : Grafo :=
  g.escrever p { g.mem p with arestas := as }

/-- Allocation of a new Aresta cell with destination outra, linked in front of the chain
of atual (grafo.c lines 81-84). -/
def ligar (g : Grafo) (atual outra : Nat) : Grafo :=
  g.comArestas atual (outra :: (g.mem atual).arestas)

end Grafo

/-- Source function criar_grafo: no vertices, counter zero.  The heap content is irrelevant
(nothing is allocated yet). -/
def criar_grafo : Grafo :=
  { mem := fun _ => default, prox_livre := 0, vertices := [], num_vertices := 0 }

/-- Source function adicionar_antena: allocate a node, fill the fields, link it in FRONT of
the vertex chain, increment the counter; returns the new graph and the address of the node. -/
def adicionar_antena (g : Grafo) (frequencia : Byte) (x y : Int) : Grafo × Nat :=
  let nova := g.prox_livre
  ({ mem := fun q => if q = nova then ⟨frequencia, x, y, false, []⟩ else g.mem q,
     prox_livre := g.prox_livre + 1,
     vertices := nova :: g.vertices,
     num_vertices := g.num_vertices + 1 }, nova)

/-- The innermost while of conectar_antenas (lines 72-79): walk the edge chain and stop with
true at the first cell whose destination is outra. -/
def ja_conectado : List Nat → Nat → Bool
  | [], _ => false
  | d :: resto, outra => if d = outra then true else ja_conectado resto outra

/-- Body of the middle loop of conectar_antenas (lines 70-86) for one pair. -/
def conectar_passo (g : Grafo) (atual outra : Nat) : Grafo :=
  if atual ≠ outra ∧ g.freq atual = g.freq outra then
    if ja_conectado (g.adj atual) outra then g else g.ligar atual outra
  else g

/-- Middle loop of conectar_antenas: outra runs over the vertex chain. -/
def conectar_interno (atual : Nat) : Grafo → List Nat → Grafo
  | g, [] => g
  | g, outra :: resto => conectar_interno atual (conectar_passo g atual outra) resto

/-- Outer loop of conectar_antenas: atual runs over the vertex chain; for each one the middle
loop restarts at grafo->vertices. -/
def conectar_externo : Grafo → List Nat → Grafo
  | g, [] => g
  | g, atual :: resto => conectar_externo (conectar_interno atual g g.vertices) resto

/-- Source function conectar_antenas. -/
def conectar_antenas (g : Grafo) : Grafo :=
  conectar_externo g g.vertices

/-- A graph built through the public interface only: criar_grafo followed by one
adicionar_antena per triple, in order. -/
def construir (ts : List (Byte × Int × Int)) : Grafo :=
  ts.foldl (fun g t => (adicionar_antena g t.1 t.2.1 t.2.2).1) criar_grafo

/-- Loop of reiniciar_visitas over the vertex chain. -/
def reiniciar_desde : Grafo → List Nat → Grafo
  | g, [] => g
  | g, atual :: resto => reiniciar_desde (g.marcar atual false) resto

/-- Source function reiniciar_visitas. -/
def reiniciar_visitas (g : Grafo) : Grafo :=
  reiniciar_desde g g.vertices

/-- The while loop of dfs_util (lines 103-106) over an edge chain; chamada is the recursive
call dfs_util(aresta->destino, callback).  The accumulated trace is threaded through. -/
def dfs_arestas (chamada : Grafo → Option Nat → Option (Grafo × List Nat)) :
    Grafo → List Nat → List Nat → Option (Grafo × List Nat)
  | g, tr, [] => some (g, tr)
  | g, tr, d :: resto =>
    match chamada g (some d) with
    | none => none
    | some (g1, t1) => dfs_arestas chamada g1 (tr ++ t1) resto

/-- Source function dfs_util.  The first argument bounds the recursion depth (none = bound
exhausted); a pointer is none for NULL.  Result: final heap and the callback trace. -/
def dfs_util : Nat → Grafo → Option Nat → Option (Grafo × List Nat)
  | 0, _, _ => none
  | _ + 1, g, none => some (g, [])
  | fuel + 1, g, some antena =>
    if g.vis antena then some (g, [])
    else
      let g1 := g.marcar antena true
      dfs_arestas (dfs_util fuel) g1 [antena] (g1.adj antena)

/-- Source function dfs: reset the flags, then dfs_util from inicio. -/
def dfs (g : Grafo) (inicio : Option Nat) : Option (Grafo × List Nat) :=
  dfs_util (g.vertices.length + 1) (reiniciar_visitas g) inicio

/-- The inner while of bfs (lines 138-144): every unvisited destination is written at
fila[fim_fila++] (the queue is the list of the cells written so far, fim_fila its length)
and marked (the capacity of the queue is not part of this function). -/
def bfs_arestas : Grafo → List Nat → List Nat → Grafo × List Nat
  | g, fila, [] => (g, fila)
  | g, fila, d :: resto =>
    if !g.vis d then bfs_arestas (g.marcar d true) (fila ++ [d]) resto
    else bfs_arestas g fila resto

/-- The outer while of bfs (lines 133-145).  The first argument bounds the number of
iterations.  Result: final heap, final queue and the callback trace. -/
def bfs_ciclo : Nat → Grafo → List Nat → Nat → List Nat → Option (Grafo × List Nat × List Nat)
  | 0, _, _, _, _ => none
  | fuel + 1, g, fila, inicio_fila, tr =>
    if h : inicio_fila < fila.length then
      let atual := fila[inicio_fila]
      let r := bfs_arestas g fila (g.adj atual)
      bfs_ciclo fuel r.1 r.2 (inicio_fila + 1) (tr ++ [atual])
    else some (g, fila, tr)

/-- Source function bfs. -/
def bfs (g : Grafo) (inicio : Nat) : Option (Grafo × List Nat × List Nat) :=
  bfs_ciclo (g.vertices.length + 1) ((reiniciar_visitas g).marcar inicio true) [inicio] 0 []

/-- The while loop of encontrar_caminhos_util (lines 161-166); chamada is the recursive call.
The path buffer is the list of its first index cells; achados collects the paths handed to
the callback and escritas the content of the buffer after each write into it. -/
def caminhos_arestas
    (chamada : Grafo → Nat → List Nat →
      Option (Grafo × List Nat × List (List Nat) × List (List Nat))) :
    Grafo → List Nat → List (List Nat) → List (List Nat) → List Nat →
      Option (Grafo × List Nat × List (List Nat) × List (List Nat))
  | g, caminho, achados, escritas, [] => some (g, caminho, achados, escritas)
  | g, caminho, achados, escritas, d :: resto =>
    if !g.vis d then
      match chamada g d caminho with
      | none => none
      | some (g1, caminho1, novos, novas) =>
        caminhos_arestas chamada g1 caminho1 (achados ++ novos) (escritas ++ novas) resto
    else caminhos_arestas chamada g caminho achados escritas resto

/-- Source function encontrar_caminhos_util.  The first argument bounds the recursion depth.
caminho is the content of the buffer below index; the callback receives the buffer content
below the incremented index.  Result: final heap, final buffer content below index, the
paths handed to the callback, and the buffer content below index after every write
caminho[(*index)++] = atual (the capacity of the buffer is not part of this function). -/
def encontrar_caminhos_util :
    Nat → Grafo → Nat → Nat → List Nat →
      Option (Grafo × List Nat × List (List Nat) × List (List Nat))
  | 0, _, _, _, _ => none
  | fuel + 1, g, atual, destino, caminho =>
    let caminho1 := caminho ++ [atual]
    let g1 := g.marcar atual true
    let r :=
      if atual = destino then some (g1, caminho1, [caminho1], [caminho1])
      else
        caminhos_arestas (fun h d c => encontrar_caminhos_util fuel h d destino c)
          g1 caminho1 [] [caminho1] (g1.adj atual)
    match r with
    | none => none
    | some (g2, caminho2, achados, escritas) =>
      some (g2.marcar atual false, caminho2.dropLast, achados, escritas)

/-- Source function encontrar_caminhos: final heap, the list of reported paths, and the
successive contents of the path buffer. -/
def encontrar_caminhos (g : Grafo) (origem destino : Nat) :
    Option (Grafo × List (List Nat) × List (List Nat)) :=
  match encontrar_caminhos_util (g.vertices.length + 1) (reiniciar_visitas g) origem destino [] with
  | none => none
  | some (g1, _, achados, escritas) => some (g1, achados, escritas)

/-- Low byte of a natural number. -/
def byte_de (n : Nat) : Byte := ⟨n % 256, Nat.mod_lt _ (by decide)⟩

/-- The four bytes fwrite emits for a 32-bit int (two's complement, least significant first). -/
def codificar_int (v : Int) : List Byte :=
  let u := (v % 4294967296).toNat
  [byte_de u, byte_de (u / 256), byte_de (u / 65536), byte_de (u / 16777216)]

/-- One fread of sizeof(int) bytes: fails on a short read. -/
def ler_int : List Byte → Option (Int × List Byte)
  | b0 :: b1 :: b2 :: b3 :: resto =>
    let u := b0.val + 256 * b1.val + 65536 * b2.val + 16777216 * b3.val
    some (if u < 2147483648 then (u : Int) else (u : Int) - 4294967296, resto)
  | _ => none

/-- One fread of a single char. -/
def ler_char : List Byte → Option (Byte × List Byte)
  | b :: resto => some (b, resto)
  | [] => none

/-- The record written for one antenna (lines 318-320). -/
def codificar_antena (a : Antena) : List Byte :=
  a.frequencia :: (codificar_int a.x ++ codificar_int a.y)

/-- Source function salvar_grafo_binario: the content of the file written (the fopen failure
branch is not modelled). -/
def salvar_grafo_binario (g : Grafo) : List Byte :=
  codificar_int g.num_vertices ++ (g.vertices.map (fun p => codificar_antena (g.mem p))).flatten

/-- The for loop of carregar_grafo_binario (lines 343-354), by the number of iterations left. -/
def carregar_registos : Nat → Grafo → List Byte → Option Grafo
  | 0, g, _ => some g
  | n + 1, g, bs =>
    match ler_char bs with
    | none => none
    | some (freq, bs1) =>
      match ler_int bs1 with
      | none => none
      | some (x, bs2) =>
        match ler_int bs2 with
        | none => none
        | some (y, bs3) => carregar_registos n (adicionar_antena g freq x y).1 bs3

/-- Source function carregar_grafo_binario on the content of the file (the fopen failure
branch is not modelled); none is the NULL result. -/
def carregar_grafo_binario (bytes : List Byte) : Option Grafo :=
  match ler_int bytes with
  | none => none
  | some (num_vertices, resto) =>
    match carregar_registos num_vertices.toNat criar_grafo resto with
    | none => none
    | some g => some (conectar_antenas g)

/-- Every edge of a stored node leads to a stored node. -/
def Grafo.fechado (g : Grafo) : Prop :=
  ∀ p ∈ g.vertices, ∀ d ∈ g.adj p, d ∈ g.vertices

instance (g : Grafo) : Decidable g.fechado := by
  unfold Grafo.fechado; infer_instance

/-- The edge relation of the graph: b is a destination in the edge chain of a. -/
def Grafo.aresta (g : Grafo) (a b : Nat) : Prop := b ∈ g.adj a

/-- Reachability along edges (zero or more hops). -/
def Grafo.alcanca (g : Grafo) (a b : Nat) : Prop := Relation.ReflTransGen g.aresta a b

/-- What the middle loop of conectar_antenas does to one edge chain: every candidate that
satisfies the pairing condition c and is not yet in the chain is put in front of it. -/
def acumular (c : Nat → Bool) : List Nat → List Nat → List Nat
  | [], acc => acc
  | b :: resto, acc => acumular c resto (if c b = true ∧ b ∉ acc then b :: acc else acc)

/-- The pairing condition of conectar_antenas for a fixed node atual (line 70). -/
def Grafo.par (g : Grafo) (atual outra : Nat) : Bool :=
  decide (atual ≠ outra ∧ g.freq atual = g.freq outra)

/-- Closed form of the heap after the outer loop of conectar_antenas has processed the
nodes in vs. -/
def Grafo.fechar (g : Grafo) (vs : List Nat) : Grafo :=
  { g with mem := fun p =>
      if p ∈ vs then { g.mem p with arestas := acumular (g.par p) g.vertices (g.adj p) }
      else g.mem p }

/-- Invariant of graphs built from criar_grafo by adicionar_antena alone. -/
def Grafo.fresco (g : Grafo) : Prop :=
  g.vertices.Nodup ∧ (∀ p ∈ g.vertices, p < g.prox_livre) ∧ (∀ p, g.adj p = []) ∧
    g.num_vertices = g.vertices.length

/-- The graph obtained from g by one adicionar_antena per triple. -/
def construir_desde (g : Grafo) (ts : List (Byte × Int × Int)) : Grafo :=
  ts.foldl (fun g t => (adicionar_antena g t.1 t.2.1 t.2.2).1) g

/-- The assignment  p->visitado = b  for every p of a list, in order. -/
def Grafo.marcar_lista (g : Grafo) (ps : List Nat) (b : Bool) : Grafo :=
  ps.foldl (fun h p => h.marcar p b) g

/-- Number of entries of the vertex chain whose flag is still false. -/
def Grafo.pendentes (g : Grafo) : Nat :=
  (g.vertices.filter (fun p => !g.vis p)).length

/-- What a finished depth-first run from heap g with the given roots must satisfy: the trace
t has no repetition, holds only nodes that were unvisited and are reachable from a root,
covers every root that was unvisited, and every edge leaving a traced node ends in a node
visited before or traced. -/
def Grafo.dfs_ok (g : Grafo) (raizes t : List Nat) : Prop :=
  t.Nodup ∧ (∀ p ∈ t, g.vis p = false ∧ ∃ r ∈ raizes, g.alcanca r p) ∧
    (∀ r ∈ raizes, g.vis r = true ∨ r ∈ t) ∧
    (∀ p ∈ t, ∀ d ∈ g.adj p, g.vis d = true ∨ d ∈ t)

/-- A hand-made heap: four stored nodes with edges 0→1, 0→2, 1→2, 1→0, 3→0, some flags
already set, and one node (address 4) that is not stored in the graph. -/
def grafo_exemplo : Grafo :=
  { mem := fun p =>
      match p with
      | 0 => ⟨65, 0, 0, true, [1, 2]⟩
      | 1 => ⟨66, 1, 0, false, [2, 0]⟩
      | 2 => ⟨65, 2, 2, true, []⟩
      | 3 => ⟨67, 0, 3, false, [0]⟩
      | _ => ⟨65, 9, 9, true, [0]⟩,
    prox_livre := 5,
    vertices := [3, 2, 1, 0],
    num_vertices := 4 }

/-- Loop invariant of bfs for heap g, queue fila, read index i and trace tr. -/
def Grafo.bfs_inv (g : Grafo) (inicio : Nat) (fila : List Nat) (i : Nat) (tr : List Nat) : Prop :=
  fila.Nodup ∧ (∀ p ∈ g.vertices, (g.vis p = true ↔ p ∈ fila)) ∧
    (∀ p ∈ fila, p ∈ g.vertices ∧ g.alcanca inicio p) ∧ inicio ∈ fila ∧
    tr = fila.take i ∧ i ≤ fila.length ∧ (∀ p ∈ fila.take i, ∀ d ∈ g.adj p, d ∈ fila)

/-- A simple path of the graph from a to d: first node a, last node d, consecutive nodes
joined by an edge, no node twice. -/
def Grafo.caminho (g : Grafo) (a d : Nat) (q : List Nat) : Prop :=
  q.head? = some a ∧ q.getLast? = some d ∧ q.Chain' g.aresta ∧ q.Nodup

/-- Every node of the list has its visited flag clear. -/
def Grafo.livre (g : Grafo) (q : List Nat) : Prop := ∀ x ∈ q, g.vis x = false

/-- The buffer content e extends the content c by a run of pairwise different stored nodes
whose visited flags are clear in g. -/
def Grafo.pilha (g : Grafo) (c e : List Nat) : Prop :=
  ∃ q, e = c ++ q ∧ q.Nodup ∧ g.livre q ∧ ∀ z ∈ q, z ∈ g.vertices

/-- The list p is the buffer content c followed by a walk q of the graph that starts at x,
ends at d, follows edges, and p repeats no node. -/
def Grafo.prolonga (g : Grafo) (c : List Nat) (x d : Nat) (p : List Nat) : Prop :=
  ∃ q, p = c ++ q ∧ q.head? = some x ∧ q.getLast? = some d ∧ q.Chain' g.aresta ∧ p.Nodup

/-- No edge chain of a stored node holds the same destination twice. -/
def Grafo.sem_repetidas (g : Grafo) : Prop := ∀ p ∈ g.vertices, (g.adj p).Nodup

instance (g : Grafo) : Decidable g.sem_repetidas := by
  unfold Grafo.sem_repetidas; infer_instance

/-- The three freads of one loop iteration of carregar_grafo_binario (lines 346-348): a
char and two ints; fails on the first short read. -/
def ler_registo (bs : List Byte) : Option ((Byte × Int × Int) × List Byte) :=
  match ler_char bs with
  | none => none
  | some (freq, bs1) =>
    match ler_int bs1 with
    | none => none
    | some (x, bs2) =>
      match ler_int bs2 with
      | none => none
      | some (y, bs3) => some ((freq, x, y), bs3)

/-- The first n complete (frequencia, x, y) records of a byte sequence, in file order; none
when fewer than n complete records are present. -/
def ler_registos : Nat → List Byte → Option (List (Byte × Int × Int))
  | 0, _ => some []
  | n + 1, bs =>
    match ler_registo bs with
    | none => none
    | some (t, resto) =>
      match ler_registos n resto with
      | none => none
      | some ts => some (t :: ts)

/-- The value fits the C type int (32 bits, two's complement). -/
def int32 (v : Int) : Prop := -2147483648 ≤ v ∧ v < 2147483648

instance (v : Int) : Decidable (int32 v) := by
  unfold int32; infer_instance

/-- The stored data fit their C types: the number of nodes fits an int and so do the
coordinates of every stored node. -/
def Grafo.tipado (g : Grafo) : Prop :=
  g.vertices.length < 2147483648 ∧ ∀ p ∈ g.vertices, int32 (g.mem p).x ∧ int32 (g.mem p).y

instance (g : Grafo) : Decidable g.tipado := by
  unfold Grafo.tipado; infer_instance

/-- Every edge present joins a stored node to a different stored node of the same frequency
(true of every graph produced by criar_grafo, adicionar_antena and conectar_antenas). -/
def Grafo.coerente (g : Grafo) : Prop :=
  ∀ p ∈ g.vertices, ∀ d ∈ g.adj p, d ∈ g.vertices ∧ d ≠ p ∧ g.freq d = g.freq p

instance (g : Grafo) : Decidable g.coerente := by
  unfold Grafo.coerente; infer_instance

/-- The edge relation read on triples: some stored node carrying s has an edge to a node
carrying t. -/
def Grafo.relaciona (g : Grafo) (s t : Byte × Int × Int) : Prop :=
  ∃ a ∈ g.vertices, ∃ b ∈ g.adj a, g.triplo a = s ∧ g.triplo b = t

instance (g : Grafo) (s t : Byte × Int × Int) : Decidable (g.relaciona s t) := by
  unfold Grafo.relaciona; infer_instance

/-- The round trip property: loading what salvar_grafo_binario wrote succeeds, the loaded
graph carries the same multiset of triples, and its edges relate the same pairs of triples as
the edges of conectar_antenas g. -/
def Grafo.ida_e_volta (g : Grafo) : Prop :=
  ∃ g1, carregar_grafo_binario (salvar_grafo_binario g) = some g1 ∧
    (g1.vertices.map g1.triplo).Perm (g.vertices.map g.triplo) ∧
    ∀ s t, g1.relaciona s t ↔ (conectar_antenas g).relaciona s t

/-- What one antenna record looks like in the file, as a function of its triple. -/
def codificar_triplo (t : Byte × Int × Int) : List Byte :=
  t.1 :: (codificar_int t.2.1 ++ codificar_int t.2.2)

/-- Two different positions of the list m carry s and t (in either order). -/
def dois_lugares (m : List (Byte × Int × Int)) (s t : Byte × Int × Int) : Prop :=
  (s ≠ t ∧ s ∈ m ∧ t ∈ m) ∨ (s = t ∧ 2 ≤ m.countP (fun u => decide (u = s)))

/-- The graphs that sequences of calls of the interface build: criar_grafo, then any number
of adicionar_antena and conectar_antenas calls; the traversals only assign visited flags. -/
inductive Grafo.construido : Grafo → Prop
  | criar : Grafo.construido criar_grafo
  | adicionar {g : Grafo} (f : Byte) (x y : Int) :
      g.construido → (adicionar_antena g f x y).1.construido
  | conectar {g : Grafo} : g.construido → (conectar_antenas g).construido
  | marcar {g : Grafo} (p : Nat) (b : Bool) : g.construido → (g.marcar p b).construido

/-- Loop of encontrar_antena over the vertex chain (lines 288-293). -/
def encontrar_desde (g : Grafo) (x y : Int) : List Nat → Option Nat
  | [] => none
  | atual :: resto =>
    if (g.mem atual).x = x ∧ (g.mem atual).y = y then some atual
    else encontrar_desde g x y resto

/-- Source function encontrar_antena; none is the NULL result. -/
def encontrar_antena (g : Grafo) (x y : Int) : Option Nat :=
  encontrar_desde g x y g.vertices

/-- What fgets stores in a buffer that has room for k characters before the final NUL: the
characters of the stream up to and including the first newline, at most k of them; the
second component is the rest of the stream. -/
def ler_linha : Nat → List Byte → List Byte × List Byte
  | 0, fluxo => ([], fluxo)
  | _ + 1, [] => ([], [])
  | k + 1, b :: resto =>
    if b = 10 then ([b], resto)
    else ((b :: (ler_linha k resto).1), (ler_linha k resto).2)

/-- The library call fgets(linha, tamanho, file) on the rest of a stream: none (NULL) at end
of file, otherwise the characters stored in the buffer and the rest of the stream. -/
def fgets (tamanho : Nat) (fluxo : List Byte) : Option (List Byte × List Byte) :=
  if fluxo = [] then none else some (ler_linha (tamanho - 1) fluxo)

/-- The for loop of carregar_grafo_arquivo over one buffer (lines 221-225), from column x:
it stops at the NUL that ends the buffer content (the end of the list), at a NUL character
read from the file, or at the newline. -/
def varrer_linha : Grafo → Int → Int → List Byte → Grafo
  | g, _, _, [] => g
  | g, y, x, c :: resto =>
    if c = 0 ∨ c = 10 then g
    else varrer_linha (if c ≠ 46 then (adicionar_antena g c x y).1 else g) y (x + 1) resto

/-- The while loop of carregar_grafo_arquivo (lines 220-227); the first argument bounds the
number of iterations. -/
def carregar_linhas : Nat → Grafo → Int → List Byte → Option Grafo
  | 0, _, _, _ => none
  | fuel + 1, g, y, fluxo =>
    match fgets 1024 fluxo with
    | none => some g
    | some (linha, resto) => carregar_linhas fuel (varrer_linha g y 0 linha) (y + 1) resto

/-- Source function carregar_grafo_arquivo on the characters of the file as the text stream
delivers them (the fopen failure branch is not modelled). -/
def carregar_grafo_arquivo (conteudo : List Byte) : Option Grafo :=
  match carregar_linhas (conteudo.length + 1) criar_grafo 0 conteudo with
  | none => none
  | some g => some (conectar_antenas g)

/-- Conversion of a mathematical integer to the C type int (32 bits, two's complement,
wrapping). -/
def int32_de (v : Int) : Int := (v + 2147483648) % 4294967296 - 2147483648

/-- The library call abs on an int. -/
def abs32 (v : Int) : Int := int32_de |v|

/-- The int expression a->x*a->x + a->y*a->y (lines 195-196), the argument of sqrt. -/
def soma_quadrados (a : Antena) : Int :=
  int32_de (int32_de (a.x * a.x) + int32_de (a.y * a.y))

/-- The alignment condition of line 194. -/
def alinhadas (a b : Antena) : Bool :=
  (a.x == b.x || a.y == b.y) ||
    (abs32 (int32_de (a.x - b.x)) == abs32 (int32_de (a.y - b.y)))

/-- Position of the leading binary digit of n (0 for n below 2); the first argument only
bounds the recursion. -/
def expoente_aux : Nat → Nat → Nat
  | 0, _ => 0
  | f + 1, n => if n < 2 then 0 else expoente_aux f (n / 2) + 1

/-- Position of the leading binary digit of n: 2^(expoente n) ≤ n < 2^(expoente n + 1) for
positive n. -/
def expoente (n : Nat) : Nat := expoente_aux n n

/-- Binary search for the integer square root: the largest r + t with t below 2^i and
(r + t)² ≤ n. -/
def raiz_bits : Nat → Nat → Nat → Nat
  | 0, _, r => r
  | i + 1, n, r =>
    if (r + 2 ^ i) * (r + 2 ^ i) ≤ n then raiz_bits i n (r + 2 ^ i) else raiz_bits i n r

/-- The integer part of the square root of n. -/
def raiz_inteira (n : Nat) : Nat := raiz_bits (expoente n / 2 + 1) n 0

/-- The integer nearest to the square root of n: the integer part s, or s + 1 when the root
is above s + 1/2, that is, when n > s² + s (a tie cannot occur). -/
def raiz_proxima (n : Nat) : Nat :=
  if raiz_inteira n * raiz_inteira n + raiz_inteira n < n then raiz_inteira n + 1
  else raiz_inteira n

/-- The library call sqrt on the double converted from the int A (lines 195-196), in IEEE 754
double precision, where sqrt is correctly rounded.  A double is represented by the integer
that counts its units of 2^-52: every double that occurs in the test of line 197 is a
multiple of 2^-52.  The result none is NaN (A negative).  For positive A with
4^h ≤ A < 4^(h+1) the root lies between 2^h and 2^(h+1), so the 53-bit significand of the
nearest double is the integer nearest to sqrt(A) * 2^(52-h) = sqrt(A * 4^(52-h)), and the
double is that integer times 2^h units. -/
def sqrt_duplo (A : Int) : Option Int :=
  if A < 0 then none
  else if A = 0 then some 0
  else
    some ((raiz_proxima (A.toNat * 4 ^ (52 - expoente A.toNat / 2)) *
      2 ^ (expoente A.toNat / 2) : Nat) : Int)

/-- Rounding to double precision of a non-negative number of n units of 2^-52: the 53
leading binary digits are kept, the k = expoente n + 1 - 53 digits below them are rounded
to nearest, a tie going to the even significand (k = 0 and no change for n below 2^53). -/
def arredondar_nat (n : Nat) : Nat :=
  if 2 * (n % 2 ^ (expoente n + 1 - 53)) < 2 ^ (expoente n + 1 - 53) then
    n / 2 ^ (expoente n + 1 - 53) * 2 ^ (expoente n + 1 - 53)
  else if 2 ^ (expoente n + 1 - 53) < 2 * (n % 2 ^ (expoente n + 1 - 53)) then
    (n / 2 ^ (expoente n + 1 - 53) + 1) * 2 ^ (expoente n + 1 - 53)
  else if n / 2 ^ (expoente n + 1 - 53) % 2 = 0 then
    n / 2 ^ (expoente n + 1 - 53) * 2 ^ (expoente n + 1 - 53)
  else (n / 2 ^ (expoente n + 1 - 53) + 1) * 2 ^ (expoente n + 1 - 53)

/-- Rounding to double precision of a number of v units of 2^-52, of either sign. -/
def arredondar (v : Int) : Int :=
  if v < 0 then -((arredondar_nat v.natAbs : Nat) : Int)
  else ((arredondar_nat v.natAbs : Nat) : Int)

/-- The comparison fabs(u - 2*v) < 1e-6 of line 197 on doubles u and v given in units of
2^-52: the product and the difference are rounded to double precision, fabs is exact, and
the literal 1e-6 is the double 4722366482869645 * 2^-72, so the comparison is made in units
of 2^-72 (1048576 = 2^20). -/
def perto (u v : Int) : Bool :=
  decide (|arredondar (u - arredondar (2 * v))| * 1048576 < 4722366482869645)

/-- The test of lines 195-197 as a function of the two int arguments A and B of sqrt:
fabs(distA - 2*distB) < 1e-6 || fabs(distB - 2*distA) < 1e-6 with distA = sqrt(A) and
distB = sqrt(B) in double precision.  Every comparison with a NaN is false. -/
def harmonico_duplo (A B : Int) : Bool :=
  match sqrt_duplo A, sqrt_duplo B with
  | some distA, some distB => perto distA distB || perto distB distA
  | _, _ => false

/-- Body of the inner loop of listar_intersecoes for one pair (lines 193-201). -/
def intersecao_passo (g : Grafo) (freqB : Byte) (a b : Nat) : List (Nat × Nat) :=
  if g.freq b = freqB then
    if alinhadas (g.mem a) (g.mem b) then
      if harmonico_duplo (soma_quadrados (g.mem a)) (soma_quadrados (g.mem b)) then [(a, b)]
      else []
    else []
  else []

/-- Inner loop of listar_intersecoes: b runs over the vertex chain. -/
def intersecoes_b (g : Grafo) (freqB : Byte) (a : Nat) : List Nat → List (Nat × Nat)
  | [] => []
  | b :: resto => intersecao_passo g freqB a b ++ intersecoes_b g freqB a resto

/-- Outer loop of listar_intersecoes: a runs over the vertex chain. -/
def intersecoes_a (g : Grafo) (freqA freqB : Byte) : List Nat → List (Nat × Nat)
  | [] => []
  | a :: resto =>
    (if g.freq a = freqA then intersecoes_b g freqB a g.vertices else []) ++
      intersecoes_a g freqA freqB resto

/-- Source function listar_intersecoes: the sequence of callback invocations. -/
def listar_intersecoes (g : Grafo) (freqA freqB : Byte) : List (Nat × Nat) :=
  intersecoes_a g freqA freqB g.vertices

/-- The triples that varrer_linha adds for one buffer, in the order of the calls of
adicionar_antena. -/
def triplos_linha : Int → Int → List Byte → List (Byte × Int × Int)
  | _, _, [] => []
  | y, x, c :: resto =>
    if c = 0 ∨ c = 10 then []
    else (if c ≠ 46 then [(c, x, y)] else []) ++ triplos_linha y (x + 1) resto

/-- The triples that carregar_linhas adds for a stream, in the order of the calls of
adicionar_antena (same bound as carregar_linhas). -/
def triplos_fluxo : Nat → Int → List Byte → List (Byte × Int × Int)
  | 0, _, _ => []
  | fuel + 1, y, fluxo =>
    match fgets 1024 fluxo with
    | none => []
    | some (linha, resto) => triplos_linha y 0 linha ++ triplos_fluxo fuel (y + 1) resto

/-- The lines of a text: the runs of characters between newlines (a text that ends with a
newline has an empty last line). -/
def linhas : List Byte → List (List Byte)
  | [] => [[]]
  | b :: resto =>
    if b = 10 then [] :: linhas resto
    else
      match linhas resto with
      | [] => [[b]]
      | l :: ls => (b :: l) :: ls

/-- The character at 0-based column x of 0-based line y of a text, if there is one. -/
def caracter_em (texto : List Byte) (x y : Int) : Option Byte :=
  if 0 ≤ x ∧ 0 ≤ y then ((linhas texto)[y.toNat]?).bind (fun l => l[x.toNat]?) else none

/-- The triples of a list of lines, line after line from line number y on. -/
def triplos_linhas : Int → List (List Byte) → List (Byte × Int × Int)
  | _, [] => []
  | y, l :: ls => triplos_linha y 0 l ++ triplos_linhas (y + 1) ls

/-- Number of characters of a text that are neither the dot nor the newline. -/
def contar_antenas (texto : List Byte) : Nat :=
  (texto.filter (fun b => decide (b ≠ 46 ∧ b ≠ 10))).length

/-- A text whose first line has 1023 dots: it does not fit the 1024-byte buffer together
with its newline; the second line is the single character A. -/
def texto_longo : List Byte := List.replicate 1023 46 ++ [10, 65]

/-- The harmonic distance condition of lines 195-197 read in exact real arithmetic, as a
property of the two arguments A and B of sqrt: |sqrt A - 2 sqrt B| < 1e-6 or
|sqrt B - 2 sqrt A| < 1e-6.  The program evaluates it in double precision (harmonico_duplo). -/
def harmonico_exato (A B : Int) : Prop :=
  |Real.sqrt (A : ℝ) - 2 * Real.sqrt (B : ℝ)| < 1 / 1000000 ∨
    |Real.sqrt (B : ℝ) - 2 * Real.sqrt (A : ℝ)| < 1 / 1000000

/-- The evaluation harmonico of the test agrees with exact arithmetic on every pair of
arguments that a non-negative int can hold. -/
def teste_exato (harmonico : Int → Int → Bool) : Prop :=
  ∀ A B : Int, 0 ≤ A → A < 2147483648 → 0 ≤ B → B < 2147483648 →
    (harmonico A B = true ↔ harmonico_exato A B)

/-- An executable evaluation of the harmonic test: one argument is four times the other. -/
def harmonico_inteiro (A B : Int) : Bool := decide (A = 4 * B ∨ B = 4 * A)

/-- The alignment condition on exact integers: same column, same row or a diagonal. -/
def alinhadas_exato (a b : Antena) : Prop :=
  a.x = b.x ∨ a.y = b.y ∨ |a.x - b.x| = |a.y - b.y|

instance (a b : Antena) : Decidable (alinhadas_exato a b) := by
  unfold alinhadas_exato; infer_instance

/-- The exact square of the distance of an antenna from the origin. -/
def quadrado_dist (a : Antena) : Int := a.x * a.x + a.y * a.y

/-- The coordinates of an antenna are ints and the sum of their squares fits an int. -/
def Antena.sem_transbordo (a : Antena) : Prop :=
  int32 a.x ∧ int32 a.y ∧ a.x * a.x + a.y * a.y < 2147483648

instance (a : Antena) : Decidable a.sem_transbordo := by
  unfold Antena.sem_transbordo; infer_instance

/-- No stored node makes the int arithmetic of listar_intersecoes overflow. -/
def Grafo.sem_transbordo (g : Grafo) : Prop := ∀ p ∈ g.vertices, (g.mem p).sem_transbordo

instance (g : Grafo) : Decidable g.sem_transbordo := by
  unfold Grafo.sem_transbordo; infer_instance

/-- All ordered pairs of entries of the vertex chain, first component outermost. -/
def Grafo.pares (g : Grafo) : List (Nat × Nat) :=
  g.vertices.flatMap (fun a => g.vertices.map (fun b => (a, b)))

/-- The condition under which a pair is due to be reported, on exact integers: the
frequencies asked for, alignment, and one sum of squares four times the other. -/
def Grafo.criterio (g : Grafo) (freqA freqB : Byte) (ab : Nat × Nat) : Bool :=
  decide (g.freq ab.1 = freqA ∧ g.freq ab.2 = freqB ∧
    alinhadas_exato (g.mem ab.1) (g.mem ab.2)) &&
    harmonico_inteiro (quadrado_dist (g.mem ab.1)) (quadrado_dist (g.mem ab.2))

/-- The condition under which listar_intersecoes reports a pair, as the program computes
it (int arithmetic on 32 bits, double precision test). -/
def Grafo.criterio_int (g : Grafo) (freqA freqB : Byte) (ab : Nat × Nat) : Bool :=
  decide (g.freq ab.1 = freqA ∧ g.freq ab.2 = freqB) &&
    (alinhadas (g.mem ab.1) (g.mem ab.2) &&
      harmonico_duplo (soma_quadrados (g.mem ab.1)) (soma_quadrados (g.mem ab.2)))

/-- A binary file with two records: A at (65536, 0) and B at (0, 65536), two nodes on a
diagonal whose coordinates make x*x overflow an int. -/
def ficheiro_grande : List Byte :=
  [2, 0, 0, 0, 65, 0, 0, 1, 0, 0, 0, 0, 0, 66, 0, 0, 0, 0, 0, 0, 1, 0]

/-- A binary file with two records: A at (65536, 0) and B at (32768, 0), two nodes on a
row, one twice as far from the origin as the other. -/
def ficheiro_dobro : List Byte :=
  [2, 0, 0, 0, 65, 0, 0, 1, 0, 0, 0, 0, 0, 66, 0, 128, 0, 0, 0, 0, 0, 0]

/-- A small graph for the intersection finder, built through the interface: A at (4, 0),
(6, 0) and (3, 3); B at (2, 0), (4, 4) and (0, 6), at the addresses 0 to 5 in this order
A, B, A, B, A, B. -/
def grafo_cruzado : Grafo :=
  conectar_antenas
    (construir [(65, 4, 0), (66, 2, 0), (65, 6, 0), (66, 4, 4), (65, 3, 3), (66, 0, 6)])

/-- The list F holds pairwise different stored nodes, and the edge chain of each of them
is F without the node itself, in the order of F. -/
def Grafo.clique (g : Grafo) (F : List Nat) : Prop :=
  F.Nodup ∧ ∀ b ∈ F, b ∈ g.vertices ∧ g.adj b = F.filter (fun x => decide (x ≠ b))

/-- The stored nodes of frequency f in the order in which adicionar_antena added them, that
is, in the reverse of the order of the vertex chain (adicionar_antena puts the new node in
front). -/
def Grafo.classe (g : Grafo) (f : Byte) : List Nat :=
  g.vertices.reverse.filter (fun b => decide (g.freq b = f))

/-- The sequence that starts with s and goes on with the other stored nodes of the
frequency of s in the order in which they were added. -/
def Grafo.sequencia (g : Grafo) (s : Nat) : List Nat :=
  s :: g.vertices.reverse.filter (fun b => decide (b ≠ s ∧ g.freq b = g.freq s))

/-- The grid "A.A\n...\nA.A" as file content. -/
def grelha_exemplo : List Byte := [65, 46, 65, 10, 46, 46, 46, 10, 65, 46, 65]

/-! ## Heap bookkeeping -/

theorem Grafo.ext_campos {g h : Grafo} (h1 : g.mem = h.mem) (h2 : g.prox_livre = h.prox_livre)
    (h3 : g.vertices = h.vertices) (h4 : g.num_vertices = h.num_vertices) : g = h := by
  cases g; cases h; simp_all

@[simp] theorem Grafo.vertices_escrever (g : Grafo) (p : Nat) (a : Antena) :
    (g.escrever p a).vertices = g.vertices := rfl

@[simp] theorem Grafo.num_vertices_escrever (g : Grafo) (p : Nat) (a : Antena) :
    (g.escrever p a).num_vertices = g.num_vertices := rfl

@[simp] theorem Grafo.prox_livre_escrever (g : Grafo) (p : Nat) (a : Antena) :
    (g.escrever p a).prox_livre = g.prox_livre := rfl

@[simp] theorem Grafo.mem_escrever (g : Grafo) (p : Nat) (a : Antena) (q : Nat) :
    (g.escrever p a).mem q = if q = p then a else g.mem q := rfl

@[simp] theorem Grafo.vertices_marcar (g : Grafo) (p : Nat) (b : Bool) :
    (g.marcar p b).vertices = g.vertices := rfl

@[simp] theorem Grafo.num_vertices_marcar (g : Grafo) (p : Nat) (b : Bool) :
    (g.marcar p b).num_vertices = g.num_vertices := rfl

@[simp] theorem Grafo.adj_marcar (g : Grafo) (p : Nat) (b : Bool) (q : Nat) :
    (g.marcar p b).adj q = g.adj q := by
  unfold Grafo.adj Grafo.marcar
  by_cases h : q = p <;> simp [h]

@[simp] theorem Grafo.freq_marcar (g : Grafo) (p : Nat) (b : Bool) (q : Nat) :
    (g.marcar p b).freq q = g.freq q := by
  unfold Grafo.freq Grafo.marcar
  by_cases h : q = p <;> simp [h]

@[simp] theorem Grafo.triplo_marcar (g : Grafo) (p : Nat) (b : Bool) (q : Nat) :
    (g.marcar p b).triplo q = g.triplo q := by
  unfold Grafo.triplo Grafo.marcar
  by_cases h : q = p <;> simp [h]

theorem Grafo.vis_marcar (g : Grafo) (p : Nat) (b : Bool) (q : Nat) :
    (g.marcar p b).vis q = if q = p then b else g.vis q := by
  unfold Grafo.vis Grafo.marcar
  by_cases h : q = p <;> simp [h]

@[simp] theorem Grafo.vis_marcar_mesmo (g : Grafo) (p : Nat) (b : Bool) :
    (g.marcar p b).vis p = b := by
  simp [Grafo.vis_marcar]

theorem Grafo.vis_marcar_outro (g : Grafo) {p q : Nat} (b : Bool) (h : q ≠ p) :
    (g.marcar p b).vis q = g.vis q := by
  simp [Grafo.vis_marcar, h]

@[simp] theorem Grafo.aresta_marcar (g : Grafo) (p : Nat) (b : Bool) :
    (g.marcar p b).aresta = g.aresta := by
  funext a c
  simp [Grafo.aresta]

@[simp] theorem Grafo.vertices_comArestas (g : Grafo) (p : Nat) (as : List Nat) :
    (g.comArestas p as).vertices = g.vertices := rfl

@[simp] theorem Grafo.freq_comArestas (g : Grafo) (p : Nat) (as : List Nat) (q : Nat) :
    (g.comArestas p as).freq q = g.freq q := by
  unfold Grafo.freq Grafo.comArestas
  by_cases h : q = p <;> simp [h]

@[simp] theorem Grafo.adj_comArestas_mesmo (g : Grafo) (p : Nat) (as : List Nat) :
    (g.comArestas p as).adj p = as := by
  simp [Grafo.adj, Grafo.comArestas]

@[simp] theorem Grafo.par_comArestas (g : Grafo) (p : Nat) (as : List Nat) :
    (g.comArestas p as).par = g.par := by
  funext a b
  simp [Grafo.par]

theorem Grafo.comArestas_mesmas (g : Grafo) (p : Nat) : g.comArestas p (g.adj p) = g := by
  apply Grafo.ext_campos <;> try rfl
  funext q
  by_cases h : q = p
  · subst h; simp [Grafo.comArestas, Grafo.adj]
  · simp [Grafo.comArestas, h]

theorem Grafo.comArestas_comArestas (g : Grafo) (p : Nat) (as bs : List Nat) :
    (g.comArestas p as).comArestas p bs = g.comArestas p bs := by
  apply Grafo.ext_campos <;> try rfl
  funext q
  by_cases h : q = p <;> simp [Grafo.comArestas, h]

/-! ## conectar_antenas: closed form -/

theorem ja_conectado_iff (as : List Nat) (outra : Nat) :
    ja_conectado as outra = true ↔ outra ∈ as := by
  induction as with
  | nil => simp [ja_conectado]
  | cons d resto ih =>
    by_cases h : d = outra
    · simp [ja_conectado, h]
    · have h2 : ¬ outra = d := fun e => h e.symm
      simp [ja_conectado, h, h2, ih]

theorem conectar_passo_eq (g : Grafo) (atual outra : Nat) :
    conectar_passo g atual outra =
      g.comArestas atual
        (if g.par atual outra = true ∧ outra ∉ g.adj atual then outra :: g.adj atual
         else g.adj atual) := by
  unfold conectar_passo
  by_cases hc : atual ≠ outra ∧ g.freq atual = g.freq outra
  · have hp : g.par atual outra = true := by simp [Grafo.par, hc]
    rw [if_pos hc]
    by_cases hm : outra ∈ g.adj atual
    · have hj := (ja_conectado_iff (g.adj atual) outra).2 hm
      simp [hj, hm, Grafo.comArestas_mesmas]
    · have hj : ja_conectado (g.adj atual) outra = false := by
        cases h : ja_conectado (g.adj atual) outra
        · rfl
        · exact absurd ((ja_conectado_iff _ _).1 h) hm
      have hq : (g.par atual outra = true ∧ outra ∉ g.adj atual) := ⟨hp, hm⟩
      rw [hj, if_pos hq]
      rfl
  · have hp : g.par atual outra = false := by simp [Grafo.par, hc]
    rw [if_neg hc]
    simp [hp, Grafo.comArestas_mesmas]

theorem conectar_interno_eq (atual : Nat) (vs : List Nat) (g : Grafo) :
    conectar_interno atual g vs = g.comArestas atual (acumular (g.par atual) vs (g.adj atual)) := by
  induction vs generalizing g with
  | nil => simp [conectar_interno, acumular, Grafo.comArestas_mesmas]
  | cons outra resto ih =>
    rw [conectar_interno, ih, conectar_passo_eq]
    simp [Grafo.comArestas_comArestas, acumular]

theorem acumular_contem (c : Nat → Bool) (vs acc : List Nat) (x : Nat) :
    x ∈ acumular c vs acc ↔ x ∈ acc ∨ (x ∈ vs ∧ c x = true) := by
  induction vs generalizing acc with
  | nil => simp [acumular]
  | cons b resto ih =>
    rw [acumular, ih]
    by_cases hb : c b = true ∧ b ∉ acc
    · rw [if_pos hb]
      simp only [List.mem_cons]
      constructor
      · rintro ((h | h) | h)
        · subst h; exact Or.inr ⟨Or.inl rfl, hb.1⟩
        · exact Or.inl h
        · exact Or.inr ⟨Or.inr h.1, h.2⟩
      · rintro (h | ⟨h | h, hc⟩)
        · exact Or.inl (Or.inr h)
        · exact Or.inl (Or.inl h)
        · exact Or.inr ⟨h, hc⟩
    · rw [if_neg hb]
      simp only [List.mem_cons]
      constructor
      · rintro (h | h)
        · exact Or.inl h
        · exact Or.inr ⟨Or.inr h.1, h.2⟩
      · rintro (h | ⟨h | h, hc⟩)
        · exact Or.inl h
        · subst h
          by_cases hx : x ∈ acc
          · exact Or.inl hx
          · exact absurd ⟨hc, hx⟩ hb
        · exact Or.inr ⟨h, hc⟩

theorem acumular_nodup (c : Nat → Bool) (vs acc : List Nat) (h : acc.Nodup) :
    (acumular c vs acc).Nodup := by
  induction vs generalizing acc with
  | nil => simpa [acumular] using h
  | cons b resto ih =>
    rw [acumular]
    apply ih
    by_cases hb : c b = true ∧ b ∉ acc
    · rw [if_pos hb]; exact List.nodup_cons.2 ⟨hb.2, h⟩
    · rw [if_neg hb]; exact h

theorem acumular_saturado (c : Nat → Bool) (vs acc : List Nat)
    (h : ∀ b ∈ vs, c b = true → b ∈ acc) : acumular c vs acc = acc := by
  induction vs generalizing acc with
  | nil => rfl
  | cons b resto ih =>
    rw [acumular]
    have hb : ¬ (c b = true ∧ b ∉ acc) := fun hh => hh.2 (h b (List.mem_cons_self _ _) hh.1)
    rw [if_neg hb]
    exact ih acc (fun x hx hc => h x (List.mem_cons_of_mem _ hx) hc)

theorem acumular_idem (c : Nat → Bool) (vs acc : List Nat) :
    acumular c vs (acumular c vs acc) = acumular c vs acc := by
  apply acumular_saturado
  intro b hb hc
  exact (acumular_contem c vs acc b).2 (Or.inr ⟨hb, hc⟩)

theorem conectar_externo_eq (vs : List Nat) (g : Grafo) :
    conectar_externo g vs = g.fechar vs := by
  induction vs generalizing g with
  | nil =>
    apply Grafo.ext_campos <;> try rfl
  | cons atual resto ih =>
    rw [conectar_externo, ih, conectar_interno_eq]
    apply Grafo.ext_campos <;> try rfl
    funext p
    simp only [Grafo.fechar, Grafo.vertices_comArestas, Grafo.par_comArestas, List.mem_cons]
    by_cases hpa : p = atual
    · subst hpa
      by_cases hr : p ∈ resto
      · simp only [hr, if_true, or_true, Grafo.adj_comArestas_mesmo, acumular_idem]
        simp [Grafo.comArestas]
      · simp [hr, Grafo.comArestas]
    · by_cases hr : p ∈ resto
      · simp [hr, hpa, Grafo.comArestas, Grafo.adj]
      · simp [hr, hpa, Grafo.comArestas]

theorem conectar_antenas_eq (g : Grafo) : conectar_antenas g = g.fechar g.vertices :=
  conectar_externo_eq g.vertices g

/-! ## conectar_antenas: frame and idempotence -/

@[simp] theorem Grafo.vertices_fechar (g : Grafo) (vs : List Nat) :
    (g.fechar vs).vertices = g.vertices := rfl

@[simp] theorem Grafo.num_vertices_fechar (g : Grafo) (vs : List Nat) :
    (g.fechar vs).num_vertices = g.num_vertices := rfl

@[simp] theorem Grafo.freq_fechar (g : Grafo) (vs : List Nat) (p : Nat) :
    (g.fechar vs).freq p = g.freq p := by
  unfold Grafo.freq Grafo.fechar
  by_cases h : p ∈ vs <;> simp [h]

@[simp] theorem Grafo.triplo_fechar (g : Grafo) (vs : List Nat) (p : Nat) :
    (g.fechar vs).triplo p = g.triplo p := by
  unfold Grafo.triplo Grafo.fechar
  by_cases h : p ∈ vs <;> simp [h]

@[simp] theorem Grafo.vis_fechar (g : Grafo) (vs : List Nat) (p : Nat) :
    (g.fechar vs).vis p = g.vis p := by
  unfold Grafo.vis Grafo.fechar
  by_cases h : p ∈ vs <;> simp [h]

@[simp] theorem Grafo.par_fechar (g : Grafo) (vs : List Nat) : (g.fechar vs).par = g.par := by
  funext a b
  simp [Grafo.par]

theorem Grafo.adj_fechar_dentro (g : Grafo) {vs : List Nat} {p : Nat} (h : p ∈ vs) :
    (g.fechar vs).adj p = acumular (g.par p) g.vertices (g.adj p) := by
  simp [Grafo.adj, Grafo.fechar, h]

theorem Grafo.adj_fechar_fora (g : Grafo) {vs : List Nat} {p : Nat} (h : p ∉ vs) :
    (g.fechar vs).adj p = g.adj p := by
  simp [Grafo.adj, Grafo.fechar, h]

theorem Grafo.fechar_fechar (g : Grafo) (vs : List Nat) :
    (g.fechar vs).fechar vs = g.fechar vs := by
  apply Grafo.ext_campos <;> try rfl
  funext p
  by_cases h : p ∈ vs
  · have h1 := g.adj_fechar_dentro h
    have h2 : ((g.fechar vs).fechar vs).mem p =
        { (g.fechar vs).mem p with
          arestas := acumular ((g.fechar vs).par p) (g.fechar vs).vertices ((g.fechar vs).adj p) } := by
      simp [Grafo.fechar, h]
    rw [h2, h1, Grafo.par_fechar, Grafo.vertices_fechar, acumular_idem]
    simp [Grafo.fechar, h]
  · simp [Grafo.fechar, h]

theorem conectar_antenas_vertices (g : Grafo) : (conectar_antenas g).vertices = g.vertices := by
  rw [conectar_antenas_eq]; rfl

theorem conectar_antenas_num_vertices (g : Grafo) :
    (conectar_antenas g).num_vertices = g.num_vertices := by
  rw [conectar_antenas_eq]; rfl

theorem conectar_antenas_triplo (g : Grafo) (p : Nat) :
    (conectar_antenas g).triplo p = g.triplo p := by
  rw [conectar_antenas_eq]; simp

theorem conectar_antenas_freq (g : Grafo) (p : Nat) :
    (conectar_antenas g).freq p = g.freq p := by
  rw [conectar_antenas_eq]; simp

theorem conectar_antenas_adj (g : Grafo) {p : Nat} (h : p ∈ g.vertices) :
    (conectar_antenas g).adj p = acumular (g.par p) g.vertices (g.adj p) := by
  rw [conectar_antenas_eq]; exact g.adj_fechar_dentro h

/-! ## Graphs built through adicionar_antena -/

theorem criar_grafo_fresco : criar_grafo.fresco := by
  refine ⟨List.nodup_nil, ?_, ?_, rfl⟩
  · intro p hp; cases hp
  · intro p; rfl

theorem adicionar_antena_fresco (g : Grafo) (f : Byte) (x y : Int) (h : g.fresco) :
    (adicionar_antena g f x y).1.fresco := by
  obtain ⟨h1, h2, h3, h4⟩ := h
  refine ⟨?_, ?_, ?_, ?_⟩
  · show (g.prox_livre :: g.vertices).Nodup
    refine List.nodup_cons.2 ⟨fun hm => Nat.lt_irrefl _ (h2 _ hm), h1⟩
  · intro p hp
    show p < g.prox_livre + 1
    rcases List.mem_cons.1 hp with hp | hp
    · omega
    · exact Nat.lt_succ_of_lt (h2 p hp)
  · intro p
    show (if p = g.prox_livre then (⟨f, x, y, false, []⟩ : Antena) else g.mem p).arestas = []
    by_cases hp : p = g.prox_livre
    · simp [hp]
    · simpa [hp] using h3 p
  · show g.num_vertices + 1 = ((g.prox_livre :: g.vertices).length : Int)
    simp [h4]

theorem construir_desde_fresco (ts : List (Byte × Int × Int)) (g : Grafo) (h : g.fresco) :
    (construir_desde g ts).fresco := by
  induction ts generalizing g with
  | nil => exact h
  | cons t resto ih => exact ih _ (adicionar_antena_fresco g _ _ _ h)

theorem adicionar_antena_triplo_antigo (g : Grafo) (f : Byte) (x y : Int) {p : Nat}
    (hp : p < g.prox_livre) : (adicionar_antena g f x y).1.triplo p = g.triplo p := by
  have : p ≠ g.prox_livre := Nat.ne_of_lt hp
  simp [adicionar_antena, Grafo.triplo, this]

theorem construir_desde_triplos (ts : List (Byte × Int × Int)) (g : Grafo) (h : g.fresco) :
    (construir_desde g ts).vertices.map (construir_desde g ts).triplo =
      ts.reverse ++ g.vertices.map g.triplo := by
  induction ts generalizing g with
  | nil => simp [construir_desde]
  | cons t resto ih =>
    have hf := adicionar_antena_fresco g t.1 t.2.1 t.2.2 h
    have := ih _ hf
    simp only [construir_desde, List.foldl_cons] at this ⊢
    rw [this]
    have h1 : (adicionar_antena g t.1 t.2.1 t.2.2).1.vertices = g.prox_livre :: g.vertices := rfl
    have h2 : (adicionar_antena g t.1 t.2.1 t.2.2).1.triplo g.prox_livre = t := by
      simp [adicionar_antena, Grafo.triplo]
    rw [h1, List.map_cons, h2]
    have h3 : g.vertices.map (adicionar_antena g t.1 t.2.1 t.2.2).1.triplo =
        g.vertices.map g.triplo := by
      apply List.map_congr_left
      intro p hp
      exact adicionar_antena_triplo_antigo g _ _ _ (h.2.1 p hp)
    rw [h3]
    simp

theorem construir_fresco (ts : List (Byte × Int × Int)) : (construir ts).fresco :=
  construir_desde_fresco ts criar_grafo criar_grafo_fresco

theorem construir_triplos (ts : List (Byte × Int × Int)) :
    (construir ts).vertices.map (construir ts).triplo = ts.reverse := by
  have := construir_desde_triplos ts criar_grafo criar_grafo_fresco
  simpa [construir_desde, construir, criar_grafo] using this

/-! ## Claims on conectar_antenas -/

/-- C1: in a graph built by adicionar_antena calls on the empty graph, after
conectar_antenas two distinct stored nodes of equal frequency appear exactly once in each
other's edge chain, no chain contains its own node, every chain entry is a stored node of the
same frequency, and the length of a chain is the number of other stored nodes of that
frequency.  The stored nodes are pairwise distinct addresses carrying the added triples. -/
theorem conectar_antenas_clique (ts : List (Byte × Int × Int)) :
    (conectar_antenas (construir ts)).vertices.Nodup ∧
    (conectar_antenas (construir ts)).vertices.map (conectar_antenas (construir ts)).triplo
      = ts.reverse ∧
    (∀ a ∈ (conectar_antenas (construir ts)).vertices,
      ∀ b ∈ (conectar_antenas (construir ts)).vertices, a ≠ b →
        (conectar_antenas (construir ts)).freq a = (conectar_antenas (construir ts)).freq b →
        ((conectar_antenas (construir ts)).adj a).count b = 1 ∧
        ((conectar_antenas (construir ts)).adj b).count a = 1) ∧
    (∀ a ∈ (conectar_antenas (construir ts)).vertices,
      a ∉ (conectar_antenas (construir ts)).adj a) ∧
    (∀ a ∈ (conectar_antenas (construir ts)).vertices,
      ∀ d ∈ (conectar_antenas (construir ts)).adj a,
        d ∈ (conectar_antenas (construir ts)).vertices ∧
        (conectar_antenas (construir ts)).freq d = (conectar_antenas (construir ts)).freq a) ∧
    (∀ a ∈ (conectar_antenas (construir ts)).vertices,
      ((conectar_antenas (construir ts)).adj a).length =
        ((conectar_antenas (construir ts)).vertices.filter
          (fun b => decide (b ≠ a ∧
            (conectar_antenas (construir ts)).freq b
              = (conectar_antenas (construir ts)).freq a))).length) := by
  obtain ⟨hnd, _, hvazio, _⟩ := construir_fresco ts
  have hadj : ∀ a ∈ (construir ts).vertices, (conectar_antenas (construir ts)).adj a =
      acumular ((construir ts).par a) (construir ts).vertices [] := by
    intro a ha
    rw [conectar_antenas_adj _ ha, hvazio a]
  have hmem : ∀ a ∈ (construir ts).vertices, ∀ d,
      d ∈ (conectar_antenas (construir ts)).adj a ↔
        d ∈ (construir ts).vertices ∧ a ≠ d ∧ (construir ts).freq a = (construir ts).freq d := by
    intro a ha d
    rw [hadj a ha, acumular_contem]
    simp [Grafo.par]
  have hnodup : ∀ a ∈ (construir ts).vertices,
      ((conectar_antenas (construir ts)).adj a).Nodup := by
    intro a ha
    rw [hadj a ha]
    exact acumular_nodup _ _ _ List.nodup_nil
  simp only [conectar_antenas_vertices, conectar_antenas_freq]
  refine ⟨hnd, ?_, ?_, ?_, ?_, ?_⟩
  · have := construir_triplos ts
    rw [← this]
    apply List.map_congr_left
    intro p _
    exact conectar_antenas_triplo _ p
  · intro a ha b hb hab hf
    constructor
    · exact List.count_eq_one_of_mem (hnodup a ha) ((hmem a ha b).2 ⟨hb, hab, hf⟩)
    · exact List.count_eq_one_of_mem (hnodup b hb) ((hmem b hb a).2 ⟨ha, Ne.symm hab, hf.symm⟩)
  · intro a ha hm
    exact ((hmem a ha a).1 hm).2.1 rfl
  · intro a ha d hd
    have := (hmem a ha d).1 hd
    exact ⟨this.1, this.2.2.symm⟩
  · intro a ha
    apply List.Perm.length_eq
    apply (List.perm_ext_iff_of_nodup (hnodup a ha) (hnd.filter _)).2
    intro d
    rw [hmem a ha d, List.mem_filter]
    simp only [decide_eq_true_eq]
    constructor
    · rintro ⟨h1, h2, h3⟩; exact ⟨h1, Ne.symm h2, h3.symm⟩
    · rintro ⟨h1, h2, h3⟩; exact ⟨h1, Ne.symm h2, h3.symm⟩

/-- C2: conectar_antenas is idempotent on every graph, whatever its prior edges: the
second call leaves the whole heap, hence every edge chain with its order, unchanged. -/
theorem conectar_antenas_idempotente (g : Grafo) :
    conectar_antenas (conectar_antenas g) = conectar_antenas g ∧
    ∀ p, (conectar_antenas (conectar_antenas g)).adj p = (conectar_antenas g).adj p := by
  have h : conectar_antenas (conectar_antenas g) = conectar_antenas g := by
    rw [conectar_antenas_eq (conectar_antenas g), conectar_antenas_eq g]
    exact g.fechar_fechar g.vertices
  exact ⟨h, fun p => by rw [h]⟩

/-! ## Visited flags -/

@[simp] theorem Grafo.marcar_lista_nil (g : Grafo) (b : Bool) : g.marcar_lista [] b = g := rfl

@[simp] theorem Grafo.marcar_lista_cons (g : Grafo) (p : Nat) (ps : List Nat) (b : Bool) :
    g.marcar_lista (p :: ps) b = (g.marcar p b).marcar_lista ps b := rfl

theorem Grafo.marcar_lista_append (g : Grafo) (ps qs : List Nat) (b : Bool) :
    g.marcar_lista (ps ++ qs) b = (g.marcar_lista ps b).marcar_lista qs b := by
  simp [Grafo.marcar_lista, List.foldl_append]

@[simp] theorem Grafo.vertices_marcar_lista (g : Grafo) (ps : List Nat) (b : Bool) :
    (g.marcar_lista ps b).vertices = g.vertices := by
  induction ps generalizing g with
  | nil => rfl
  | cons p ps ih => simp [ih]

@[simp] theorem Grafo.num_vertices_marcar_lista (g : Grafo) (ps : List Nat) (b : Bool) :
    (g.marcar_lista ps b).num_vertices = g.num_vertices := by
  induction ps generalizing g with
  | nil => rfl
  | cons p ps ih => simp [ih]

@[simp] theorem Grafo.adj_marcar_lista (g : Grafo) (ps : List Nat) (b : Bool) (q : Nat) :
    (g.marcar_lista ps b).adj q = g.adj q := by
  induction ps generalizing g with
  | nil => rfl
  | cons p ps ih => simp [ih]

@[simp] theorem Grafo.freq_marcar_lista (g : Grafo) (ps : List Nat) (b : Bool) (q : Nat) :
    (g.marcar_lista ps b).freq q = g.freq q := by
  induction ps generalizing g with
  | nil => rfl
  | cons p ps ih => simp [ih]

@[simp] theorem Grafo.triplo_marcar_lista (g : Grafo) (ps : List Nat) (b : Bool) (q : Nat) :
    (g.marcar_lista ps b).triplo q = g.triplo q := by
  induction ps generalizing g with
  | nil => rfl
  | cons p ps ih => simp [ih]

@[simp] theorem Grafo.aresta_marcar_lista (g : Grafo) (ps : List Nat) (b : Bool) :
    (g.marcar_lista ps b).aresta = g.aresta := by
  funext a c
  simp [Grafo.aresta]

theorem Grafo.vis_marcar_lista (g : Grafo) (ps : List Nat) (b : Bool) (q : Nat) :
    (g.marcar_lista ps b).vis q = if q ∈ ps then b else g.vis q := by
  induction ps generalizing g with
  | nil => simp
  | cons p ps ih =>
    rw [Grafo.marcar_lista_cons, ih, Grafo.vis_marcar]
    by_cases h1 : q ∈ ps
    · simp [h1]
    · by_cases h2 : q = p <;> simp [h1, h2]

theorem reiniciar_desde_eq (vs : List Nat) (g : Grafo) :
    reiniciar_desde g vs = g.marcar_lista vs false := by
  induction vs generalizing g with
  | nil => rfl
  | cons p ps ih => rw [reiniciar_desde, ih]; rfl

theorem reiniciar_visitas_eq (g : Grafo) :
    reiniciar_visitas g = g.marcar_lista g.vertices false :=
  reiniciar_desde_eq g.vertices g

@[simp] theorem reiniciar_visitas_vertices (g : Grafo) :
    (reiniciar_visitas g).vertices = g.vertices := by
  simp [reiniciar_visitas_eq]

@[simp] theorem reiniciar_visitas_adj (g : Grafo) (p : Nat) :
    (reiniciar_visitas g).adj p = g.adj p := by
  simp [reiniciar_visitas_eq]

@[simp] theorem reiniciar_visitas_aresta (g : Grafo) :
    (reiniciar_visitas g).aresta = g.aresta := by
  simp [reiniciar_visitas_eq]

theorem reiniciar_visitas_vis (g : Grafo) {p : Nat} (h : p ∈ g.vertices) :
    (reiniciar_visitas g).vis p = false := by
  simp [reiniciar_visitas_eq, Grafo.vis_marcar_lista, h]

theorem reiniciar_visitas_fechado (g : Grafo) (h : g.fechado) : (reiniciar_visitas g).fechado := by
  intro p hp d hd
  simp only [reiniciar_visitas_vertices, reiniciar_visitas_adj] at hp hd ⊢
  exact h p hp d hd

theorem Grafo.fechado_marcar (g : Grafo) (p : Nat) (b : Bool) (h : g.fechado) :
    (g.marcar p b).fechado := by
  intro q hq d hd
  simp only [Grafo.vertices_marcar, Grafo.adj_marcar] at hq hd ⊢
  exact h q hq d hd

theorem Grafo.fechado_marcar_lista (g : Grafo) (ps : List Nat) (b : Bool) (h : g.fechado) :
    (g.marcar_lista ps b).fechado := by
  intro q hq d hd
  simp only [Grafo.vertices_marcar_lista, Grafo.adj_marcar_lista] at hq hd ⊢
  exact h q hq d hd

/-! ## Counting the nodes still to be visited -/

theorem filtro_le (l : List Nat) (p q : Nat → Bool) (h : ∀ x, p x = true → q x = true) :
    (l.filter p).length ≤ (l.filter q).length := by
  induction l with
  | nil => simp
  | cons a l ih =>
    by_cases hp : p a = true
    · have hq := h a hp
      simp [List.filter_cons, hp, hq, ih]
    · by_cases hq : q a = true
      · simp [List.filter_cons, hp, hq]; omega
      · simp [List.filter_cons, hp, hq, ih]

theorem filtro_lt (l : List Nat) (p q : Nat → Bool) (h : ∀ x, p x = true → q x = true)
    (a : Nat) (ha : a ∈ l) (hq : q a = true) (hp : p a = false) :
    (l.filter p).length < (l.filter q).length := by
  induction l with
  | nil => cases ha
  | cons b l ih =>
    rcases List.mem_cons.1 ha with hab | hal
    · subst hab
      have := filtro_le l p q h
      simp [List.filter_cons, hp, hq]; omega
    · have := ih hal
      by_cases hpb : p b = true
      · have hqb := h b hpb
        simp [List.filter_cons, hpb, hqb, this]
      · by_cases hqb : q b = true
        · simp [List.filter_cons, hpb, hqb]; omega
        · simp [List.filter_cons, hpb, hqb, this]

theorem Grafo.pendentes_le_length (g : Grafo) : g.pendentes ≤ g.vertices.length :=
  List.length_filter_le _ _

theorem Grafo.pendentes_marcar_lt (g : Grafo) {a : Nat} (ha : a ∈ g.vertices)
    (hv : g.vis a = false) : (g.marcar a true).pendentes < g.pendentes := by
  unfold Grafo.pendentes
  rw [Grafo.vertices_marcar]
  apply filtro_lt _ _ _ _ a ha
  · simp [hv]
  · simp
  · intro x hx
    rw [Grafo.vis_marcar] at hx
    by_cases h : x = a
    · simp [h, hv]
    · simpa [h] using hx

theorem Grafo.pendentes_marcar_lista_le (g : Grafo) (ps : List Nat) :
    (g.marcar_lista ps true).pendentes ≤ g.pendentes := by
  unfold Grafo.pendentes
  rw [Grafo.vertices_marcar_lista]
  apply filtro_le
  intro x hx
  rw [Grafo.vis_marcar_lista] at hx
  by_cases h : x ∈ ps
  · simp [h] at hx
  · simpa [h] using hx

theorem reiniciar_visitas_pendentes (g : Grafo) :
    (reiniciar_visitas g).pendentes = g.vertices.length := by
  unfold Grafo.pendentes
  rw [reiniciar_visitas_vertices]
  congr 1
  apply List.filter_eq_self.2
  intro p hp
  simp [reiniciar_visitas_vis g hp]

/-! ## Depth-first traversal -/

@[simp] theorem Grafo.alcanca_marcar (g : Grafo) (p : Nat) (b : Bool) :
    (g.marcar p b).alcanca = g.alcanca := by
  funext a c
  simp [Grafo.alcanca]

@[simp] theorem Grafo.alcanca_marcar_lista (g : Grafo) (ps : List Nat) (b : Bool) :
    (g.marcar_lista ps b).alcanca = g.alcanca := by
  funext a c
  simp [Grafo.alcanca]

@[simp] theorem reiniciar_visitas_alcanca (g : Grafo) :
    (reiniciar_visitas g).alcanca = g.alcanca := by
  funext a c
  simp [Grafo.alcanca]

theorem Grafo.alcanca_passo (g : Grafo) {a d p : Nat} (h1 : d ∈ g.adj a) (h2 : g.alcanca d p) :
    g.alcanca a p :=
  Relation.ReflTransGen.head h1 h2

theorem Grafo.vis_marcar_lista_true (g : Grafo) (ps : List Nat) (q : Nat) :
    (g.marcar_lista ps true).vis q = true ↔ q ∈ ps ∨ g.vis q = true := by
  rw [Grafo.vis_marcar_lista]
  by_cases h : q ∈ ps <;> simp [h]

theorem Grafo.vis_marcar_lista_false (g : Grafo) (ps : List Nat) (q : Nat) :
    (g.marcar_lista ps true).vis q = false ↔ q ∉ ps ∧ g.vis q = false := by
  rw [Grafo.vis_marcar_lista]
  by_cases h : q ∈ ps <;> simp [h]

theorem dfs_arestas_spec (fuel : Nat)
    (hrec : ∀ (g : Grafo) (a : Nat), g.fechado → a ∈ g.vertices → g.pendentes < fuel →
      ∃ t, dfs_util fuel g (some a) = some (g.marcar_lista t true, t) ∧ g.dfs_ok [a] t)
    (ds : List Nat) (g : Grafo) (tr : List Nat) (hf : g.fechado)
    (hds : ∀ d ∈ ds, d ∈ g.vertices) (hp : g.pendentes < fuel) :
    ∃ t, dfs_arestas (dfs_util fuel) g tr ds = some (g.marcar_lista t true, tr ++ t) ∧
      g.dfs_ok ds t := by
  induction ds generalizing g tr with
  | nil =>
    refine ⟨[], by simp [dfs_arestas], List.nodup_nil, ?_, ?_, ?_⟩
    · intro p hp; cases hp
    · intro r hr; cases hr
    · intro p hp; cases hp
  | cons d resto ih =>
    obtain ⟨t1, e1, n1, s1, r1, c1⟩ := hrec g d hf (hds d (List.mem_cons_self _ _)) hp
    have hp1 : (g.marcar_lista t1 true).pendentes < fuel :=
      Nat.lt_of_le_of_lt (g.pendentes_marcar_lista_le t1) hp
    obtain ⟨t2, e2, n2, s2, r2, c2⟩ := ih (g.marcar_lista t1 true) (tr ++ t1)
      (g.fechado_marcar_lista t1 true hf)
      (fun x hx => by simpa using hds x (List.mem_cons_of_mem _ hx)) hp1
    refine ⟨t1 ++ t2, ?_, ?_, ?_, ?_, ?_⟩
    · rw [dfs_arestas, e1]
      simp only []
      rw [e2, Grafo.marcar_lista_append, List.append_assoc]
    · refine List.nodup_append.2 ⟨n1, n2, ?_⟩
      intro x hx1 hx2
      have := (s2 x hx2).1
      rw [Grafo.vis_marcar_lista_false] at this
      exact this.1 hx1
    · intro p hp
      rcases List.mem_append.1 hp with h | h
      · obtain ⟨hv, r, hr, hreach⟩ := s1 p h
        rw [List.mem_singleton] at hr
        subst hr
        exact ⟨hv, r, List.mem_cons_self _ _, hreach⟩
      · obtain ⟨hv, r, hr, hreach⟩ := s2 p h
        rw [Grafo.vis_marcar_lista_false] at hv
        rw [Grafo.alcanca_marcar_lista] at hreach
        exact ⟨hv.2, r, List.mem_cons_of_mem _ hr, hreach⟩
    · intro r hr
      rcases List.mem_cons.1 hr with h | h
      · subst h
        rcases r1 r (List.mem_singleton.2 rfl) with h | h
        · exact Or.inl h
        · exact Or.inr (List.mem_append_left _ h)
      · rcases r2 r h with h | h
        · rcases (g.vis_marcar_lista_true t1 r).1 h with h | h
          · exact Or.inr (List.mem_append_left _ h)
          · exact Or.inl h
        · exact Or.inr (List.mem_append_right _ h)
    · intro p hp x hx
      rcases List.mem_append.1 hp with h | h
      · rcases c1 p h x hx with h | h
        · exact Or.inl h
        · exact Or.inr (List.mem_append_left _ h)
      · rcases c2 p h x (by simpa using hx) with h | h
        · rcases (g.vis_marcar_lista_true t1 x).1 h with h | h
          · exact Or.inr (List.mem_append_left _ h)
          · exact Or.inl h
        · exact Or.inr (List.mem_append_right _ h)

theorem dfs_util_spec (fuel : Nat) (g : Grafo) (a : Nat) (hf : g.fechado)
    (ha : a ∈ g.vertices) (hp : g.pendentes < fuel) :
    ∃ t, dfs_util fuel g (some a) = some (g.marcar_lista t true, t) ∧ g.dfs_ok [a] t := by
  induction fuel generalizing g a with
  | zero => omega
  | succ fuel ih =>
    by_cases hv : g.vis a = true
    · refine ⟨[], by simp [dfs_util, hv], List.nodup_nil, ?_, ?_, ?_⟩
      · intro p hp; cases hp
      · intro r hr
        rw [List.mem_singleton] at hr
        subst hr
        exact Or.inl hv
      · intro p hp; cases hp
    · have hv0 : g.vis a = false := by simpa using hv
      have hlt := g.pendentes_marcar_lt ha hv0
      obtain ⟨t, e, n, s, r, c⟩ := dfs_arestas_spec fuel ih ((g.marcar a true).adj a)
        (g.marcar a true) [a] (g.fechado_marcar a true hf)
        (fun d hd => by
          have : d ∈ g.adj a := by simpa using hd
          simpa using hf a ha d this)
        (by omega)
      have hnt : a ∉ t := by
        intro hm
        have := (s a hm).1
        simp at this
      refine ⟨a :: t, ?_, ?_, ?_, ?_, ?_⟩
      · rw [dfs_util]
        simp only [hv, if_false]
        rw [e]
        rfl
      · exact List.nodup_cons.2 ⟨hnt, n⟩
      · intro p hp
        rcases List.mem_cons.1 hp with h | h
        · subst h
          exact ⟨hv0, p, List.mem_singleton.2 rfl, Relation.ReflTransGen.refl⟩
        · obtain ⟨hpv, x, hx, hreach⟩ := s p h
          have hpa : p ≠ a := fun e => hnt (e ▸ h)
          rw [Grafo.vis_marcar_outro g true hpa] at hpv
          rw [Grafo.alcanca_marcar] at hreach
          rw [Grafo.adj_marcar] at hx
          exact ⟨hpv, a, List.mem_singleton.2 rfl, g.alcanca_passo hx hreach⟩
      · intro x hx
        rw [List.mem_singleton] at hx
        subst hx
        exact Or.inr (List.mem_cons_self _ _)
      · intro p hp d hd
        have key : ∀ d, (g.marcar a true).vis d = true ∨ d ∈ t → g.vis d = true ∨ d ∈ a :: t := by
          intro d h
          rcases h with h | h
          · by_cases hda : d = a
            · exact Or.inr (hda ▸ List.mem_cons_self _ _)
            · rw [Grafo.vis_marcar_outro g true hda] at h
              exact Or.inl h
          · exact Or.inr (List.mem_cons_of_mem _ h)
        rcases List.mem_cons.1 hp with h | h
        · subst h
          exact key d (r d (by simpa using hd))
        · exact key d (c p h d (by simpa using hd))

theorem Grafo.fechado_alcanca (g : Grafo) (hf : g.fechado) {a p : Nat} (ha : a ∈ g.vertices)
    (h : g.alcanca a p) : p ∈ g.vertices := by
  induction h with
  | refl => exact ha
  | tail _ hbc ih => exact hf _ ih _ hbc

/-- C3: on a graph whose edges lead to stored nodes, dfs from a stored node returns, and
its callback trace has no repetition and holds exactly the nodes reachable from the start
along edges, whatever the visited flags were before the call. -/
theorem dfs_visita_alcancaveis (g : Grafo) (inicio : Nat) (hf : g.fechado)
    (hi : inicio ∈ g.vertices) :
    ∃ g1 t, dfs g (some inicio) = some (g1, t) ∧ t.Nodup ∧
      ∀ n, n ∈ t ↔ g.alcanca inicio n := by
  have hp : (reiniciar_visitas g).pendentes < g.vertices.length + 1 := by
    rw [reiniciar_visitas_pendentes]; omega
  obtain ⟨t, e, n, s, r, c⟩ := dfs_util_spec (g.vertices.length + 1) (reiniciar_visitas g) inicio
    (reiniciar_visitas_fechado g hf) (by simpa using hi) hp
  refine ⟨_, t, e, n, ?_⟩
  intro x
  constructor
  · intro hx
    obtain ⟨_, y, hy, hreach⟩ := s x hx
    rw [List.mem_singleton] at hy
    subst hy
    simpa using hreach
  · intro hx
    induction hx with
    | refl =>
      rcases r inicio (List.mem_singleton.2 rfl) with h | h
      · rw [reiniciar_visitas_vis g hi] at h; cases h
      · exact h
    | tail hab hbc ih =>
      rename_i b d
      have hd : d ∈ g.vertices := g.fechado_alcanca hf hi (Relation.ReflTransGen.tail hab hbc)
      rcases c b ih d (by simpa using hbc) with h | h
      · rw [reiniciar_visitas_vis g hd] at h; cases h
      · exact h

theorem dfs_visita_alcancaveis_witness :
    grafo_exemplo.fechado ∧ 1 ∈ grafo_exemplo.vertices ∧
      ∃ g1 t, dfs grafo_exemplo (some 1) = some (g1, t) ∧ t.Nodup ∧
        ∀ n, n ∈ t ↔ grafo_exemplo.alcanca 1 n :=
  ⟨by decide, by decide, dfs_visita_alcancaveis grafo_exemplo 1 (by decide) (by decide)⟩

/-! ## Breadth-first traversal -/

theorem bfs_arestas_spec (ds : List Nat) (g : Grafo) (fila : List Nat) :
    ∃ novos, bfs_arestas g fila ds = (g.marcar_lista novos true, fila ++ novos) ∧
      novos.Nodup ∧ (∀ p ∈ novos, g.vis p = false ∧ p ∈ ds) ∧
      (∀ d ∈ ds, g.vis d = true ∨ d ∈ novos) := by
  induction ds generalizing g fila with
  | nil =>
    refine ⟨[], by simp [bfs_arestas], List.nodup_nil, ?_, ?_⟩
    · intro p hp; cases hp
    · intro p hp; cases hp
  | cons d resto ih =>
    by_cases hv : g.vis d = true
    · obtain ⟨novos, e, n, s, c⟩ := ih g fila
      refine ⟨novos, by simp [bfs_arestas, hv, e], n, ?_, ?_⟩
      · intro p hp
        exact ⟨(s p hp).1, List.mem_cons_of_mem _ (s p hp).2⟩
      · intro x hx
        rcases List.mem_cons.1 hx with h | h
        · subst h; exact Or.inl hv
        · exact c x h
    · have hv0 : g.vis d = false := by simpa using hv
      obtain ⟨novos, e, n, s, c⟩ := ih (g.marcar d true) (fila ++ [d])
      have hdn : d ∉ novos := by
        intro hm
        have := (s d hm).1
        simp at this
      refine ⟨d :: novos, ?_, List.nodup_cons.2 ⟨hdn, n⟩, ?_, ?_⟩
      · rw [bfs_arestas]
        simp only [hv0, Bool.not_false, if_true]
        rw [e]
        simp
      · intro p hp
        rcases List.mem_cons.1 hp with h | h
        · subst h; exact ⟨hv0, List.mem_cons_self _ _⟩
        · have hpd : p ≠ d := fun e => hdn (e ▸ h)
          have := s p h
          rw [Grafo.vis_marcar_outro g true hpd] at this
          exact ⟨this.1, List.mem_cons_of_mem _ this.2⟩
      · intro x hx
        rcases List.mem_cons.1 hx with h | h
        · subst h; exact Or.inr (List.mem_cons_self _ _)
        · rcases c x h with h2 | h2
          · by_cases hxd : x = d
            · exact Or.inr (hxd ▸ List.mem_cons_self _ _)
            · rw [Grafo.vis_marcar_outro g true hxd] at h2
              exact Or.inl h2
          · exact Or.inr (List.mem_cons_of_mem _ h2)

theorem Grafo.pendentes_marcar_lista_novos (g : Grafo) (novos : List Nat) (hn : novos.Nodup)
    (hv : ∀ p ∈ novos, g.vis p = false ∧ p ∈ g.vertices) :
    (g.marcar_lista novos true).pendentes + novos.length ≤ g.pendentes := by
  induction novos generalizing g with
  | nil => simp
  | cons p ps ih =>
    have hp := hv p (List.mem_cons_self _ _)
    have h1 := g.pendentes_marcar_lt hp.2 hp.1
    have hnd := List.nodup_cons.1 hn
    have h2 := ih (g.marcar p true) hnd.2 (fun q hq => by
      have hqp : q ≠ p := fun e => hnd.1 (e ▸ hq)
      have := hv q (List.mem_cons_of_mem _ hq)
      rw [Grafo.vis_marcar_outro g true hqp]
      simpa using this)
    rw [Grafo.marcar_lista_cons, List.length_cons]
    omega

theorem bfs_inv_passo (g : Grafo) (inicio : Nat) (fila : List Nat) (i : Nat) (tr : List Nat)
    (hf : g.fechado) (hinv : g.bfs_inv inicio fila i tr) (hi : i < fila.length) :
    (bfs_arestas g fila (g.adj (fila.get ⟨i, hi⟩))).1.fechado ∧
    (bfs_arestas g fila (g.adj (fila.get ⟨i, hi⟩))).1.bfs_inv inicio
      (bfs_arestas g fila (g.adj (fila.get ⟨i, hi⟩))).2 (i + 1) (tr ++ [fila.get ⟨i, hi⟩]) ∧
    (bfs_arestas g fila (g.adj (fila.get ⟨i, hi⟩))).1.pendentes +
      (bfs_arestas g fila (g.adj (fila.get ⟨i, hi⟩))).2.length ≤ g.pendentes + fila.length := by
  obtain ⟨hnd, hvis, hmem, hini, htr, _, hcl⟩ := hinv
  obtain ⟨novos, e, n, s, c⟩ := bfs_arestas_spec (g.adj (fila.get ⟨i, hi⟩)) g fila
  have hat : fila.get ⟨i, hi⟩ ∈ fila := List.get_mem _ _ _
  have hatv := (hmem _ hat).1
  have hnv : ∀ p ∈ novos, p ∈ g.vertices := fun p hp => hf _ hatv p (s p hp).2
  have htake : (fila ++ novos).take (i + 1) = fila.take i ++ [fila.get ⟨i, hi⟩] := by
    rw [List.take_append_of_le_length (by omega), List.take_succ]
    simp [List.getElem?_eq_getElem hi]
  rw [e]
  refine ⟨g.fechado_marcar_lista novos true hf, ⟨?_, ?_, ?_, ?_, ?_, ?_, ?_⟩, ?_⟩
  · refine List.nodup_append.2 ⟨hnd, n, ?_⟩
    intro x hx1 hx2
    have h1 := (hvis x (hnv x hx2)).2 hx1
    rw [(s x hx2).1] at h1
    cases h1
  · intro p hp
    simp only [Grafo.vertices_marcar_lista] at hp
    rw [Grafo.vis_marcar_lista_true, List.mem_append, hvis p hp]
    exact or_comm
  · intro p hp
    simp only [Grafo.vertices_marcar_lista, Grafo.alcanca_marcar_lista]
    rcases List.mem_append.1 hp with h | h
    · exact hmem p h
    · exact ⟨hnv p h, Relation.ReflTransGen.tail (hmem _ hat).2 (s p h).2⟩
  · exact List.mem_append_left _ hini
  · rw [htake, htr]
  · simp only [List.length_append]; omega
  · intro p hp d hd
    rw [htake] at hp
    simp only [Grafo.adj_marcar_lista] at hd
    rcases List.mem_append.1 hp with h | h
    · exact List.mem_append_left _ (hcl p h d hd)
    · rw [List.mem_singleton] at h
      subst h
      rcases c d hd with h2 | h2
      · exact List.mem_append_left _ ((hvis d (hf _ hatv d hd)).1 h2)
      · exact List.mem_append_right _ h2
  · have := g.pendentes_marcar_lista_novos novos n (fun p hp => ⟨(s p hp).1, hnv p hp⟩)
    simp only [List.length_append]
    omega

theorem bfs_ciclo_spec (inicio : Nat) (fuel : Nat) (g : Grafo) (fila : List Nat) (i : Nat)
    (tr : List Nat) (hf : g.fechado) (hinv : g.bfs_inv inicio fila i tr)
    (hfuel : g.pendentes + (fila.length - i) < fuel) :
    ∃ g1 fila1, bfs_ciclo fuel g fila i tr = some (g1, fila1, fila1) ∧
      g1.adj = g.adj ∧ g1.vertices = g.vertices ∧ g1.bfs_inv inicio fila1 fila1.length fila1 := by
  induction fuel generalizing g fila i tr with
  | zero => omega
  | succ fuel ih =>
    by_cases hi : i < fila.length
    · obtain ⟨h1, h2, h3⟩ := bfs_inv_passo g inicio fila i tr hf hinv hi
      obtain ⟨g1, fila1, e, ha, hv, hfinal⟩ := ih _ _ _ _ h1 h2 (by
        have := h2.2.2.2.2.2.1
        omega)
      refine ⟨g1, fila1, ?_, ?_, ?_, hfinal⟩
      · rw [bfs_ciclo]
        simp only [hi, dif_pos]
        exact e
      · rw [ha]
        obtain ⟨novos, e2, -⟩ := bfs_arestas_spec (g.adj (fila.get ⟨i, hi⟩)) g fila
        rw [e2]
        funext q
        simp
      · rw [hv]
        obtain ⟨novos, e2, -⟩ := bfs_arestas_spec (g.adj (fila.get ⟨i, hi⟩)) g fila
        rw [e2]
        simp
    · have hle := hinv.2.2.2.2.2.1
      have hil : i = fila.length := by omega
      have htr : tr = fila := by
        rw [hinv.2.2.2.2.1, hil, List.take_length]
      subst htr
      refine ⟨g, tr, ?_, rfl, rfl, ?_⟩
      · rw [bfs_ciclo]
        simp only [hi, dif_neg, not_false_eq_true]
      · rw [hil] at hinv
        exact hinv

/-- C4: on a graph whose edges lead to stored nodes, bfs from a stored node returns, and
its callback trace has no repetition and holds exactly the nodes reachable from the start
along edges, whatever the visited flags were before the call. -/
theorem bfs_visita_alcancaveis (g : Grafo) (inicio : Nat) (hf : g.fechado)
    (hi : inicio ∈ g.vertices) :
    ∃ g1 fila t, bfs g inicio = some (g1, fila, t) ∧ t.Nodup ∧
      ∀ n, n ∈ t ↔ g.alcanca inicio n := by
  have hf0 : ((reiniciar_visitas g).marcar inicio true).fechado :=
    Grafo.fechado_marcar _ _ _ (reiniciar_visitas_fechado g hf)
  have hinv0 : ((reiniciar_visitas g).marcar inicio true).bfs_inv inicio [inicio] 0 [] := by
    refine ⟨List.nodup_singleton _, ?_, ?_, List.mem_singleton.2 rfl, rfl, Nat.zero_le _, ?_⟩
    · intro p hp
      simp only [Grafo.vertices_marcar, reiniciar_visitas_vertices] at hp
      rw [Grafo.vis_marcar, List.mem_singleton]
      by_cases h : p = inicio
      · simp [h]
      · simp [h, reiniciar_visitas_vis g hp]
    · intro p hp
      rw [List.mem_singleton] at hp
      subst hp
      simp only [Grafo.vertices_marcar, reiniciar_visitas_vertices]
      exact ⟨hi, Relation.ReflTransGen.refl⟩
    · intro p hp
      simp at hp
  have hpend : ((reiniciar_visitas g).marcar inicio true).pendentes + ([inicio].length - 0)
      < g.vertices.length + 1 := by
    have h1 := (reiniciar_visitas g).pendentes_marcar_lt (a := inicio) (by simpa using hi)
      (reiniciar_visitas_vis g hi)
    rw [reiniciar_visitas_pendentes] at h1
    simp only [List.length_singleton]
    omega
  obtain ⟨g1, fila1, e, hadj, hvert, hnd, hvis, hmem, hini, -, -, hcl⟩ :=
    bfs_ciclo_spec inicio _ _ _ _ _ hf0 hinv0 hpend
  refine ⟨g1, fila1, fila1, e, hnd, ?_⟩
  have halc : g1.alcanca = g.alcanca := by
    have : g1.aresta = g.aresta := by
      funext a b
      simp only [Grafo.aresta, hadj]
      simp
    funext a b
    simp only [Grafo.alcanca, this]
  intro x
  constructor
  · intro hx
    have := (hmem x hx).2
    rwa [halc] at this
  · intro hx
    induction hx with
    | refl => exact hini
    | tail hab hbc ih =>
      rename_i b d
      rw [List.take_length] at hcl
      apply hcl b ih d
      have : g1.adj b = g.adj b := by rw [hadj]; simp
      rw [this]
      exact hbc

theorem bfs_visita_alcancaveis_witness :
    grafo_exemplo.fechado ∧ 3 ∈ grafo_exemplo.vertices ∧
      ∃ g1 fila t, bfs grafo_exemplo 3 = some (g1, fila, t) ∧ t.Nodup ∧
        ∀ n, n ∈ t ↔ grafo_exemplo.alcanca 3 n :=
  ⟨by decide, by decide, bfs_visita_alcancaveis grafo_exemplo 3 (by decide) (by decide)⟩

/-! ## Path enumeration -/

theorem Grafo.marcar_desfaz (g : Grafo) (a : Nat) (h : g.vis a = false) :
    (g.marcar a true).marcar a false = g := by
  apply Grafo.ext_campos <;> try rfl
  funext q
  by_cases hq : q = a
  · subst hq
    have : (g.mem q).visitado = false := h
    simp only [Grafo.marcar, Grafo.mem_escrever, if_true]
    cases hm : g.mem q
    rw [hm] at this
    simp at this
    simp [this]
  · simp [Grafo.marcar, hq]

theorem Grafo.sem_repetidas_marcar (g : Grafo) (p : Nat) (b : Bool) (h : g.sem_repetidas) :
    (g.marcar p b).sem_repetidas := by
  intro q hq
  simp only [Grafo.vertices_marcar, Grafo.adj_marcar] at hq ⊢
  exact h q hq

theorem reiniciar_visitas_sem_repetidas (g : Grafo) (h : g.sem_repetidas) :
    (reiniciar_visitas g).sem_repetidas := by
  intro q hq
  simp only [reiniciar_visitas_vertices, reiniciar_visitas_adj] at hq ⊢
  exact h q hq

theorem caminhos_arestas_spec (fuel d : Nat)
    (hrec : ∀ (g : Grafo) (x : Nat) (c : List Nat), g.fechado → x ∈ g.vertices →
      g.vis x = false → g.pendentes < fuel →
      ∃ ps es : List (List Nat),
        encontrar_caminhos_util fuel g x d c = some (g, c, ps.map (fun q => c ++ q), es) ∧
        (g.sem_repetidas → ps.Nodup) ∧ (∀ q, q ∈ ps ↔ g.caminho x d q ∧ g.livre q) ∧
        ∀ e ∈ es, g.pilha c e)
    (ds : List Nat) (g : Grafo) (c : List Nat) (acc esc : List (List Nat)) (hf : g.fechado)
    (hds : ∀ x ∈ ds, x ∈ g.vertices) (hp : g.pendentes < fuel) :
    ∃ pss ess : List (List Nat),
      caminhos_arestas (fun h x c => encontrar_caminhos_util fuel h x d c) g c acc esc ds
        = some (g, c, acc ++ pss.map (fun q => c ++ q), esc ++ ess) ∧
      (g.sem_repetidas → ds.Nodup → pss.Nodup) ∧
      (∀ q, q ∈ pss ↔ ∃ x ∈ ds, g.vis x = false ∧ g.caminho x d q ∧ g.livre q) ∧
      ∀ e ∈ ess, g.pilha c e := by
  induction ds generalizing acc esc with
  | nil =>
    refine ⟨[], [], by simp [caminhos_arestas], fun _ _ => List.nodup_nil, ?_, ?_⟩
    · intro q
      simp
    · intro e he
      cases he
  | cons x resto ih =>
    have hresto : ∀ y ∈ resto, y ∈ g.vertices := fun y hy => hds y (List.mem_cons_of_mem _ hy)
    by_cases hv : g.vis x = true
    · obtain ⟨pss, ess, e, n, m, l⟩ := ih acc esc hresto
      refine ⟨pss, ess, ?_, ?_, ?_, l⟩
      · rw [caminhos_arestas]
        simp only [hv, Bool.not_true, Bool.false_eq_true, if_false]
        exact e
      · intro h1 h2
        exact n h1 (List.nodup_cons.1 h2).2
      · intro q
        rw [m q]
        constructor
        · rintro ⟨y, hy, h⟩
          exact ⟨y, List.mem_cons_of_mem _ hy, h⟩
        · rintro ⟨y, hy, hvy, h⟩
          rcases List.mem_cons.1 hy with h1 | h1
          · subst h1; rw [hv] at hvy; cases hvy
          · exact ⟨y, h1, hvy, h⟩
    · have hv0 : g.vis x = false := by simpa using hv
      obtain ⟨ps, es, e1, n1, m1, l1⟩ := hrec g x c hf (hds x (List.mem_cons_self _ _)) hv0 hp
      obtain ⟨pss, ess, e2, n2, m2, l2⟩ := ih (acc ++ ps.map (fun q => c ++ q)) (esc ++ es) hresto
      refine ⟨ps ++ pss, es ++ ess, ?_, ?_, ?_, ?_⟩
      · rw [caminhos_arestas]
        simp only [hv0, Bool.not_false, if_true]
        rw [e1]
        simp only []
        rw [e2, List.map_append, List.append_assoc, List.append_assoc]
      · intro h1 h2
        have hnd := List.nodup_cons.1 h2
        refine List.nodup_append.2 ⟨n1 h1, n2 h1 hnd.2, ?_⟩
        intro q hq1 hq2
        have a1 := ((m1 q).1 hq1).1.1
        obtain ⟨y, hy, -, a2, -⟩ := (m2 q).1 hq2
        have a3 := a2.1
        rw [a1] at a3
        have : x = y := by simpa using a3
        exact hnd.1 (this ▸ hy)
      · intro q
        rw [List.mem_append, m1 q, m2 q]
        constructor
        · rintro (h | ⟨y, hy, h⟩)
          · exact ⟨x, List.mem_cons_self _ _, hv0, h⟩
          · exact ⟨y, List.mem_cons_of_mem _ hy, h⟩
        · rintro ⟨y, hy, hvy, h⟩
          rcases List.mem_cons.1 hy with h1 | h1
          · subst h1; exact Or.inl h
          · exact Or.inr ⟨y, h1, hvy, h⟩
      · intro e he
        rcases List.mem_append.1 he with h | h
        · exact l1 e h
        · exact l2 e h

theorem Grafo.caminho_trivial (g : Grafo) (a : Nat) (q : List Nat) :
    g.caminho a a q ↔ q = [a] := by
  constructor
  · rintro ⟨h1, h2, -, h4⟩
    cases q with
    | nil => simp at h1
    | cons b q1 =>
      have hb : b = a := by simpa using h1
      subst hb
      cases q1 with
      | nil => rfl
      | cons e q2 =>
        exfalso
        have hl : (e :: q2).getLast? = some b := by
          rw [← h2, List.getLast?_cons_cons]
        have := List.mem_of_getLast?_eq_some hl
        exact (List.nodup_cons.1 h4).1 this
  · rintro rfl
    exact ⟨rfl, rfl, List.chain'_singleton _, List.nodup_singleton _⟩

theorem Grafo.caminho_cons (g : Grafo) {a d : Nat} (had : a ≠ d) (q : List Nat) :
    g.caminho a d q ↔
      ∃ x q1, q = a :: q1 ∧ x ∈ g.adj a ∧ g.caminho x d q1 ∧ a ∉ q1 := by
  constructor
  · rintro ⟨h1, h2, h3, h4⟩
    cases q with
    | nil => simp at h1
    | cons b q1 =>
      have hb : b = a := by simpa using h1
      subst hb
      cases q1 with
      | nil =>
        exfalso
        have : b = d := by simpa using h2
        exact had this
      | cons x q2 =>
        have hc := List.chain'_cons.1 h3
        have hn := List.nodup_cons.1 h4
        refine ⟨x, x :: q2, rfl, hc.1, ⟨rfl, ?_, hc.2, hn.2⟩, hn.1⟩
        rw [← h2, List.getLast?_cons_cons]
  · rintro ⟨x, q1, rfl, hx, ⟨h1, h2, h3, h4⟩, ha⟩
    cases q1 with
    | nil => simp at h1
    | cons y q2 =>
      have hy : y = x := by simpa using h1
      subst hy
      refine ⟨rfl, ?_, List.chain'_cons.2 ⟨hx, h3⟩, List.nodup_cons.2 ⟨ha, h4⟩⟩
      rw [List.getLast?_cons_cons]
      exact h2

theorem Grafo.caminho_marcar (g : Grafo) (p : Nat) (b : Bool) (a d : Nat) (q : List Nat) :
    (g.marcar p b).caminho a d q ↔ g.caminho a d q := by
  simp [Grafo.caminho]

theorem reiniciar_visitas_caminho (g : Grafo) (a d : Nat) (q : List Nat) :
    (reiniciar_visitas g).caminho a d q ↔ g.caminho a d q := by
  simp [Grafo.caminho]

theorem Grafo.cadeia_dentro (g : Grafo) (hf : g.fechado) (q : List Nat) (a : Nat)
    (ha : a ∈ g.vertices) (hc : (a :: q).Chain' g.aresta) : ∀ x ∈ a :: q, x ∈ g.vertices := by
  induction q generalizing a with
  | nil =>
    intro x hx
    rw [List.mem_singleton] at hx
    exact hx ▸ ha
  | cons b q ih =>
    have h := List.chain'_cons.1 hc
    intro x hx
    rcases List.mem_cons.1 hx with h1 | h1
    · exact h1 ▸ ha
    · exact ih b (hf a ha b h.1) h.2 x h1

theorem Grafo.caminho_dentro (g : Grafo) (hf : g.fechado) {a d : Nat} {q : List Nat}
    (ha : a ∈ g.vertices) (h : g.caminho a d q) : ∀ x ∈ q, x ∈ g.vertices := by
  obtain ⟨h1, -, h3, -⟩ := h
  cases q with
  | nil => simp at h1
  | cons b q1 =>
    have hb : b = a := by simpa using h1
    subst hb
    exact g.cadeia_dentro hf q1 b ha h3

theorem encontrar_caminhos_util_spec (d fuel : Nat) (g : Grafo) (x : Nat) (c : List Nat)
    (hf : g.fechado) (hx : x ∈ g.vertices) (hv : g.vis x = false) (hp : g.pendentes < fuel) :
    ∃ ps es : List (List Nat),
      encontrar_caminhos_util fuel g x d c = some (g, c, ps.map (fun q => c ++ q), es) ∧
        (g.sem_repetidas → ps.Nodup) ∧ (∀ q, q ∈ ps ↔ g.caminho x d q ∧ g.livre q) ∧
        ∀ e ∈ es, g.pilha c e := by
  induction fuel generalizing g x c with
  | zero => omega
  | succ fuel ih =>
    have hpx : g.pilha c (c ++ [x]) := by
      refine ⟨[x], rfl, List.nodup_singleton _, ?_, ?_⟩
      · intro z hz
        rw [List.mem_singleton] at hz
        exact hz ▸ hv
      · intro z hz
        rw [List.mem_singleton] at hz
        exact hz ▸ hx
    by_cases hxd : x = d
    · subst hxd
      refine ⟨[[x]], [c ++ [x]], ?_, fun _ => List.nodup_singleton _, ?_, ?_⟩
      · rw [encontrar_caminhos_util]
        simp [g.marcar_desfaz x hv]
      · intro q
        rw [List.mem_singleton, Grafo.caminho_trivial]
        constructor
        · rintro rfl
          refine ⟨rfl, ?_⟩
          intro y hy
          rw [List.mem_singleton] at hy
          exact hy ▸ hv
        · exact fun h => h.1
      · intro e he
        rw [List.mem_singleton] at he
        exact he ▸ hpx
    · have hlt := g.pendentes_marcar_lt hx hv
      obtain ⟨pss, ess, e, n, m, l⟩ := caminhos_arestas_spec fuel d
        (fun h y c1 a1 a2 a3 a4 => ih h y c1 a1 a2 a3 a4)
        ((g.marcar x true).adj x) (g.marcar x true) (c ++ [x]) [] [c ++ [x]]
        (g.fechado_marcar x true hf)
        (fun y hy => by
          have : y ∈ g.adj x := by simpa using hy
          simpa using hf x hx y this)
        (by omega)
      refine ⟨pss.map (fun q => x :: q), [c ++ [x]] ++ ess, ?_, ?_, ?_, ?_⟩
      · rw [encontrar_caminhos_util]
        simp only [hxd, if_false]
        rw [e]
        simp [g.marcar_desfaz x hv]
      · intro hs
        have h1 := n (g.sem_repetidas_marcar x true hs) (by
          rw [Grafo.adj_marcar]; exact hs x hx)
        exact h1.map (fun a b hab => by simpa using hab)
      · intro q
        rw [List.mem_map, Grafo.caminho_cons g hxd]
        constructor
        · rintro ⟨q1, hq1, rfl⟩
          obtain ⟨y, hy, -, hc, hl⟩ := (m q1).1 hq1
          rw [Grafo.adj_marcar] at hy
          rw [Grafo.caminho_marcar] at hc
          have hnot : x ∉ q1 := by
            intro hm
            have := hl x hm
            simp at this
          refine ⟨⟨y, q1, rfl, hy, hc, hnot⟩, ?_⟩
          intro z hz
          rcases List.mem_cons.1 hz with h1 | h1
          · exact h1 ▸ hv
          · have hzx : z ≠ x := fun e => hnot (e ▸ h1)
            have := hl z h1
            rwa [Grafo.vis_marcar_outro g true hzx] at this
        · rintro ⟨⟨y, q1, rfl, hy, hc, hnot⟩, hl⟩
          refine ⟨q1, (m q1).2 ?_, rfl⟩
          have hlivre : (g.marcar x true).livre q1 := by
            intro z hz
            have hzx : z ≠ x := fun e => hnot (e ▸ hz)
            rw [Grafo.vis_marcar_outro g true hzx]
            exact hl z (List.mem_cons_of_mem _ hz)
          have hyq : y ∈ q1 := List.mem_of_mem_head? hc.1
          refine ⟨y, by simpa using hy, hlivre y hyq, ?_, hlivre⟩
          rw [Grafo.caminho_marcar]
          exact hc
      · intro e he
        rcases List.mem_append.1 he with h | h
        · rw [List.mem_singleton] at h
          exact h ▸ hpx
        · obtain ⟨q, rfl, hq1, hq2, hq3⟩ := l e h
          have hnot : x ∉ q := by
            intro hm
            have := hq2 x hm
            simp at this
          refine ⟨x :: q, by simp, List.nodup_cons.2 ⟨hnot, hq1⟩, ?_, ?_⟩
          · intro z hz
            rcases List.mem_cons.1 hz with h1 | h1
            · exact h1 ▸ hv
            · have hzx : z ≠ x := fun e => hnot (e ▸ h1)
              have := hq2 z h1
              rwa [Grafo.vis_marcar_outro g true hzx] at this
          · intro z hz
            rcases List.mem_cons.1 hz with h1 | h1
            · exact h1 ▸ hx
            · simpa using hq3 z h1

theorem encontrar_caminhos_spec (g : Grafo) (origem destino : Nat) (hf : g.fechado)
    (ho : origem ∈ g.vertices) :
    ∃ g1 ps es, encontrar_caminhos g origem destino = some (g1, ps, es) ∧
      (g.sem_repetidas → ps.Nodup) ∧ (∀ q, q ∈ ps ↔ g.caminho origem destino q) ∧
      ∀ e ∈ es, e.Nodup ∧ ∀ z ∈ e, z ∈ g.vertices := by
  have hp : (reiniciar_visitas g).pendentes < g.vertices.length + 1 := by
    rw [reiniciar_visitas_pendentes]; omega
  obtain ⟨ps, es, e, n, m, l⟩ := encontrar_caminhos_util_spec destino (g.vertices.length + 1)
    (reiniciar_visitas g) origem [] (reiniciar_visitas_fechado g hf) (by simpa using ho)
    (reiniciar_visitas_vis g ho) hp
  refine ⟨reiniciar_visitas g, ps, es, ?_, ?_, ?_, ?_⟩
  · rw [encontrar_caminhos, e]
    simp
  · intro hs
    exact n (reiniciar_visitas_sem_repetidas g hs)
  · intro q
    rw [m q, reiniciar_visitas_caminho]
    constructor
    · exact fun h => h.1
    · intro h
      refine ⟨h, ?_⟩
      intro z hz
      exact reiniciar_visitas_vis g (g.caminho_dentro hf ho h z hz)
  · intro e he
    obtain ⟨q, rfl, hq1, -, hq3⟩ := l e he
    exact ⟨by simpa using hq1, fun z hz => by simpa using hq3 z (by simpa using hz)⟩

theorem Grafo.marcar_falso_igual (g : Grafo) (a : Nat) (h : g.vis a = false) :
    g.marcar a false = g := by
  apply Grafo.ext_campos <;> try rfl
  funext q
  by_cases hq : q = a
  · subst hq
    have : (g.mem q).visitado = false := h
    simp only [Grafo.marcar, Grafo.mem_escrever, if_true]
    cases hm : g.mem q
    rw [hm] at this
    simp at this
    simp [this]
  · simp [Grafo.marcar, hq]

theorem Grafo.marcar_marcar (g : Grafo) (a : Nat) (b1 b2 : Bool) :
    (g.marcar a b1).marcar a b2 = g.marcar a b2 := by
  apply Grafo.ext_campos <;> try rfl
  funext q
  by_cases hq : q = a <;> simp [Grafo.marcar, hq]

theorem caminhos_arestas_parcial (d : Nat)
    (chamada : Grafo → Nat → List Nat →
      Option (Grafo × List Nat × List (List Nat) × List (List Nat)))
    (hrec : ∀ (g : Grafo) (y : Nat) (c : List Nat)
      (r : Grafo × List Nat × List (List Nat) × List (List Nat)),
      chamada g y c = some r → (∀ z ∈ c, g.vis z = true) → c.Nodup → y ∉ c →
        r.1 = g.marcar y false ∧ r.2.1 = c ∧ ∀ p ∈ r.2.2.1, g.prolonga c y d p)
    (ds : List Nat) (g : Grafo) (c : List Nat) (acc esc : List (List Nat))
    (r : Grafo × List Nat × List (List Nat) × List (List Nat))
    (h : caminhos_arestas chamada g c acc esc ds = some r)
    (hc : ∀ z ∈ c, g.vis z = true) (hn : c.Nodup) :
    r.1 = g ∧ r.2.1 = c ∧ ∀ p ∈ r.2.2.1, p ∈ acc ∨ ∃ y ∈ ds, g.prolonga c y d p := by
  induction ds generalizing acc esc with
  | nil =>
    simp only [caminhos_arestas, Option.some.injEq] at h
    subst h
    exact ⟨rfl, rfl, fun p hp => Or.inl hp⟩
  | cons y resto ih =>
    rw [caminhos_arestas] at h
    by_cases hv : g.vis y = true
    · simp only [hv, Bool.not_true, Bool.false_eq_true, if_false] at h
      obtain ⟨h1, h2, h3⟩ := ih acc esc h
      refine ⟨h1, h2, ?_⟩
      intro p hp
      rcases h3 p hp with h4 | ⟨z, hz, h4⟩
      · exact Or.inl h4
      · exact Or.inr ⟨z, List.mem_cons_of_mem _ hz, h4⟩
    · have hv0 : g.vis y = false := by simpa using hv
      simp only [hv0, Bool.not_false, if_true] at h
      have hyc : y ∉ c := by
        intro hm
        rw [hc y hm] at hv0
        cases hv0
      cases h1 : chamada g y c with
      | none => simp [h1] at h
      | some r1 =>
        obtain ⟨g1, c1, novos, novas⟩ := r1
        simp only [h1] at h
        obtain ⟨e1, e2, e3⟩ := hrec g y c _ h1 hc hn hyc
        simp only at e1 e2 e3
        rw [g.marcar_falso_igual y hv0] at e1
        subst e1
        subst e2
        obtain ⟨h2, h3, h4⟩ := ih (acc ++ novos) (esc ++ novas) h
        refine ⟨h2, h3, ?_⟩
        intro p hp
        rcases h4 p hp with h5 | ⟨z, hz, h5⟩
        · rcases List.mem_append.1 h5 with h6 | h6
          · exact Or.inl h6
          · exact Or.inr ⟨y, List.mem_cons_self _ _, e3 p h6⟩
        · exact Or.inr ⟨z, List.mem_cons_of_mem _ hz, h5⟩

theorem encontrar_caminhos_util_parcial (d fuel : Nat) (g : Grafo) (x : Nat) (c : List Nat)
    (r : Grafo × List Nat × List (List Nat) × List (List Nat))
    (h : encontrar_caminhos_util fuel g x d c = some r)
    (hc : ∀ z ∈ c, g.vis z = true) (hn : c.Nodup) (hx : x ∉ c) :
    r.1 = g.marcar x false ∧ r.2.1 = c ∧ ∀ p ∈ r.2.2.1, g.prolonga c x d p := by
  induction fuel generalizing g x c r with
  | zero => simp [encontrar_caminhos_util] at h
  | succ fuel ih =>
    have hn1 : (c ++ [x]).Nodup := by
      rw [List.nodup_append]
      refine ⟨hn, List.nodup_singleton _, ?_⟩
      intro z hz1 hz2
      rw [List.mem_singleton] at hz2
      exact hx (hz2 ▸ hz1)
    rw [encontrar_caminhos_util] at h
    by_cases hxd : x = d
    · subst hxd
      simp only [if_true, Option.some.injEq] at h
      subst h
      refine ⟨by simp [Grafo.marcar_marcar], by simp, ?_⟩
      intro p hp
      simp only [List.mem_singleton] at hp
      subst hp
      exact ⟨[x], rfl, rfl, rfl, List.chain'_singleton _, hn1⟩
    · simp only [hxd, if_false, Grafo.adj_marcar] at h
      cases h1 : caminhos_arestas (fun h y c => encontrar_caminhos_util fuel h y d c)
          (g.marcar x true) (c ++ [x]) [] [c ++ [x]] (g.adj x) with
      | none => simp [h1] at h
      | some r1 =>
        obtain ⟨g2, c2, achados, escritas⟩ := r1
        simp only [h1, Option.some.injEq] at h
        subst h
        have hc1 : ∀ z ∈ c ++ [x], (g.marcar x true).vis z = true := by
          intro z hz
          rw [Grafo.vis_marcar]
          by_cases hzx : z = x
          · simp [hzx]
          · rcases List.mem_append.1 hz with h2 | h2
            · simpa [hzx] using hc z h2
            · exact absurd (List.mem_singleton.1 h2) hzx
        obtain ⟨e1, e2, e3⟩ := caminhos_arestas_parcial d _
          (fun h y c1 r2 a1 a2 a3 a4 => ih h y c1 r2 a1 a2 a3 a4)
          _ _ _ _ _ _ h1 hc1 hn1
        simp only at e1 e2 e3
        subst e1
        subst e2
        refine ⟨by simp [Grafo.marcar_marcar], by simp, ?_⟩
        intro p hp
        rcases e3 p hp with h2 | ⟨y, hy, q, rfl, hq1, hq2, hq3, hq4⟩
        · cases h2
        · rw [Grafo.aresta_marcar] at hq3
          cases q with
          | nil => simp at hq1
          | cons y1 q1 =>
            have hy1 : y1 = y := by simpa using hq1
            subst hy1
            refine ⟨x :: y1 :: q1, by simp, rfl, ?_, List.chain'_cons.2 ⟨hy, hq3⟩, ?_⟩
            · rw [List.getLast?_cons_cons]; exact hq2
            · simpa using hq4

theorem encontrar_caminhos_parcial (g : Grafo) (origem destino : Nat) (g1 : Grafo)
    (ps es : List (List Nat)) (h : encontrar_caminhos g origem destino = some (g1, ps, es)) :
    ∀ q ∈ ps, q.head? = some origem ∧ q.getLast? = some destino ∧ q.Nodup ∧
      q.Chain' g.aresta := by
  unfold encontrar_caminhos at h
  cases h1 : encontrar_caminhos_util (g.vertices.length + 1) (reiniciar_visitas g) origem
      destino [] with
  | none => simp [h1] at h
  | some r =>
    obtain ⟨g2, c2, achados, escritas⟩ := r
    simp only [h1, Option.some.injEq, Prod.mk.injEq] at h
    obtain ⟨-, rfl, -⟩ := h
    obtain ⟨-, -, e3⟩ := encontrar_caminhos_util_parcial destino _ _ _ _ _ h1
      (fun z hz => by cases hz) List.nodup_nil (fun hz => by cases hz)
    intro q hq
    obtain ⟨q1, rfl, hq1, hq2, hq3, hq4⟩ := e3 q hq
    rw [reiniciar_visitas_aresta] at hq3
    exact ⟨by simpa using hq1, by simpa using hq2, hq4, by simpa using hq3⟩

theorem conta_um {α : Type} [BEq α] [LawfulBEq α] (l : List α) (a : α) (hn : l.Nodup)
    (hm : a ∈ l) : l.count a = 1 := by
  induction l with
  | nil => cases hm
  | cons b l ih =>
    have hnd := List.nodup_cons.1 hn
    rw [List.count_cons]
    by_cases hab : a = b
    · subst hab
      have : List.count a l = 0 := List.count_eq_zero.2 hnd.1
      simp [this]
    · rcases List.mem_cons.1 hm with h | h
      · exact absurd h hab
      · have hba : (b == a) = false := by
          simpa using fun e => hab e.symm
        simp [ih hnd.2 h, hba]

/-- C5: for every graph, origin and destination, every path that encontrar_caminhos hands
to the callback starts at the origin, ends at the destination, repeats no node, and joins
consecutive nodes by an edge of the graph; and on a graph whose edges lead to stored nodes
the call from a stored origin does return. -/
theorem encontrar_caminhos_correto (g : Grafo) (origem destino : Nat) :
    (∀ g1 ps es, encontrar_caminhos g origem destino = some (g1, ps, es) →
      ∀ q ∈ ps, q.head? = some origem ∧ q.getLast? = some destino ∧ q.Nodup ∧
        q.Chain' g.aresta) ∧
    (g.fechado → origem ∈ g.vertices →
      ∃ g1 ps es, encontrar_caminhos g origem destino = some (g1, ps, es)) := by
  refine ⟨fun g1 ps es h => encontrar_caminhos_parcial g origem destino g1 ps es h, ?_⟩
  intro hf ho
  obtain ⟨g1, ps, es, e, -⟩ := encontrar_caminhos_spec g origem destino hf ho
  exact ⟨g1, ps, es, e⟩

theorem encontrar_caminhos_correto_witness :
    grafo_exemplo.fechado ∧ 3 ∈ grafo_exemplo.vertices ∧
      ∃ g1 ps es, encontrar_caminhos grafo_exemplo 3 2 = some (g1, ps, es) ∧
        ∀ q ∈ ps, q.head? = some 3 ∧ q.getLast? = some 2 ∧ q.Nodup ∧
          q.Chain' grafo_exemplo.aresta :=
  ⟨by decide, by decide,
    match (encontrar_caminhos_correto grafo_exemplo 3 2).2 (by decide) (by decide) with
    | ⟨g1, ps, es, e⟩ =>
      ⟨g1, ps, es, e, (encontrar_caminhos_correto grafo_exemplo 3 2).1 g1 ps es e⟩⟩

/-- C6: on a graph whose edges lead to stored nodes and whose edge chains hold no
destination twice, encontrar_caminhos between stored nodes returns and hands every simple
path from origin to destination to the callback exactly once; when there is no such path
the callback is never invoked. -/
theorem encontrar_caminhos_exaustivo (g : Grafo) (origem destino : Nat) (hf : g.fechado)
    (hs : g.sem_repetidas) (ho : origem ∈ g.vertices) (hd : destino ∈ g.vertices) :
    ∃ g1 ps es, encontrar_caminhos g origem destino = some (g1, ps, es) ∧
      (∀ q, g.caminho origem destino q → ps.count q = 1) ∧
      ((∀ q, ¬ g.caminho origem destino q) → ps = []) := by
  have _ := hd
  obtain ⟨g1, ps, es, e, n, m, -⟩ := encontrar_caminhos_spec g origem destino hf ho
  refine ⟨g1, ps, es, e, ?_, ?_⟩
  · intro q hq
    exact conta_um ps q (n hs) ((m q).2 hq)
  · intro hno
    apply List.eq_nil_iff_forall_not_mem.2
    intro q hq
    exact hno q ((m q).1 hq)

theorem encontrar_caminhos_exaustivo_witness :
    grafo_exemplo.fechado ∧ grafo_exemplo.sem_repetidas ∧ 3 ∈ grafo_exemplo.vertices ∧
      2 ∈ grafo_exemplo.vertices ∧
      ∃ g1 ps es, encontrar_caminhos grafo_exemplo 3 2 = some (g1, ps, es) ∧
        (∀ q, grafo_exemplo.caminho 3 2 q → ps.count q = 1) ∧
        ((∀ q, ¬ grafo_exemplo.caminho 3 2 q) → ps = []) :=
  ⟨by decide, by decide, by decide, by decide,
    encontrar_caminhos_exaustivo grafo_exemplo 3 2 (by decide) (by decide) (by decide)
      (by decide)⟩

/-- C7: for every graph and node n, encontrar_caminhos from n to n returns and invokes the
callback exactly once, with the one-element path holding n. -/
theorem encontrar_caminhos_mesmo_no (g : Grafo) (n : Nat) :
    ∃ g1 es, encontrar_caminhos g n n = some (g1, [[n]], es) := by
  refine ⟨((reiniciar_visitas g).marcar n true).marcar n false, [[n]], ?_⟩
  rw [encontrar_caminhos, encontrar_caminhos_util]
  simp

/-! ## Binary codec: reading -/

theorem ler_int_curto (bs : List Byte) (h : bs.length < 4) : ler_int bs = none := by
  rcases bs with _ | ⟨b0, _ | ⟨b1, _ | ⟨b2, _ | ⟨b3, r⟩⟩⟩⟩
  · rfl
  · rfl
  · rfl
  · rfl
  · simp at h; omega

theorem ler_int_comprimento {bs resto : List Byte} {v : Int} (h : ler_int bs = some (v, resto)) :
    bs.length = resto.length + 4 := by
  rcases bs with _ | ⟨b0, _ | ⟨b1, _ | ⟨b2, _ | ⟨b3, r⟩⟩⟩⟩
  · simp [ler_int] at h
  · simp [ler_int] at h
  · simp [ler_int] at h
  · simp [ler_int] at h
  · simp only [ler_int, Option.some.injEq, Prod.mk.injEq] at h
    rw [← h.2]
    simp

theorem ler_registo_comprimento {bs resto : List Byte} {t : Byte × Int × Int}
    (h : ler_registo bs = some (t, resto)) : bs.length = resto.length + 9 := by
  unfold ler_registo at h
  cases bs with
  | nil => simp [ler_char] at h
  | cons b bs1 =>
    simp only [ler_char] at h
    cases h1 : ler_int bs1 with
    | none => simp [h1] at h
    | some r1 =>
      obtain ⟨x, bs2⟩ := r1
      simp only [h1] at h
      cases h2 : ler_int bs2 with
      | none => simp [h2] at h
      | some r2 =>
        obtain ⟨y, bs3⟩ := r2
        simp only [h2, Option.some.injEq, Prod.mk.injEq] at h
        have l1 := ler_int_comprimento h1
        have l2 := ler_int_comprimento h2
        rw [← h.2]
        simp only [List.length_cons]
        omega

theorem ler_registos_curto (n : Nat) (bs : List Byte) (h : bs.length < 9 * n) :
    ler_registos n bs = none := by
  induction n generalizing bs with
  | zero => omega
  | succ n ih =>
    rw [ler_registos]
    cases h1 : ler_registo bs with
    | none => rfl
    | some r =>
      obtain ⟨t, resto⟩ := r
      have l := ler_registo_comprimento h1
      simp only []
      rw [ih resto (by omega)]

theorem carregar_registos_eq (n : Nat) (g : Grafo) (bs : List Byte) :
    carregar_registos n g bs = (ler_registos n bs).map (construir_desde g) := by
  induction n generalizing g bs with
  | zero => rfl
  | succ n ih =>
    rw [carregar_registos, ler_registos]
    unfold ler_registo
    cases h0 : ler_char bs with
    | none => rfl
    | some r0 =>
      obtain ⟨f, bs1⟩ := r0
      simp only []
      cases h1 : ler_int bs1 with
      | none => rfl
      | some r1 =>
        obtain ⟨x, bs2⟩ := r1
        simp only []
        cases h2 : ler_int bs2 with
        | none => rfl
        | some r2 =>
          obtain ⟨y, bs3⟩ := r2
          simp only []
          rw [ih]
          cases ler_registos n bs3 with
          | none => rfl
          | some ts => rfl

/-- C9: a byte sequence shorter than the 4-byte header, or whose header declares a count n
while fewer than n complete 9-byte records follow, makes carregar_grafo_binario fail: the
result is NULL, no graph is returned. -/
theorem carregar_grafo_binario_truncado (bytes : List Byte)
    (h : bytes.length < 4 ∨
      ∃ n resto, ler_int bytes = some (n, resto) ∧ ((resto.length / 9 : Nat) : Int) < n) :
    carregar_grafo_binario bytes = none := by
  rcases h with h | ⟨n, resto, h1, h2⟩
  · simp [carregar_grafo_binario, ler_int_curto bytes h]
  · have hlt : resto.length < 9 * n.toNat := by omega
    simp [carregar_grafo_binario, h1, carregar_registos_eq, ler_registos_curto _ _ hlt]

theorem carregar_grafo_binario_truncado_witness :
    (([2, 0, 0, 0, 65, 0, 0, 0, 0, 0, 0, 0, 0, 66, 1, 0] : List Byte).length < 4 ∨
      ∃ n resto, ler_int [2, 0, 0, 0, 65, 0, 0, 0, 0, 0, 0, 0, 0, 66, 1, 0] = some (n, resto) ∧
        ((resto.length / 9 : Nat) : Int) < n) ∧
    carregar_grafo_binario [2, 0, 0, 0, 65, 0, 0, 0, 0, 0, 0, 0, 0, 66, 1, 0] = none :=
  ⟨Or.inr ⟨2, [65, 0, 0, 0, 0, 0, 0, 0, 0, 66, 1, 0], by decide, by decide⟩,
    carregar_grafo_binario_truncado _
      (Or.inr ⟨2, [65, 0, 0, 0, 0, 0, 0, 0, 0, 66, 1, 0], by decide, by decide⟩)⟩

/-! ## Binary codec: what a successful load returns -/

theorem construir_num_vertices (ts : List (Byte × Int × Int)) :
    (construir ts).num_vertices = ts.length := by
  have h := (construir_fresco ts).2.2.2
  have h2 := congrArg List.length (construir_triplos ts)
  simp only [List.length_map, List.length_reverse] at h2
  rw [h, h2]

theorem carregar_grafo_binario_some {bytes : List Byte} {g : Grafo}
    (h : carregar_grafo_binario bytes = some g) :
    ∃ n resto ts, ler_int bytes = some (n, resto) ∧ ler_registos n.toNat resto = some ts ∧
      g = conectar_antenas (construir ts) := by
  unfold carregar_grafo_binario at h
  cases h1 : ler_int bytes with
  | none => simp [h1] at h
  | some r =>
    obtain ⟨n, resto⟩ := r
    simp only [h1, carregar_registos_eq] at h
    cases h2 : ler_registos n.toNat resto with
    | none => simp [h2] at h
    | some ts =>
      simp only [h2, Option.map_some', Option.some.injEq] at h
      exact ⟨n, resto, ts, rfl, h2, h.symm⟩

theorem ler_codificar_int (v : Int) (resto : List Byte) (h : int32 v) :
    ler_int (codificar_int v ++ resto) = some (v, resto) := by
  obtain ⟨h1, h2⟩ := h
  simp only [codificar_int, byte_de, List.cons_append, List.nil_append, ler_int]
  congr 1
  congr 1
  split <;> omega

theorem ler_codificar_triplo (t : Byte × Int × Int) (resto : List Byte) (hx : int32 t.2.1)
    (hy : int32 t.2.2) : ler_registo (codificar_triplo t ++ resto) = some (t, resto) := by
  unfold ler_registo codificar_triplo
  simp only [List.cons_append, ler_char, List.append_assoc]
  rw [ler_codificar_int _ _ hx]
  simp only []
  rw [ler_codificar_int _ _ hy]

theorem ler_codificar_registos (ts : List (Byte × Int × Int)) (extra : List Byte)
    (h : ∀ t ∈ ts, int32 t.2.1 ∧ int32 t.2.2) :
    ler_registos ts.length ((ts.map codificar_triplo).flatten ++ extra) = some ts := by
  induction ts with
  | nil => rfl
  | cons t ts ih =>
    have ht := h t (List.mem_cons_self _ _)
    simp only [List.length_cons, List.map_cons, List.flatten_cons, List.append_assoc]
    rw [ler_registos, ler_codificar_triplo _ _ ht.1 ht.2]
    simp only []
    rw [ih (fun u hu => h u (List.mem_cons_of_mem _ hu))]

theorem salvar_grafo_binario_eq (g : Grafo) :
    salvar_grafo_binario g = codificar_int g.num_vertices ++
      (((g.vertices.map g.triplo).map codificar_triplo).flatten ++ []) := by
  simp only [salvar_grafo_binario, List.map_map, List.append_nil]
  rfl

theorem carregar_salvar (g : Grafo) (hnum : g.num_vertices = g.vertices.length)
    (ht : g.tipado) :
    carregar_grafo_binario (salvar_grafo_binario g) =
      some (conectar_antenas (construir (g.vertices.map g.triplo))) := by
  obtain ⟨hlen, hxy⟩ := ht
  have hn32 : int32 g.num_vertices := by
    rw [hnum]; constructor <;> omega
  have hts : ∀ t ∈ g.vertices.map g.triplo, int32 t.2.1 ∧ int32 t.2.2 := by
    intro t htm
    obtain ⟨p, hp, rfl⟩ := List.mem_map.1 htm
    exact hxy p hp
  have hrec := ler_codificar_registos (g.vertices.map g.triplo) [] hts
  rw [List.length_map] at hrec
  rw [salvar_grafo_binario_eq, carregar_grafo_binario, ler_codificar_int _ _ hn32]
  simp only [carregar_registos_eq]
  rw [hnum, Int.toNat_ofNat, hrec]
  rfl

/-! ## Edges after conectar_antenas, read on triples -/

theorem conectar_antenas_contem (g : Grafo) (hc : g.coerente) {a : Nat} (ha : a ∈ g.vertices)
    (d : Nat) :
    d ∈ (conectar_antenas g).adj a ↔ d ∈ g.vertices ∧ a ≠ d ∧ g.freq a = g.freq d := by
  rw [conectar_antenas_adj g ha, acumular_contem]
  simp only [Grafo.par, decide_eq_true_eq]
  constructor
  · rintro (h | h)
    · obtain ⟨h1, h2, h3⟩ := hc a ha d h
      exact ⟨h1, Ne.symm h2, h3.symm⟩
    · exact h
  · exact fun h => Or.inr h

theorem construir_coerente (ts : List (Byte × Int × Int)) : (construir ts).coerente := by
  intro p _ d hd
  rw [(construir_fresco ts).2.2.1 p] at hd
  cases hd

theorem countP_dois {T : Type} [DecidableEq T] (τ : Nat → T) (l : List Nat) (hn : l.Nodup)
    (s : T) :
    2 ≤ (l.map τ).countP (fun u => decide (u = s)) ↔
      ∃ a ∈ l, ∃ b ∈ l, a ≠ b ∧ τ a = s ∧ τ b = s := by
  induction l with
  | nil => simp
  | cons x l ih =>
    have hnd := List.nodup_cons.1 hn
    have hpos : 0 < (l.map τ).countP (fun u => decide (u = s)) ↔ ∃ b ∈ l, τ b = s := by
      rw [List.countP_pos_iff]
      simp
    rw [List.map_cons, List.countP_cons]
    constructor
    · intro h
      by_cases hx : τ x = s
      · have : 0 < (l.map τ).countP (fun u => decide (u = s)) := by
          simp only [hx, decide_True, if_true] at h
          omega
        obtain ⟨b, hb, hbs⟩ := hpos.1 this
        exact ⟨x, List.mem_cons_self _ _, b, List.mem_cons_of_mem _ hb,
          fun e => hnd.1 (e ▸ hb), hx, hbs⟩
      · simp only [hx, decide_False, Bool.false_eq_true, if_false, Nat.add_zero] at h
        obtain ⟨a, ha, b, hb, hab, h1, h2⟩ := (ih hnd.2).1 h
        exact ⟨a, List.mem_cons_of_mem _ ha, b, List.mem_cons_of_mem _ hb, hab, h1, h2⟩
    · rintro ⟨a, ha, b, hb, hab, h1, h2⟩
      rcases List.mem_cons.1 ha with ha1 | ha1
      · rcases List.mem_cons.1 hb with hb1 | hb1
        · exact absurd (ha1.trans hb1.symm) hab
        · have : 0 < (l.map τ).countP (fun u => decide (u = s)) := hpos.2 ⟨b, hb1, h2⟩
          have hx : τ x = s := ha1 ▸ h1
          simp only [hx, decide_True, if_true]
          omega
      · rcases List.mem_cons.1 hb with hb1 | hb1
        · have : 0 < (l.map τ).countP (fun u => decide (u = s)) := hpos.2 ⟨a, ha1, h1⟩
          have hx : τ x = s := hb1 ▸ h2
          simp only [hx, decide_True, if_true]
          omega
        · have := (ih hnd.2).2 ⟨a, ha1, b, hb1, hab, h1, h2⟩
          omega

theorem dois_lugares_iff (g : Grafo) (hn : g.vertices.Nodup) (s t : Byte × Int × Int) :
    (∃ a ∈ g.vertices, ∃ b ∈ g.vertices, a ≠ b ∧ g.triplo a = s ∧ g.triplo b = t) ↔
      dois_lugares (g.vertices.map g.triplo) s t := by
  unfold dois_lugares
  by_cases hst : s = t
  · subst hst
    rw [countP_dois g.triplo g.vertices hn s]
    simp
  · constructor
    · rintro ⟨a, ha, b, hb, -, h1, h2⟩
      exact Or.inl ⟨hst, List.mem_map.2 ⟨a, ha, h1⟩, List.mem_map.2 ⟨b, hb, h2⟩⟩
    · rintro (⟨-, h1, h2⟩ | ⟨h, -⟩)
      · obtain ⟨a, ha, ha2⟩ := List.mem_map.1 h1
        obtain ⟨b, hb, hb2⟩ := List.mem_map.1 h2
        refine ⟨a, ha, b, hb, ?_, ha2, hb2⟩
        intro e
        apply hst
        rw [← ha2, ← hb2, e]
      · exact absurd h hst

theorem dois_lugares_perm {m1 m2 : List (Byte × Int × Int)} (h : m1.Perm m2)
    (s t : Byte × Int × Int) : dois_lugares m1 s t ↔ dois_lugares m2 s t := by
  unfold dois_lugares
  rw [h.mem_iff, h.mem_iff, h.countP_eq]

theorem conectar_antenas_relaciona (g : Grafo) (hn : g.vertices.Nodup) (hc : g.coerente)
    (s t : Byte × Int × Int) :
    (conectar_antenas g).relaciona s t ↔
      s.1 = t.1 ∧ dois_lugares (g.vertices.map g.triplo) s t := by
  rw [← dois_lugares_iff g hn]
  unfold Grafo.relaciona
  simp only [conectar_antenas_vertices, conectar_antenas_triplo]
  constructor
  · rintro ⟨a, ha, b, hb, h1, h2⟩
    obtain ⟨hb1, hab, hf⟩ := (conectar_antenas_contem g hc ha b).1 hb
    refine ⟨?_, a, ha, b, hb1, hab, h1, h2⟩
    rw [← h1, ← h2]
    exact hf
  · rintro ⟨hf, a, ha, b, hb, hab, h1, h2⟩
    refine ⟨a, ha, b, (conectar_antenas_contem g hc ha b).2 ⟨hb, hab, ?_⟩, h1, h2⟩
    have : (g.triplo a).1 = (g.triplo b).1 := by rw [h1, h2]; exact hf
    exact this

theorem conectar_antenas_prox_livre (g : Grafo) :
    (conectar_antenas g).prox_livre = g.prox_livre := by
  rw [conectar_antenas_eq]
  rfl

theorem adicionar_antena_coerente (g : Grafo) (f : Byte) (x y : Int)
    (hb : ∀ p ∈ g.vertices, p < g.prox_livre) (hc : g.coerente) :
    (adicionar_antena g f x y).1.coerente := by
  intro p hp d hd
  have hv : (adicionar_antena g f x y).1.vertices = g.prox_livre :: g.vertices := rfl
  have hmem : ∀ q, (adicionar_antena g f x y).1.mem q =
      if q = g.prox_livre then ⟨f, x, y, false, []⟩ else g.mem q := fun _ => rfl
  rw [hv] at hp ⊢
  rcases List.mem_cons.1 hp with h1 | h1
  · subst h1
    have : (adicionar_antena g f x y).1.adj g.prox_livre = [] := by
      unfold Grafo.adj
      rw [hmem, if_pos rfl]
    rw [this] at hd
    cases hd
  · have hp1 : p ≠ g.prox_livre := Nat.ne_of_lt (hb p h1)
    have hadj : (adicionar_antena g f x y).1.adj p = g.adj p := by
      unfold Grafo.adj
      rw [hmem, if_neg hp1]
    rw [hadj] at hd
    obtain ⟨hd1, hd2, hd3⟩ := hc p h1 d hd
    have hd4 : d ≠ g.prox_livre := Nat.ne_of_lt (hb d hd1)
    refine ⟨List.mem_cons_of_mem _ hd1, hd2, ?_⟩
    unfold Grafo.freq at hd3 ⊢
    rw [hmem, hmem, if_neg hd4, if_neg hp1]
    exact hd3

/-- C8: binary round trip.  For every graph whose num_vertices equals the number of stored
nodes, loading the bytes written by salvar_grafo_binario succeeds and returns a graph with
the same multiset of (frequencia, x, y) triples whose rebuilt edges relate the same pairs of
triples as the edges of conectar_antenas on the original graph.  The other hypotheses say
that the heap is a graph: the stored nodes are distinct cells, the values fit their C types,
and every edge present joins different stored nodes of equal frequency, which holds of every
graph that the interface builds (construido_estrutura). -/
theorem salvar_carregar_ida_e_volta (g : Grafo) (hn : g.vertices.Nodup)
    (hnum : g.num_vertices = g.vertices.length) (ht : g.tipado) (hc : g.coerente) :
    ∃ g1, carregar_grafo_binario (salvar_grafo_binario g) = some g1 ∧
      (g1.vertices.map g1.triplo).Perm (g.vertices.map g.triplo) ∧
      ∀ s t, g1.relaciona s t ↔ (conectar_antenas g).relaciona s t := by
  have htri : (conectar_antenas (construir (g.vertices.map g.triplo))).vertices.map
      (conectar_antenas (construir (g.vertices.map g.triplo))).triplo
      = (g.vertices.map g.triplo).reverse := by
    rw [← construir_triplos (g.vertices.map g.triplo), conectar_antenas_vertices]
    apply List.map_congr_left
    intro p _
    exact conectar_antenas_triplo _ p
  refine ⟨_, carregar_salvar g hnum ht, ?_, ?_⟩
  · rw [htri]
    exact List.reverse_perm _
  · intro s t
    rw [conectar_antenas_relaciona _ (construir_fresco _).1 (construir_coerente _),
      conectar_antenas_relaciona g hn hc, construir_triplos,
      dois_lugares_perm (List.reverse_perm _)]

theorem salvar_carregar_ida_e_volta_witness :
    (conectar_antenas (construir [(65, 0, 0), (65, 2, 0), (66, -1, 5)])).vertices.Nodup ∧
      (conectar_antenas (construir [(65, 0, 0), (65, 2, 0), (66, -1, 5)])).num_vertices =
        (conectar_antenas (construir [(65, 0, 0), (65, 2, 0), (66, -1, 5)])).vertices.length ∧
      (conectar_antenas (construir [(65, 0, 0), (65, 2, 0), (66, -1, 5)])).tipado ∧
      (conectar_antenas (construir [(65, 0, 0), (65, 2, 0), (66, -1, 5)])).coerente ∧
      ∃ g1, carregar_grafo_binario (salvar_grafo_binario
          (conectar_antenas (construir [(65, 0, 0), (65, 2, 0), (66, -1, 5)]))) = some g1 ∧
        (g1.vertices.map g1.triplo).Perm
          ((conectar_antenas (construir [(65, 0, 0), (65, 2, 0), (66, -1, 5)])).vertices.map
            (conectar_antenas (construir [(65, 0, 0), (65, 2, 0), (66, -1, 5)])).triplo) ∧
        ∀ s t, g1.relaciona s t ↔
          (conectar_antenas (conectar_antenas
            (construir [(65, 0, 0), (65, 2, 0), (66, -1, 5)]))).relaciona s t :=
  ⟨by decide, by decide, by decide, by decide,
    salvar_carregar_ida_e_volta
      (conectar_antenas (construir [(65, 0, 0), (65, 2, 0), (66, -1, 5)]))
      (by decide) (by decide) (by decide) (by decide)⟩

/-! ## The structural conditions hold for every graph the interface builds -/

theorem coerente_fechado (g : Grafo) (h : g.coerente) : g.fechado :=
  fun p hp d hd => (h p hp d hd).1

theorem conectar_antenas_coerente (g : Grafo) (h : g.coerente) :
    (conectar_antenas g).coerente := by
  intro p hp d hd
  rw [conectar_antenas_vertices] at hp ⊢
  obtain ⟨h1, h2, h3⟩ := (conectar_antenas_contem g h hp d).1 hd
  exact ⟨h1, Ne.symm h2, by simp only [conectar_antenas_freq]; exact h3.symm⟩

theorem conectar_antenas_sem_repetidas (g : Grafo) (h : g.sem_repetidas) :
    (conectar_antenas g).sem_repetidas := by
  intro p hp
  rw [conectar_antenas_vertices] at hp
  rw [conectar_antenas_adj g hp]
  exact acumular_nodup _ _ _ (h p hp)

theorem construir_sem_repetidas (ts : List (Byte × Int × Int)) : (construir ts).sem_repetidas := by
  intro p _
  rw [(construir_fresco ts).2.2.1 p]
  exact List.nodup_nil

theorem conectar_construir_estrutura (ts : List (Byte × Int × Int)) :
    (conectar_antenas (construir ts)).vertices.Nodup ∧
      (conectar_antenas (construir ts)).fechado ∧
      (conectar_antenas (construir ts)).sem_repetidas ∧
      (conectar_antenas (construir ts)).coerente ∧
      (conectar_antenas (construir ts)).num_vertices
        = (conectar_antenas (construir ts)).vertices.length := by
  have hc := conectar_antenas_coerente _ (construir_coerente ts)
  refine ⟨?_, coerente_fechado _ hc, conectar_antenas_sem_repetidas _ (construir_sem_repetidas ts),
    hc, ?_⟩
  · rw [conectar_antenas_vertices]; exact (construir_fresco ts).1
  · rw [conectar_antenas_vertices, conectar_antenas_num_vertices]
    exact (construir_fresco ts).2.2.2

theorem carregar_grafo_binario_estrutura {bytes : List Byte} {g : Grafo}
    (h : carregar_grafo_binario bytes = some g) :
    g.vertices.Nodup ∧ g.fechado ∧ g.sem_repetidas ∧ g.coerente ∧
      g.num_vertices = g.vertices.length := by
  obtain ⟨n, resto, ts, -, -, rfl⟩ := carregar_grafo_binario_some h
  exact conectar_construir_estrutura ts

/-- Every graph that a sequence of interface calls builds is a chain of distinct nodes, its
counter is the number of stored nodes, and each of its edges joins a stored node to a
different stored node of the same frequency (hence leads to a stored node). -/
theorem construido_estrutura (g : Grafo) (h : g.construido) :
    g.vertices.Nodup ∧ (∀ p ∈ g.vertices, p < g.prox_livre) ∧
      g.num_vertices = g.vertices.length ∧ g.coerente ∧ g.fechado := by
  have key : g.vertices.Nodup ∧ (∀ p ∈ g.vertices, p < g.prox_livre) ∧
      g.num_vertices = g.vertices.length ∧ g.coerente := by
    induction h with
    | criar =>
      refine ⟨List.nodup_nil, ?_, rfl, ?_⟩
      · intro p hp; cases hp
      · intro p hp; cases hp
    | adicionar f x y hg ih =>
      rename_i g0
      obtain ⟨h1, h2, h3, h4⟩ := ih
      have hv : (adicionar_antena g0 f x y).1.vertices = g0.prox_livre :: g0.vertices := rfl
      have hpl : (adicionar_antena g0 f x y).1.prox_livre = g0.prox_livre + 1 := rfl
      have hnv : (adicionar_antena g0 f x y).1.num_vertices = g0.num_vertices + 1 := rfl
      refine ⟨?_, ?_, ?_, adicionar_antena_coerente g0 f x y h2 h4⟩
      · rw [hv, List.nodup_cons]
        exact ⟨fun hm => Nat.lt_irrefl _ (h2 _ hm), h1⟩
      · intro p hp
        rw [hv] at hp
        rw [hpl]
        rcases List.mem_cons.1 hp with h5 | h5
        · omega
        · exact Nat.lt_succ_of_lt (h2 p h5)
      · rw [hnv, hv, h3]
        simp
    | conectar hg ih =>
      rename_i g0
      obtain ⟨h1, h2, h3, h4⟩ := ih
      refine ⟨?_, ?_, ?_, conectar_antenas_coerente g0 h4⟩
      · rw [conectar_antenas_vertices]; exact h1
      · rw [conectar_antenas_vertices, conectar_antenas_prox_livre]; exact h2
      · rw [conectar_antenas_vertices, conectar_antenas_num_vertices]; exact h3
    | marcar p b hg ih =>
      rename_i g0
      obtain ⟨h1, h2, h3, h4⟩ := ih
      refine ⟨h1, h2, h3, ?_⟩
      intro q hq d hd
      simp only [Grafo.vertices_marcar, Grafo.adj_marcar, Grafo.freq_marcar] at hq hd ⊢
      exact h4 q hq d hd
  exact ⟨key.1, key.2.1, key.2.2.1, key.2.2.2, coerente_fechado g key.2.2.2⟩

/-! ## Order of the nodes of a built graph -/

theorem construir_desde_vertices (ts : List (Byte × Int × Int)) (g : Grafo) :
    (construir_desde g ts).vertices =
      ((List.range ts.length).map (fun i => g.prox_livre + i)).reverse ++ g.vertices ∧
    (construir_desde g ts).prox_livre = g.prox_livre + ts.length := by
  induction ts generalizing g with
  | nil => simp [construir_desde]
  | cons t resto ih =>
    have h := ih (adicionar_antena g t.1 t.2.1 t.2.2).1
    have hv : (adicionar_antena g t.1 t.2.1 t.2.2).1.vertices = g.prox_livre :: g.vertices := rfl
    have hp : (adicionar_antena g t.1 t.2.1 t.2.2).1.prox_livre = g.prox_livre + 1 := rfl
    have hc : construir_desde g (t :: resto) =
        construir_desde (adicionar_antena g t.1 t.2.1 t.2.2).1 resto := rfl
    rw [hc, h.1, h.2, hv, hp]
    constructor
    · rw [List.length_cons, List.range_succ_eq_map, List.map_cons, List.map_map,
        List.reverse_cons, List.append_assoc]
      simp only [List.singleton_append, Nat.add_zero]
      congr 2
      apply List.map_congr_left
      intro i _
      simp only [Function.comp, Nat.succ_eq_add_one]
      omega
    · simp only [List.length_cons]; omega

theorem construir_vertices (ts : List (Byte × Int × Int)) :
    (construir ts).vertices = (List.range ts.length).reverse := by
  have h := (construir_desde_vertices ts criar_grafo).1
  have h0 : criar_grafo.prox_livre = 0 := rfl
  have hv : criar_grafo.vertices = [] := rfl
  rw [h0, hv] at h
  simpa [construir_desde, construir] using h

theorem construir_mem_vertices (ts : List (Byte × Int × Int)) (p : Nat) :
    p ∈ (construir ts).vertices ↔ p < ts.length := by
  rw [construir_vertices]; simp

theorem construir_triplo (ts : List (Byte × Int × Int)) (i : Nat) (t : Byte × Int × Int) :
    ts[i]? = some t ↔ i < ts.length ∧ (construir ts).triplo i = t := by
  have h := construir_triplos ts
  rw [construir_vertices, List.map_reverse, List.reverse_inj] at h
  constructor
  · intro hi
    have hlt : i < ts.length := (List.getElem?_eq_some_iff.1 hi).1
    refine ⟨hlt, ?_⟩
    have h2 : ((List.range ts.length).map (construir ts).triplo)[i]? = some t := by rw [h]; exact hi
    rw [List.getElem?_map, List.getElem?_range hlt] at h2
    simpa using h2
  · rintro ⟨hlt, rfl⟩
    have h2 : ts[i]? = ((List.range ts.length).map (construir ts).triplo)[i]? := by rw [h]
    rw [h2, List.getElem?_map, List.getElem?_range hlt]
    rfl

theorem vertices_decrescentes (ts : List (Byte × Int × Int)) :
    (construir ts).vertices.Pairwise (fun a b => b < a) := by
  rw [construir_vertices, List.pairwise_reverse]
  exact List.pairwise_lt_range _

/-! ## encontrar_antena -/

theorem encontrar_desde_none (g : Grafo) (x y : Int) (vs : List Nat) :
    encontrar_desde g x y vs = none ↔ ∀ p ∈ vs, ¬ ((g.mem p).x = x ∧ (g.mem p).y = y) := by
  induction vs with
  | nil => simp [encontrar_desde]
  | cons a vs ih =>
    by_cases h : (g.mem a).x = x ∧ (g.mem a).y = y
    · simp only [encontrar_desde, if_pos h]
      constructor
      · intro hh; cases hh
      · intro hh; exact absurd h (hh a (List.mem_cons_self _ _))
    · simp only [encontrar_desde, if_neg h, ih, List.mem_cons]
      constructor
      · rintro hh p (rfl | hp)
        · exact h
        · exact hh p hp
      · intro hh p hp
        exact hh p (Or.inr hp)

theorem encontrar_desde_some (g : Grafo) (x y : Int) (vs : List Nat) (p : Nat)
    (h : encontrar_desde g x y vs = some p) :
    ∃ antes depois, vs = antes ++ p :: depois ∧ ((g.mem p).x = x ∧ (g.mem p).y = y) ∧
      ∀ q ∈ antes, ¬ ((g.mem q).x = x ∧ (g.mem q).y = y) := by
  induction vs with
  | nil => simp [encontrar_desde] at h
  | cons a vs ih =>
    by_cases ha : (g.mem a).x = x ∧ (g.mem a).y = y
    · simp only [encontrar_desde, if_pos ha, Option.some.injEq] at h
      subst h
      exact ⟨[], vs, rfl, ha, fun q hq => by cases hq⟩
    · simp only [encontrar_desde, if_neg ha] at h
      obtain ⟨antes, depois, e, hp, hq⟩ := ih h
      refine ⟨a :: antes, depois, by rw [e]; rfl, hp, ?_⟩
      intro q hq2
      rcases List.mem_cons.1 hq2 with h1 | h1
      · exact h1 ▸ ha
      · exact hq q h1

theorem encontrar_antena_recente (ts : List (Byte × Int × Int)) (g : Grafo)
    (hv : g.vertices = (construir ts).vertices) (ht : ∀ p, g.triplo p = (construir ts).triplo p)
    (x y : Int) (p : Nat) (h : encontrar_antena g x y = some p) :
    (∃ f, ts[p]? = some (f, x, y)) ∧ ∀ i f, ts[i]? = some (f, x, y) → i ≤ p := by
  obtain ⟨antes, depois, e, hp, hq⟩ := encontrar_desde_some g x y _ p h
  have hpv : p ∈ (construir ts).vertices := by
    rw [← hv, e]; simp
  have hplt := (construir_mem_vertices ts p).1 hpv
  have hxy : ∀ q, (g.mem q).x = ((construir ts).triplo q).2.1 ∧
      (g.mem q).y = ((construir ts).triplo q).2.2 := by
    intro q
    rw [← ht q]
    exact ⟨rfl, rfl⟩
  constructor
  · refine ⟨((construir ts).triplo p).1, ?_⟩
    rw [construir_triplo]
    refine ⟨hplt, ?_⟩
    have := hxy p
    rw [hp.1, hp.2] at this
    rw [this.1, this.2]
  · intro i f hi
    obtain ⟨hilt, hti⟩ := (construir_triplo ts i _).1 hi
    have hiv : i ∈ g.vertices := by
      rw [hv]; exact (construir_mem_vertices ts i).2 hilt
    have hi_xy : (g.mem i).x = x ∧ (g.mem i).y = y := by
      have := hxy i
      rw [hti] at this
      exact this
    have hpw := vertices_decrescentes ts
    rw [← hv, e] at hpw
    rw [e] at hiv
    rcases List.mem_append.1 hiv with h1 | h1
    · exact absurd hi_xy (hq i h1)
    · rcases List.mem_cons.1 h1 with h2 | h2
      · omega
      · have := (List.pairwise_cons.1 (List.pairwise_append.1 hpw).2.1).1 i h2
        omega

/-- C15: for every graph and integers x, y, encontrar_antena returns NULL exactly when no
stored node has coordinates (x, y), and otherwise the first node of the vertex chain with
these coordinates; in a graph built by adicionar_antena calls (before or after
conectar_antenas) that node is the most recently added one with these coordinates. -/
theorem encontrar_antena_primeira (g : Grafo) (x y : Int) (ts : List (Byte × Int × Int)) :
    (encontrar_antena g x y = none ↔
      ∀ p ∈ g.vertices, ¬ ((g.mem p).x = x ∧ (g.mem p).y = y)) ∧
    (∀ p, encontrar_antena g x y = some p →
      ∃ antes depois, g.vertices = antes ++ p :: depois ∧
        ((g.mem p).x = x ∧ (g.mem p).y = y) ∧
        ∀ q ∈ antes, ¬ ((g.mem q).x = x ∧ (g.mem q).y = y)) ∧
    (∀ p, encontrar_antena (construir ts) x y = some p →
      (∃ f, ts[p]? = some (f, x, y)) ∧ ∀ i f, ts[i]? = some (f, x, y) → i ≤ p) ∧
    (∀ p, encontrar_antena (conectar_antenas (construir ts)) x y = some p →
      (∃ f, ts[p]? = some (f, x, y)) ∧ ∀ i f, ts[i]? = some (f, x, y) → i ≤ p) := by
  refine ⟨encontrar_desde_none g x y _, fun p h => encontrar_desde_some g x y _ p h, ?_, ?_⟩
  · intro p h
    exact encontrar_antena_recente ts _ rfl (fun _ => rfl) x y p h
  · intro p h
    exact encontrar_antena_recente ts _ (conectar_antenas_vertices _)
      (fun q => conectar_antenas_triplo _ q) x y p h

/-! ## The text loader: what it adds -/

theorem construir_desde_append (g : Grafo) (ts us : List (Byte × Int × Int)) :
    construir_desde g (ts ++ us) = construir_desde (construir_desde g ts) us := by
  simp [construir_desde, List.foldl_append]

theorem varrer_linha_eq (linha : List Byte) (g : Grafo) (y x : Int) :
    varrer_linha g y x linha = construir_desde g (triplos_linha y x linha) := by
  induction linha generalizing g x with
  | nil => rfl
  | cons c resto ih =>
    by_cases hc : c = 0 ∨ c = 10
    · simp [varrer_linha, triplos_linha, hc, construir_desde]
    · by_cases hd : c = 46
      · simp only [varrer_linha, triplos_linha, if_neg hc, hd, ne_eq, not_true_eq_false,
          if_false, List.nil_append]
        exact ih g (x + 1)
      · simp only [varrer_linha, triplos_linha, if_neg hc, ne_eq, hd, not_false_eq_true,
          if_true, List.singleton_append]
        rw [ih]
        rfl

theorem ler_linha_junta (k : Nat) (fluxo : List Byte) :
    (ler_linha k fluxo).1 ++ (ler_linha k fluxo).2 = fluxo := by
  induction k generalizing fluxo with
  | zero => simp [ler_linha]
  | succ k ih =>
    cases fluxo with
    | nil => simp [ler_linha]
    | cons b resto =>
      by_cases hb : b = 10
      · simp [ler_linha, hb]
      · simp [ler_linha, hb, ih resto]

theorem ler_linha_consome (k : Nat) (b : Byte) (resto : List Byte) :
    (ler_linha (k + 1) (b :: resto)).2.length ≤ resto.length := by
  by_cases hb : b = 10
  · simp [ler_linha, hb]
  · simp only [ler_linha, if_neg hb]
    have h := congrArg List.length (ler_linha_junta k resto)
    rw [List.length_append] at h
    omega

theorem fgets_some {fluxo linha resto : List Byte} (h : fgets 1024 fluxo = some (linha, resto)) :
    linha ++ resto = fluxo ∧ resto.length < fluxo.length ∧
      (linha, resto) = ler_linha 1023 fluxo := by
  unfold fgets at h
  by_cases hf : fluxo = []
  · simp [hf] at h
  · simp only [if_neg hf, Option.some.injEq] at h
    have h' : ler_linha 1023 fluxo = (linha, resto) := h
    have hj := ler_linha_junta 1023 fluxo
    rw [h'] at hj
    refine ⟨hj, ?_, h'.symm⟩
    cases fluxo with
    | nil => exact absurd rfl hf
    | cons b r =>
      have := ler_linha_consome 1022 b r
      rw [h'] at this
      simp only [List.length_cons]
      exact Nat.lt_succ_of_le this

theorem carregar_linhas_eq (fuel : Nat) (g : Grafo) (y : Int) (fluxo : List Byte)
    (h : fluxo.length < fuel) :
    carregar_linhas fuel g y fluxo = some (construir_desde g (triplos_fluxo fuel y fluxo)) := by
  induction fuel generalizing g y fluxo with
  | zero => omega
  | succ fuel ih =>
    rw [carregar_linhas, triplos_fluxo]
    cases hf : fgets 1024 fluxo with
    | none => rfl
    | some r =>
      obtain ⟨linha, resto⟩ := r
      have hlt := (fgets_some hf).2.1
      simp only []
      rw [ih _ _ _ (by omega), varrer_linha_eq, construir_desde_append]

theorem carregar_grafo_arquivo_eq (texto : List Byte) :
    carregar_grafo_arquivo texto =
      some (conectar_antenas (construir (triplos_fluxo (texto.length + 1) 0 texto))) := by
  rw [carregar_grafo_arquivo, carregar_linhas_eq _ _ _ _ (Nat.lt_succ_self _)]
  rfl

/-! ## The text loader: number of nodes -/

theorem triplos_linha_length (k : Nat) (fluxo : List Byte) (y x : Int)
    (h0 : ∀ b ∈ fluxo, b ≠ 0) :
    (triplos_linha y x (ler_linha k fluxo).1).length =
      contar_antenas (ler_linha k fluxo).1 := by
  induction k generalizing fluxo x with
  | zero => simp [ler_linha, triplos_linha, contar_antenas]
  | succ k ih =>
    cases fluxo with
    | nil => simp [ler_linha, triplos_linha, contar_antenas]
    | cons b resto =>
      have hb0 : b ≠ 0 := h0 b (List.mem_cons_self _ _)
      have hr := ih resto (x + 1) (fun c hc => h0 c (List.mem_cons_of_mem _ hc))
      by_cases hb : b = 10
      · simp [ler_linha, hb, triplos_linha, contar_antenas]
      · simp only [ler_linha, if_neg hb, triplos_linha, hb0, hb, or_self, if_false,
          List.length_append, hr]
        by_cases hd : b = 46
        · simp [hd, contar_antenas]
        · simp [hd, hb, contar_antenas]
          omega

theorem contar_antenas_append (a b : List Byte) :
    contar_antenas (a ++ b) = contar_antenas a + contar_antenas b := by
  simp [contar_antenas]

theorem triplos_fluxo_length (fuel : Nat) (y : Int) (fluxo : List Byte)
    (h : fluxo.length < fuel) (h0 : ∀ b ∈ fluxo, b ≠ 0) :
    (triplos_fluxo fuel y fluxo).length = contar_antenas fluxo := by
  induction fuel generalizing y fluxo with
  | zero => omega
  | succ fuel ih =>
    rw [triplos_fluxo]
    cases hf : fgets 1024 fluxo with
    | none =>
      unfold fgets at hf
      by_cases hn : fluxo = []
      · simp [hn, contar_antenas]
      · simp [hn] at hf
    | some r =>
      obtain ⟨linha, resto⟩ := r
      obtain ⟨hj, hlt, he⟩ := fgets_some hf
      have h1 : linha = (ler_linha 1023 fluxo).1 := congrArg Prod.fst he
      have h0r : ∀ b ∈ resto, b ≠ 0 := fun b hb => h0 b (by rw [← hj]; simp [hb])
      simp only [List.length_append]
      rw [ih _ _ (by omega) h0r]
      conv_rhs => rw [← hj, contar_antenas_append]
      rw [h1, triplos_linha_length 1023 fluxo y 0 h0]

/-- C11 as stated fails on a text that holds a NUL character: the scan of a buffer stops
at the first NUL, so of the three characters A, NUL, B (none of them a dot or a newline)
only A becomes a node. -/
theorem contagem_com_nulo :
    ∃ g, carregar_grafo_arquivo [65, 0, 66] = some g ∧ contar_antenas [65, 0, 66] = 3 ∧
      g.vertices.length = 1 ∧ g.num_vertices = 1 :=
  ⟨_, rfl, by decide, by decide, by decide⟩

/-- C11 (amended): for every grid text without NUL characters, carregar_grafo_arquivo
returns a graph whose num_vertices and whose number of stored nodes both equal the number of
characters of the text that are neither the dot nor the newline. -/
theorem carregar_grafo_arquivo_contagem (texto : List Byte) (h0 : ∀ b ∈ texto, b ≠ 0) :
    ∃ g, carregar_grafo_arquivo texto = some g ∧
      g.num_vertices = (contar_antenas texto : Int) ∧
      g.vertices.length = contar_antenas texto := by
  refine ⟨_, carregar_grafo_arquivo_eq texto, ?_, ?_⟩
  · rw [conectar_antenas_num_vertices, construir_num_vertices,
      triplos_fluxo_length _ _ _ (Nat.lt_succ_self _) h0]
  · rw [conectar_antenas_vertices, construir_vertices, List.length_reverse, List.length_range,
      triplos_fluxo_length _ _ _ (Nat.lt_succ_self _) h0]

theorem carregar_grafo_arquivo_contagem_witness :
    (∀ b ∈ ([65, 46, 65, 10, 46, 46, 46, 10, 65, 46, 65] : List Byte), b ≠ 0) ∧
      ∃ g, carregar_grafo_arquivo [65, 46, 65, 10, 46, 46, 46, 10, 65, 46, 65] = some g ∧
        g.num_vertices
          = (contar_antenas [65, 46, 65, 10, 46, 46, 46, 10, 65, 46, 65] : Int) ∧
        g.vertices.length = contar_antenas [65, 46, 65, 10, 46, 46, 46, 10, 65, 46, 65] :=
  ⟨by simp, carregar_grafo_arquivo_contagem _ (by simp)⟩

/-! ## The text loader: lines and positions -/

theorem linhas_ne_nil (texto : List Byte) : linhas texto ≠ [] := by
  cases texto with
  | nil => simp [linhas]
  | cons b resto =>
    by_cases hb : b = 10
    · simp [linhas, hb]
    · simp only [linhas, if_neg hb]
      cases linhas resto <;> simp

theorem linhas_cons_outro (b : Byte) (resto : List Byte) (hb : b ≠ 10) :
    ∃ l ls, linhas resto = l :: ls ∧ linhas (b :: resto) = (b :: l) :: ls := by
  cases h : linhas resto with
  | nil => exact absurd h (linhas_ne_nil resto)
  | cons l ls => exact ⟨l, ls, rfl, by simp [linhas, hb, h]⟩

theorem ler_linha_linhas (fluxo : List Byte) (l : List Byte) (ls : List (List Byte))
    (h : linhas fluxo = l :: ls) (k : Nat) (hk : l.length < k) :
    (∃ r, ler_linha k fluxo = (l ++ [10], r) ∧ ls = linhas r) ∨
      (ler_linha k fluxo = (l, []) ∧ ls = []) := by
  induction fluxo generalizing l ls k with
  | nil =>
    simp only [linhas, List.cons.injEq] at h
    obtain ⟨rfl, rfl⟩ := h
    right
    cases k <;> simp [ler_linha]
  | cons b resto ih =>
    by_cases hb : b = 10
    · subst hb
      simp only [linhas, if_true, List.cons.injEq] at h
      obtain ⟨rfl, rfl⟩ := h
      left
      cases k with
      | zero => simp at hk
      | succ k => exact ⟨resto, by simp [ler_linha], rfl⟩
    · obtain ⟨l1, ls1, h1, h2⟩ := linhas_cons_outro b resto hb
      rw [h2] at h
      simp only [List.cons.injEq] at h
      obtain ⟨rfl, rfl⟩ := h
      cases k with
      | zero => simp at hk
      | succ k =>
        have hk1 : l1.length < k := by simpa using hk
        rcases ih l1 ls1 h1 k hk1 with ⟨r, e1, e2⟩ | ⟨e1, e2⟩
        · left
          exact ⟨r, by simp [ler_linha, hb, e1], e2⟩
        · right
          exact ⟨by simp [ler_linha, hb, e1], e2⟩

theorem triplos_linha_newline (l : List Byte) (y x : Int) :
    triplos_linha y x (l ++ [10]) = triplos_linha y x l := by
  induction l generalizing x with
  | nil => simp [triplos_linha]
  | cons c resto ih =>
    by_cases hc : c = 0 ∨ c = 10
    · simp [triplos_linha, hc]
    · rw [List.cons_append, triplos_linha, triplos_linha, if_neg hc, if_neg hc, ih]

theorem triplos_fluxo_vazio (fuel : Nat) (y : Int) : triplos_fluxo fuel y [] = [] := by
  cases fuel <;> simp [triplos_fluxo, fgets]

theorem triplos_fluxo_linhas (fuel : Nat) (y : Int) (fluxo : List Byte)
    (h : fluxo.length < fuel) (hl : ∀ l ∈ linhas fluxo, l.length ≤ 1022) :
    triplos_fluxo fuel y fluxo = triplos_linhas y (linhas fluxo) := by
  induction fuel generalizing y fluxo with
  | zero => omega
  | succ fuel ih =>
    by_cases hf : fluxo = []
    · subst hf
      simp [triplos_fluxo_vazio, linhas, triplos_linhas, triplos_linha]
    · cases hls : linhas fluxo with
      | nil => exact absurd hls (linhas_ne_nil fluxo)
      | cons l ls =>
        have hlen : l.length < 1023 := by
          have := hl l (by rw [hls]; exact List.mem_cons_self _ _)
          omega
        have hfg : fgets 1024 fluxo = some (ler_linha 1023 fluxo) := by
          simp [fgets, hf]
        rw [triplos_fluxo, hfg, triplos_linhas]
        rcases ler_linha_linhas fluxo l ls hls 1023 hlen with ⟨r, e1, e2⟩ | ⟨e1, e2⟩
        · have hj := ler_linha_junta 1023 fluxo
          rw [e1] at hj
          have hr : r.length < fuel := by
            have := congrArg List.length hj
            simp only [List.length_append, List.length_cons, List.length_nil] at this
            omega
          rw [e1]
          simp only []
          rw [triplos_linha_newline, ih _ _ hr (fun l1 h1 => hl l1 (by
            rw [hls, e2]; exact List.mem_cons_of_mem _ h1)), e2]
        · rw [e1, e2]
          simp [triplos_fluxo_vazio, triplos_linhas]

theorem linhas_sem_newline (texto : List Byte) : ∀ l ∈ linhas texto, (10 : Byte) ∉ l := by
  induction texto with
  | nil => simp [linhas]
  | cons b resto ih =>
    by_cases hb : b = 10
    · simp only [linhas, hb, if_true, List.mem_cons]
      rintro l (rfl | hl)
      · simp
      · exact ih l hl
    · obtain ⟨l1, ls1, h1, h2⟩ := linhas_cons_outro b resto hb
      rw [h2]
      rw [h1] at ih
      intro l hl
      rcases List.mem_cons.1 hl with rfl | hl
      · intro hm
        rcases List.mem_cons.1 hm with h | h
        · exact hb h.symm
        · exact ih l1 (List.mem_cons_self _ _) h
      · exact ih l (List.mem_cons_of_mem _ hl)

theorem linhas_dentro (texto : List Byte) : ∀ l ∈ linhas texto, ∀ c ∈ l, c ∈ texto := by
  induction texto with
  | nil => simp [linhas]
  | cons b resto ih =>
    by_cases hb : b = 10
    · simp only [linhas, hb, if_true, List.mem_cons]
      rintro l (rfl | hl) c hc
      · cases hc
      · exact Or.inr (ih l hl c hc)
    · obtain ⟨l1, ls1, h1, h2⟩ := linhas_cons_outro b resto hb
      rw [h2]
      rw [h1] at ih
      intro l hl c hc
      rcases List.mem_cons.1 hl with rfl | hl
      · rcases List.mem_cons.1 hc with h | h
        · exact h ▸ List.mem_cons_self _ _
        · exact List.mem_cons_of_mem _ (ih l1 (List.mem_cons_self _ _) c h)
      · exact List.mem_cons_of_mem _ (ih l (List.mem_cons_of_mem _ hl) c hc)

theorem triplos_linha_contem (l : List Byte) (y x : Int) (hl : ∀ c ∈ l, c ≠ 0 ∧ c ≠ 10)
    (c : Byte) (x1 y1 : Int) :
    (c, x1, y1) ∈ triplos_linha y x l ↔
      y1 = y ∧ c ≠ 46 ∧ ∃ j : Nat, l[j]? = some c ∧ x1 = x + j := by
  induction l generalizing x with
  | nil => simp [triplos_linha]
  | cons d resto ih =>
    have hd := hl d (List.mem_cons_self _ _)
    have hr := ih (x + 1) (fun e he => hl e (List.mem_cons_of_mem _ he))
    have hdd : ¬ (d = 0 ∨ d = 10) := by
      rintro (h | h)
      · exact hd.1 h
      · exact hd.2 h
    simp only [triplos_linha, if_neg hdd, List.mem_append, hr]
    constructor
    · rintro (h | ⟨h1, h2, j, h3, h4⟩)
      · by_cases h46 : d = 46
        · simp [h46] at h
        · simp only [ne_eq, h46, not_false_eq_true, if_true, List.mem_singleton,
            Prod.mk.injEq] at h
          obtain ⟨rfl, rfl, rfl⟩ := h
          exact ⟨rfl, h46, 0, by simp, by simp⟩
      · exact ⟨h1, h2, j + 1, by simpa using h3, by rw [h4]; push_cast; ring⟩
    · rintro ⟨h1, h2, j, h3, h4⟩
      cases j with
      | zero =>
        left
        simp only [List.getElem?_cons_zero, Option.some.injEq] at h3
        subst h3
        simp only [ne_eq, h2, not_false_eq_true, if_true, List.mem_singleton, Prod.mk.injEq,
          true_and]
        exact ⟨by simpa using h4, h1⟩
      | succ j =>
        right
        exact ⟨h1, h2, j, by simpa using h3, by rw [h4]; push_cast; ring⟩

theorem triplos_linhas_contem (ls : List (List Byte)) (y : Int)
    (hl : ∀ l ∈ ls, ∀ c ∈ l, c ≠ 0 ∧ c ≠ 10) (c : Byte) (x1 y1 : Int) :
    (c, x1, y1) ∈ triplos_linhas y ls ↔
      c ≠ 46 ∧ ∃ i j : Nat, ∃ l, ls[i]? = some l ∧ l[j]? = some c ∧ x1 = j ∧ y1 = y + i := by
  induction ls generalizing y with
  | nil => simp [triplos_linhas]
  | cons l ls ih =>
    have h1 := triplos_linha_contem l y 0 (hl l (List.mem_cons_self _ _)) c x1 y1
    have h2 := ih (y + 1) (fun l1 hl1 => hl l1 (List.mem_cons_of_mem _ hl1))
    simp only [triplos_linhas, List.mem_append, h1, h2]
    constructor
    · rintro (⟨a1, a2, j, a3, a4⟩ | ⟨a2, i, j, l1, a3, a4, a5, a6⟩)
      · exact ⟨a2, 0, j, l, by simp, a3, by simpa using a4, by simpa using a1⟩
      · exact ⟨a2, i + 1, j, l1, by simpa using a3, a4, a5, by rw [a6]; push_cast; ring⟩
    · rintro ⟨a2, i, j, l1, a3, a4, a5, a6⟩
      cases i with
      | zero =>
        left
        simp only [List.getElem?_cons_zero, Option.some.injEq] at a3
        subst a3
        exact ⟨by simpa using a6, a2, j, a4, by simpa using a5⟩
      | succ i =>
        right
        exact ⟨a2, i, j, l1, by simpa using a3, a4, a5, by rw [a6]; push_cast; ring⟩

theorem caracter_em_iff (texto : List Byte) (x y : Int) (c : Byte) :
    caracter_em texto x y = some c ↔
      ∃ i j : Nat, ∃ l, (linhas texto)[i]? = some l ∧ l[j]? = some c ∧ x = j ∧ y = i := by
  unfold caracter_em
  by_cases h : 0 ≤ x ∧ 0 ≤ y
  · rw [if_pos h]
    constructor
    · intro hb
      cases hl : (linhas texto)[y.toNat]? with
      | none => simp [hl] at hb
      | some l =>
        rw [hl] at hb
        have hb1 : l[x.toNat]? = some c := hb
        exact ⟨y.toNat, x.toNat, l, hl, hb1, (Int.toNat_of_nonneg h.1).symm,
          (Int.toNat_of_nonneg h.2).symm⟩
    · rintro ⟨i, j, l, h1, h2, rfl, rfl⟩
      simp [h1, h2]
  · rw [if_neg h]
    constructor
    · intro hb; cases hb
    · rintro ⟨i, j, l, -, -, rfl, rfl⟩
      exact absurd ⟨Int.natCast_nonneg _, Int.natCast_nonneg _⟩ h

theorem carregar_grafo_arquivo_triplos (texto : List Byte) (t : Byte × Int × Int) :
    (∃ p ∈ (conectar_antenas (construir (triplos_fluxo (texto.length + 1) 0 texto))).vertices,
      (conectar_antenas (construir (triplos_fluxo (texto.length + 1) 0 texto))).triplo p = t) ↔
      t ∈ triplos_fluxo (texto.length + 1) 0 texto := by
  have h := construir_triplos (triplos_fluxo (texto.length + 1) 0 texto)
  simp only [conectar_antenas_vertices, conectar_antenas_triplo]
  constructor
  · rintro ⟨p, hp, rfl⟩
    have : (construir (triplos_fluxo (texto.length + 1) 0 texto)).triplo p ∈
        (construir (triplos_fluxo (texto.length + 1) 0 texto)).vertices.map
          (construir (triplos_fluxo (texto.length + 1) 0 texto)).triplo :=
      List.mem_map.2 ⟨p, hp, rfl⟩
    rw [h] at this
    exact List.mem_reverse.1 this
  · intro ht
    have : t ∈ (construir (triplos_fluxo (texto.length + 1) 0 texto)).vertices.map
        (construir (triplos_fluxo (texto.length + 1) 0 texto)).triplo := by
      rw [h]; exact List.mem_reverse.2 ht
    obtain ⟨p, hp, e⟩ := List.mem_map.1 this
    exact ⟨p, hp, e⟩

theorem ler_linha_replicate (k : Nat) (c : Byte) (hc : c ≠ 10) (resto : List Byte) :
    ler_linha k (List.replicate k c ++ resto) = (List.replicate k c, resto) := by
  induction k with
  | zero => simp [ler_linha]
  | succ k ih => simp [List.replicate_succ, ler_linha, hc, ih]

theorem triplos_linha_pontos (n : Nat) (y x : Int) :
    triplos_linha y x (List.replicate n 46) = [] := by
  induction n generalizing x with
  | zero => rfl
  | succ n ih =>
    rw [List.replicate_succ, triplos_linha, if_neg (by decide)]
    simp [ih]

theorem linhas_replicate (n : Nat) (c : Byte) (hc : c ≠ 10) (resto l : List Byte)
    (ls : List (List Byte)) (h : linhas resto = l :: ls) :
    linhas (List.replicate n c ++ resto) = (List.replicate n c ++ l) :: ls := by
  induction n with
  | zero => simpa using h
  | succ n ih => simp [List.replicate_succ, linhas, hc, ih]

theorem triplos_fluxo_texto_longo (fuel : Nat) :
    triplos_fluxo (fuel + 3) 0 texto_longo = [(65, 0, 2)] := by
  have h1 : fgets 1024 texto_longo = some (List.replicate 1023 46, [10, 65]) := by
    have hne : texto_longo ≠ [] := by
      intro h
      have := (List.append_eq_nil.1 h).2
      cases this
    simp only [fgets, if_neg hne]
    rw [show (1024 - 1 : Nat) = 1023 from rfl, texto_longo,
      ler_linha_replicate 1023 46 (by decide)]
  have h2 : fgets 1024 [10, 65] = some ([10], [65]) := by decide
  have h3 : fgets 1024 [65] = some ([65], []) := by decide
  rw [triplos_fluxo, h1]
  simp only []
  rw [triplos_linha_pontos, triplos_fluxo, h2]
  simp only []
  rw [triplos_fluxo, h3]
  simp only []
  rw [triplos_fluxo_vazio]
  decide

/-- C12 as stated fails on a line that does not fit the 1024-byte buffer together with its
newline, and on a NUL character.  In texto_longo (1023 dots, newline, A) the character A is
at column 0 of line 1, but the only node of the graph is A at (0, 2): the newline of the long
line is read by a second fgets and counted as a line of its own.  In the text A, NUL, B the
character B is at column 2 of line 0, but the scan stops at the NUL and no node B exists. -/
theorem posicoes_linha_longa :
    ((∀ b ∈ texto_longo, b ≠ 0) ∧ caracter_em texto_longo 0 1 = some 65 ∧
      ∃ g, carregar_grafo_arquivo texto_longo = some g ∧
        (¬ ∃ p ∈ g.vertices, g.triplo p = (65, 0, 1)) ∧
        g.vertices.map g.triplo = [(65, 0, 2)]) ∧
    (caracter_em [65, 0, 66] 2 0 = some 66 ∧
      ∃ g, carregar_grafo_arquivo [65, 0, 66] = some g ∧
        g.vertices.map g.triplo = [(65, 0, 0)]) := by
  have hlen : texto_longo.length + 1 = 1023 + 3 := by
    rw [texto_longo, List.length_append, List.length_replicate]
    rfl
  have hts : triplos_fluxo (texto_longo.length + 1) 0 texto_longo = [(65, 0, 2)] := by
    rw [hlen]; exact triplos_fluxo_texto_longo 1023
  refine ⟨⟨?_, ?_, _, carregar_grafo_arquivo_eq texto_longo, ?_, ?_⟩, ?_, _, rfl, ?_⟩
  · intro b hb
    simp only [texto_longo, List.mem_append, List.mem_replicate, List.mem_cons,
      List.mem_singleton, List.not_mem_nil, or_false] at hb
    rcases hb with ⟨-, rfl⟩ | rfl | rfl <;> decide
  · have hl : linhas texto_longo = [List.replicate 1023 46 ++ [], [65]] :=
      linhas_replicate 1023 46 (by decide) [10, 65] [] [[65]] (by decide)
    unfold caracter_em
    rw [if_pos (by decide), hl]
    rfl
  · rw [carregar_grafo_arquivo_triplos, hts]
    decide
  · rw [hts]
    decide
  · decide
  · decide

/-- C12 (amended): for every grid text without NUL characters in which every line has at
most 1022 characters (blank lines included), the graph returned by carregar_grafo_arquivo
contains a node with frequency c at coordinates (x, y) if and only if the character at
0-based column x of 0-based line y of the text is c and c is not the dot. -/
theorem carregar_grafo_arquivo_posicoes (texto : List Byte) (h0 : ∀ b ∈ texto, b ≠ 0)
    (hl : ∀ l ∈ linhas texto, l.length ≤ 1022) :
    ∃ g, carregar_grafo_arquivo texto = some g ∧
      ∀ c x y, (∃ p ∈ g.vertices, g.triplo p = (c, x, y)) ↔
        (caracter_em texto x y = some c ∧ c ≠ 46) := by
  refine ⟨_, carregar_grafo_arquivo_eq texto, ?_⟩
  intro c x y
  have hlimpo : ∀ l ∈ linhas texto, ∀ d ∈ l, d ≠ 0 ∧ d ≠ 10 := by
    intro l hlm d hd
    refine ⟨h0 d (linhas_dentro texto l hlm d hd), ?_⟩
    rintro rfl
    exact linhas_sem_newline texto l hlm hd
  rw [carregar_grafo_arquivo_triplos, triplos_fluxo_linhas _ _ _ (Nat.lt_succ_self _) hl,
    triplos_linhas_contem _ _ hlimpo, caracter_em_iff]
  constructor
  · rintro ⟨h1, i, j, l, h2, h3, h4, h5⟩
    exact ⟨⟨i, j, l, h2, h3, h4, by simpa using h5⟩, h1⟩
  · rintro ⟨⟨i, j, l, h2, h3, h4, h5⟩, h1⟩
    exact ⟨h1, i, j, l, h2, h3, h4, by simpa using h5⟩

theorem carregar_grafo_arquivo_posicoes_witness :
    (∀ b ∈ ([65, 46, 10, 10, 46, 66] : List Byte), b ≠ 0) ∧
      (∀ l ∈ linhas [65, 46, 10, 10, 46, 66], l.length ≤ 1022) ∧
      ∃ g, carregar_grafo_arquivo [65, 46, 10, 10, 46, 66] = some g ∧
        ∀ c x y, (∃ p ∈ g.vertices, g.triplo p = (c, x, y)) ↔
          (caracter_em [65, 46, 10, 10, 46, 66] x y = some c ∧ c ≠ 46) :=
  ⟨by simp, by decide, carregar_grafo_arquivo_posicoes _ (by simp) (by decide)⟩

/-! ### The intersection finder -/

theorem int32_de_id (v : Int) (h1 : -2147483648 ≤ v) (h2 : v < 2147483648) :
    int32_de v = v := by
  unfold int32_de; omega

theorem intersecao_passo_eq (g : Grafo) (freqA freqB : Byte)
    (a b : Nat) (ha : g.freq a = freqA) :
    intersecao_passo g freqB a b =
      [(a, b)].filter (g.criterio_int freqA freqB) := by
  unfold intersecao_passo Grafo.criterio_int
  by_cases h1 : g.freq b = freqB
  · by_cases h2 : alinhadas (g.mem a) (g.mem b) = true
    · by_cases h3 : harmonico_duplo (soma_quadrados (g.mem a)) (soma_quadrados (g.mem b)) = true
      · simp [ha, h1, h2, h3]
      · simp [ha, h1, h2, h3]
    · simp [ha, h1, h2]
  · simp [ha, h1]

theorem intersecoes_b_eq (g : Grafo) (freqA freqB : Byte)
    (a : Nat) (ha : g.freq a = freqA) (vs : List Nat) :
    intersecoes_b g freqB a vs =
      (vs.map (fun b => (a, b))).filter (g.criterio_int freqA freqB) := by
  induction vs with
  | nil => rfl
  | cons b resto ih =>
    rw [intersecoes_b, ih, intersecao_passo_eq g freqA freqB a b ha, List.map_cons,
      ← List.filter_append]
    rfl

theorem intersecoes_b_fora (g : Grafo) (freqA freqB : Byte)
    (a : Nat) (ha : g.freq a ≠ freqA) (vs : List Nat) :
    (vs.map (fun b => (a, b))).filter (g.criterio_int freqA freqB) = [] := by
  rw [List.filter_eq_nil_iff]
  intro ab hab
  obtain ⟨b, -, rfl⟩ := List.mem_map.1 hab
  simp [Grafo.criterio_int, ha]

theorem intersecoes_a_eq (g : Grafo) (freqA freqB : Byte)
    (vs : List Nat) :
    intersecoes_a g freqA freqB vs =
      (vs.flatMap (fun a => g.vertices.map (fun b => (a, b)))).filter
        (g.criterio_int freqA freqB) := by
  induction vs with
  | nil => rfl
  | cons a resto ih =>
    rw [intersecoes_a, ih, List.flatMap_cons, List.filter_append]
    by_cases ha : g.freq a = freqA
    · rw [if_pos ha, intersecoes_b_eq g freqA freqB a ha]
    · rw [if_neg ha, intersecoes_b_fora g freqA freqB a ha]

/-- The sequence of reports is the list of all ordered pairs of chain entries, filtered by
the condition as the program computes it. -/
theorem listar_intersecoes_eq (g : Grafo) (freqA freqB : Byte) :
    listar_intersecoes g freqA freqB =
      g.pares.filter (g.criterio_int freqA freqB) :=
  intersecoes_a_eq g freqA freqB g.vertices

theorem mem_pares (g : Grafo) (a b : Nat) :
    (a, b) ∈ g.pares ↔ a ∈ g.vertices ∧ b ∈ g.vertices := by
  unfold Grafo.pares
  simp only [List.mem_flatMap, List.mem_map, Prod.mk.injEq]
  constructor
  · rintro ⟨a1, ha1, b1, hb1, rfl, rfl⟩
    exact ⟨ha1, hb1⟩
  · rintro ⟨ha, hb⟩
    exact ⟨a, ha, b, hb, rfl, rfl⟩

theorem pares_nodup (g : Grafo) (hn : g.vertices.Nodup) : g.pares.Nodup := by
  unfold Grafo.pares
  rw [List.nodup_flatMap]
  constructor
  · intro a _
    exact hn.map (fun b1 b2 h => (Prod.mk.inj h).2)
  · refine hn.pairwise_of_forall_ne ?_
    intro a1 _ a2 _ hne ab h1 h2
    obtain ⟨b1, -, rfl⟩ := List.mem_map.1 h1
    obtain ⟨b2, -, h⟩ := List.mem_map.1 h2
    exact hne (Prod.mk.inj h).1.symm

theorem quadrado_limite (x y : Int) (h : x * x + y * y < 2147483648) :
    -46341 < x ∧ x < 46341 ∧ x * x < 2147483648 := by
  have hy : 0 ≤ y * y := mul_self_nonneg y
  refine ⟨?_, ?_, by omega⟩
  · by_contra hc
    push_neg at hc
    nlinarith
  · by_contra hc
    push_neg at hc
    nlinarith

theorem soma_quadrados_exata (a : Antena) (h : a.sem_transbordo) :
    soma_quadrados a = quadrado_dist a := by
  obtain ⟨-, -, h3⟩ := h
  have hx := mul_self_nonneg a.x
  have hy := mul_self_nonneg a.y
  unfold soma_quadrados quadrado_dist
  rw [int32_de_id (a.x * a.x) (by omega) (by omega),
    int32_de_id (a.y * a.y) (by omega) (by omega),
    int32_de_id _ (by omega) (by omega)]

theorem quadrado_dist_limites (a : Antena) (h : a.sem_transbordo) :
    0 ≤ quadrado_dist a ∧ quadrado_dist a < 2147483648 := by
  obtain ⟨-, -, h3⟩ := h
  have hx := mul_self_nonneg a.x
  have hy := mul_self_nonneg a.y
  unfold quadrado_dist
  omega

theorem abs32_dif (u v : Int) (hu1 : -46341 < u) (hu2 : u < 46341) (hv1 : -46341 < v)
    (hv2 : v < 46341) : abs32 (int32_de (u - v)) = |u - v| := by
  rw [int32_de_id (u - v) (by omega) (by omega)]
  unfold abs32
  have h1 := abs_nonneg (u - v)
  have h2 : |u - v| < 100000 := by rw [abs_lt]; constructor <;> omega
  exact int32_de_id _ (by omega) (by omega)

theorem alinhadas_exata (a b : Antena) (ha : a.sem_transbordo) (hb : b.sem_transbordo) :
    alinhadas a b = true ↔ alinhadas_exato a b := by
  obtain ⟨-, -, ha3⟩ := ha
  obtain ⟨-, -, hb3⟩ := hb
  obtain ⟨hax1, hax2, -⟩ := quadrado_limite a.x a.y ha3
  obtain ⟨hay1, hay2, -⟩ := quadrado_limite a.y a.x (by rw [add_comm]; exact ha3)
  obtain ⟨hbx1, hbx2, -⟩ := quadrado_limite b.x b.y hb3
  obtain ⟨hby1, hby2, -⟩ := quadrado_limite b.y b.x (by rw [add_comm]; exact hb3)
  unfold alinhadas alinhadas_exato
  rw [abs32_dif a.x b.x hax1 hax2 hbx1 hbx2, abs32_dif a.y b.y hay1 hay2 hby1 hby2]
  simp only [Bool.or_eq_true, beq_iff_eq, or_assoc]

/-! ### The tolerance of the harmonic test on ints -/

theorem harmonico_folga (A B : Int) (hA : 0 ≤ A) (hA2 : A < 2147483648) (hB : 0 ≤ B)
    (hB2 : B < 2147483648)
    (h : |Real.sqrt (A : ℝ) - 2 * Real.sqrt (B : ℝ)| < 1 / 1000000) : A = 4 * B := by
  have hAr : (0:ℝ) ≤ A := by exact_mod_cast hA
  have hBr : (0:ℝ) ≤ B := by exact_mod_cast hB
  have ha := Real.mul_self_sqrt hAr
  have hb := Real.mul_self_sqrt hBr
  have ha0 := Real.sqrt_nonneg (A : ℝ)
  have hb0 := Real.sqrt_nonneg (B : ℝ)
  have hA3 : (A : ℝ) < 2147483648 := by exact_mod_cast hA2
  have hB3 : (B : ℝ) < 2147483648 := by exact_mod_cast hB2
  have ha1 : Real.sqrt (A : ℝ) < 46341 := by
    by_contra hc
    push_neg at hc
    nlinarith
  have hb1 : Real.sqrt (B : ℝ) < 46341 := by
    by_contra hc
    push_neg at hc
    nlinarith
  obtain ⟨h1, h2⟩ := abs_lt.1 h
  have hd : |((A - 4 * B : Int) : ℝ)| < 1 := by
    rw [abs_lt]
    push_cast
    constructor <;> nlinarith
  have hd2 : |A - 4 * B| < 1 := by exact_mod_cast hd
  have := Int.abs_lt_one_iff.1 hd2
  omega

theorem harmonico_quadruplo (A B : Int) (hB : 0 ≤ B) (h : A = 4 * B) :
    |Real.sqrt (A : ℝ) - 2 * Real.sqrt (B : ℝ)| < 1 / 1000000 := by
  have hBr : (0:ℝ) ≤ B := by exact_mod_cast hB
  have h4 : ((A : Int) : ℝ) = (2:ℝ) ^ 2 * (B : ℝ) := by rw [h]; push_cast; ring
  rw [h4, Real.sqrt_mul (by norm_num), Real.sqrt_sq (by norm_num), sub_self, abs_zero]
  norm_num

/-- On the arguments that a non-negative int can hold, the exact harmonic test holds only
when one argument is four times the other. -/
theorem harmonico_exato_iff (A B : Int) (hA : 0 ≤ A) (hA2 : A < 2147483648) (hB : 0 ≤ B)
    (hB2 : B < 2147483648) : harmonico_exato A B ↔ (A = 4 * B ∨ B = 4 * A) := by
  unfold harmonico_exato
  constructor
  · rintro (h | h)
    · exact Or.inl (harmonico_folga A B hA hA2 hB hB2 h)
    · exact Or.inr (harmonico_folga B A hB hB2 hA hA2 h)
  · rintro (h | h)
    · exact Or.inl (harmonico_quadruplo A B hB h)
    · exact Or.inr (harmonico_quadruplo B A hA h)

theorem teste_exato_inteiro : teste_exato harmonico_inteiro := by
  intro A B hA hA2 hB hB2
  rw [harmonico_exato_iff A B hA hA2 hB hB2]
  unfold harmonico_inteiro
  exact decide_eq_true_iff

/-! ### The double precision evaluation of the harmonic test -/

theorem expoente_aux_limites (f n : Nat) (hf : n ≤ f) (hn : 1 ≤ n) :
    2 ^ expoente_aux f n ≤ n ∧ n < 2 ^ (expoente_aux f n + 1) := by
  induction f generalizing n with
  | zero => omega
  | succ f ih =>
    rw [expoente_aux]
    by_cases h2 : n < 2
    · rw [if_pos h2]
      have : n = 1 := by omega
      subst this
      decide
    · rw [if_neg h2]
      obtain ⟨h3, h4⟩ := ih (n / 2) (by omega) (by omega)
      rw [pow_succ, pow_succ]
      rw [pow_succ] at h4
      constructor <;> omega

theorem expoente_limites (n : Nat) (hn : 1 ≤ n) :
    2 ^ expoente n ≤ n ∧ n < 2 ^ (expoente n + 1) :=
  expoente_aux_limites n n (Nat.le_refl _) hn

theorem expoente_unico (n k : Nat) (h1 : 2 ^ k ≤ n) (h2 : n < 2 ^ (k + 1)) : expoente n = k := by
  have hn : 1 ≤ n := Nat.le_trans Nat.one_le_two_pow h1
  obtain ⟨h3, h4⟩ := expoente_limites n hn
  have a1 : k < expoente n + 1 := (Nat.pow_lt_pow_iff_right (by decide : 1 < 2)).1
    (Nat.lt_of_le_of_lt h1 h4)
  have a2 : expoente n < k + 1 := (Nat.pow_lt_pow_iff_right (by decide : 1 < 2)).1
    (Nat.lt_of_le_of_lt h3 h2)
  omega

theorem raiz_bits_limites (i n r : Nat) (h1 : r * r ≤ n) (h2 : n < (r + 2 ^ i) * (r + 2 ^ i)) :
    raiz_bits i n r * raiz_bits i n r ≤ n ∧ n < (raiz_bits i n r + 1) * (raiz_bits i n r + 1) := by
  induction i generalizing r with
  | zero => exact ⟨h1, by simpa using h2⟩
  | succ i ih =>
    rw [raiz_bits]
    by_cases hc : (r + 2 ^ i) * (r + 2 ^ i) ≤ n
    · rw [if_pos hc]
      apply ih _ hc
      have : r + 2 ^ i + 2 ^ i = r + 2 ^ (i + 1) := by rw [pow_succ]; omega
      rw [this]
      exact h2
    · rw [if_neg hc]
      exact ih _ h1 (by omega)

theorem raiz_inteira_limites (n : Nat) :
    raiz_inteira n * raiz_inteira n ≤ n ∧ n < (raiz_inteira n + 1) * (raiz_inteira n + 1) := by
  apply raiz_bits_limites
  · omega
  · rcases Nat.eq_zero_or_pos n with h | h
    · subst h
      simp
    · obtain ⟨-, h4⟩ := expoente_limites n h
      have h5 : expoente n + 1 ≤ 2 * (expoente n / 2 + 1) := by omega
      have h6 : 2 ^ (expoente n + 1) ≤ 2 ^ (2 * (expoente n / 2 + 1)) :=
        Nat.pow_le_pow_right (by decide) h5
      rw [Nat.zero_add, ← pow_two, ← pow_mul, Nat.mul_comm]
      omega

theorem raiz_inteira_eq (n : Nat) : raiz_inteira n = Nat.sqrt n :=
  Nat.eq_sqrt.2 (raiz_inteira_limites n)

theorem raiz_proxima_limites (n : Nat) (hn : 1 ≤ n) :
    1 ≤ raiz_proxima n ∧
      (2 * raiz_proxima n - 1) * (2 * raiz_proxima n - 1) ≤ 4 * n ∧
      4 * n ≤ (2 * raiz_proxima n + 1) * (2 * raiz_proxima n + 1) := by
  obtain ⟨h1, h2⟩ := raiz_inteira_limites n
  have hs : 1 ≤ raiz_inteira n := by
    by_contra hc
    have : raiz_inteira n = 0 := by omega
    rw [this] at h2
    omega
  unfold raiz_proxima
  by_cases hc : raiz_inteira n * raiz_inteira n + raiz_inteira n < n
  · rw [if_pos hc]
    refine ⟨by omega, ?_, ?_⟩
    · have : 2 * (raiz_inteira n + 1) - 1 = 2 * raiz_inteira n + 1 := by omega
      rw [this]
      nlinarith
    · nlinarith
  · rw [if_neg hc]
    refine ⟨hs, ?_, ?_⟩
    · obtain ⟨s, hs2⟩ : ∃ s, raiz_inteira n = s + 1 := ⟨raiz_inteira n - 1, by omega⟩
      rw [hs2] at h1 ⊢
      have : 2 * (s + 1) - 1 = 2 * s + 1 := by omega
      rw [this]
      nlinarith
    · nlinarith

theorem raiz_proxima_real (n : Nat) (hn : 1 ≤ n) (S : ℝ) (hS : 0 ≤ S) (hSS : S * S = n) :
    |(raiz_proxima n : ℝ) - S| ≤ 1 / 2 := by
  obtain ⟨h1, h2, h3⟩ := raiz_proxima_limites n hn
  have h1r : (1 : ℝ) ≤ raiz_proxima n := by exact_mod_cast h1
  have h2r : ((2 * raiz_proxima n - 1 : Nat) : ℝ) * ((2 * raiz_proxima n - 1 : Nat) : ℝ)
      ≤ 4 * (n : ℝ) := by exact_mod_cast h2
  have h3r : 4 * (n : ℝ) ≤ (2 * (raiz_proxima n : ℝ) + 1) * (2 * (raiz_proxima n : ℝ) + 1) := by
    exact_mod_cast h3
  rw [Nat.cast_sub (by omega)] at h2r
  push_cast at h2r
  rw [abs_le]
  constructor
  · by_contra hc
    push_neg at hc
    nlinarith
  · by_contra hc
    push_neg at hc
    nlinarith

theorem sqrt_duplo_pos_eq (a : Nat) (h1 : 1 ≤ a) :
    sqrt_duplo (a : Int) =
      some ((raiz_proxima (a * 4 ^ (52 - expoente a / 2)) * 2 ^ (expoente a / 2) : Nat) : Int) := by
  unfold sqrt_duplo
  have h2 : ¬ ((a : Int) < 0) := by omega
  have h3 : ¬ ((a : Int) = 0) := by omega
  rw [if_neg h2, if_neg h3, Int.toNat_ofNat]

theorem expoente_metade (a : Nat) (h1 : 1 ≤ a) (h2 : a < 2147483648) :
    expoente a / 2 ≤ 15 ∧ 4 ^ (expoente a / 2) ≤ a ∧ a < 4 ^ (expoente a / 2 + 1) := by
  obtain ⟨h3, h4⟩ := expoente_limites a h1
  have h5 : expoente a < 31 := (Nat.pow_lt_pow_iff_right (by decide : 1 < 2)).1
    (Nat.lt_of_le_of_lt h3 h2)
  refine ⟨by omega, ?_, ?_⟩
  · have : (4 : Nat) ^ (expoente a / 2) = 2 ^ (2 * (expoente a / 2)) := by
      rw [pow_mul]; rfl
    rw [this]
    exact Nat.le_trans (Nat.pow_le_pow_right (by decide) (by omega)) h3
  · have : (4 : Nat) ^ (expoente a / 2 + 1) = 2 ^ (2 * (expoente a / 2 + 1)) := by
      rw [pow_mul]; rfl
    rw [this]
    exact Nat.lt_of_lt_of_le h4 (Nat.pow_le_pow_right (by decide) (by omega))

theorem mantissa_limites (a : Nat) (h1 : 1 ≤ a) (h2 : a < 2147483648) :
    2 ^ 52 ≤ raiz_proxima (a * 4 ^ (52 - expoente a / 2)) ∧
      raiz_proxima (a * 4 ^ (52 - expoente a / 2)) ≤ 2 ^ 53 := by
  obtain ⟨h3, h4, h5⟩ := expoente_metade a h1 h2
  have hk : (4 : Nat) ^ (expoente a / 2) * 4 ^ (52 - expoente a / 2) = 4 ^ 52 := by
    rw [← pow_add]
    congr 1
    omega
  have hpos : 0 < (4 : Nat) ^ (52 - expoente a / 2) := Nat.pow_pos (by decide)
  have hN1 : 4 ^ 52 ≤ a * 4 ^ (52 - expoente a / 2) := by
    rw [← hk]
    exact Nat.mul_le_mul_right _ h4
  have hN2 : a * 4 ^ (52 - expoente a / 2) < 4 ^ 53 := by
    have : (4 : Nat) ^ 53 = 4 ^ (expoente a / 2 + 1) * 4 ^ (52 - expoente a / 2) := by
      rw [← pow_add]
      congr 1
      omega
    rw [this]
    exact Nat.mul_lt_mul_of_pos_right h5 hpos
  obtain ⟨m1, m2, m3⟩ := raiz_proxima_limites (a * 4 ^ (52 - expoente a / 2))
    (Nat.le_trans (by decide) hN1)
  generalize raiz_proxima (a * 4 ^ (52 - expoente a / 2)) = m at m1 m2 m3 ⊢
  generalize a * 4 ^ (52 - expoente a / 2) = N at hN1 hN2 m2 m3
  norm_num at hN1 hN2 ⊢
  constructor
  · by_contra hc
    push_neg at hc
    have : 2 * m + 1 ≤ 9007199254740991 := by omega
    nlinarith
  · by_contra hc
    push_neg at hc
    have : 18014398509481984 ≤ 2 * m - 1 := by omega
    nlinarith

theorem expoente_zero : expoente 0 = 0 := rfl

theorem arredondar_nat_pequeno (n : Nat) (h : n < 2 ^ 53) : arredondar_nat n = n := by
  have hk : expoente n + 1 - 53 = 0 := by
    rcases Nat.eq_zero_or_pos n with h0 | h0
    · subst h0
      rfl
    · obtain ⟨h3, -⟩ := expoente_limites n h0
      have : expoente n < 53 := (Nat.pow_lt_pow_iff_right (by decide : 1 < 2)).1
        (Nat.lt_of_le_of_lt h3 h)
      omega
  unfold arredondar_nat
  rw [hk, pow_zero, Nat.mod_one, Nat.div_one, Nat.mul_one]
  rfl

theorem arredondar_nat_mantissa (m j : Nat) (h1 : 2 ^ 52 ≤ m) (h2 : m < 2 ^ 53) :
    arredondar_nat (m * 2 ^ j) = m * 2 ^ j := by
  have he : expoente (m * 2 ^ j) = 52 + j := by
    apply expoente_unico
    · rw [pow_add]
      exact Nat.mul_le_mul_right _ h1
    · rw [show 52 + j + 1 = 53 + j by omega, pow_add]
      exact Nat.mul_lt_mul_of_pos_right h2 (Nat.pow_pos (by decide))
  have hk : expoente (m * 2 ^ j) + 1 - 53 = j := by omega
  unfold arredondar_nat
  rw [hk, Nat.mul_mod_left]
  have hp : 0 < 2 ^ j := Nat.pow_pos (by decide)
  rw [if_pos (by omega), Nat.mul_div_cancel _ hp]

theorem arredondar_nat_grande (n : Nat) (h : 2 ^ 53 ≤ n) : 2 ^ 52 ≤ arredondar_nat n := by
  obtain ⟨h3, h4⟩ := expoente_limites n (Nat.le_trans (by decide) h)
  have he : 53 < expoente n + 1 := (Nat.pow_lt_pow_iff_right (by decide : 1 < 2)).1
    (Nat.lt_of_le_of_lt h h4)
  have hk : expoente n = 52 + (expoente n + 1 - 53) := by omega
  have hp : 0 < 2 ^ (expoente n + 1 - 53) := Nat.pow_pos (by decide)
  have hq : 2 ^ 52 ≤ n / 2 ^ (expoente n + 1 - 53) := by
    rw [Nat.le_div_iff_mul_le hp, ← pow_add, ← hk]
    exact h3
  have hm : ∀ q : Nat, 2 ^ 52 ≤ q → 2 ^ 52 ≤ q * 2 ^ (expoente n + 1 - 53) := by
    intro q hq1
    exact Nat.le_trans hq1 (Nat.le_mul_of_pos_right _ hp)
  unfold arredondar_nat
  split_ifs
  · exact hm _ hq
  · exact hm _ (by omega)
  · exact hm _ hq
  · exact hm _ (by omega)

theorem arredondar_nat_longe (n : Nat) (h : 2 ^ 33 ≤ n) : 2 ^ 33 ≤ arredondar_nat n := by
  by_cases h1 : n < 2 ^ 53
  · rw [arredondar_nat_pequeno n h1]
    exact h
  · exact Nat.le_trans (by decide) (arredondar_nat_grande n (by omega))

theorem arredondar_abs (v : Int) : |arredondar v| = (arredondar_nat v.natAbs : Int) := by
  unfold arredondar
  split_ifs <;> simp

theorem arredondar_nao_neg (v : Int) (h : 0 ≤ v) :
    arredondar v = (arredondar_nat v.natAbs : Int) := by
  unfold arredondar
  rw [if_neg (by omega)]

theorem perto_longe (u w : Int) (h : 8589934592 ≤ |u - w|) :
    ¬ (|arredondar (u - w)| * 1048576 < 4722366482869645) := by
  rw [arredondar_abs]
  have h1 : 2 ^ 33 ≤ (u - w).natAbs := by
    have : ((u - w).natAbs : Int) = |u - w| := Int.natCast_natAbs _
    norm_num
    omega
  have h2 := arredondar_nat_longe _ h1
  norm_num at h2
  omega

theorem arredondar_dobro (m h : Nat) (h1 : 2 ^ 52 ≤ m) (h2 : m ≤ 2 ^ 53) :
    arredondar (2 * ((m * 2 ^ h : Nat) : Int)) = 2 * ((m * 2 ^ h : Nat) : Int) := by
  have e2 : 2 * ((m * 2 ^ h : Nat) : Int) = ((m * 2 ^ (h + 1) : Nat) : Int) := by
    rw [pow_succ]
    push_cast
    ring
  rw [e2, arredondar_nao_neg _ (Int.ofNat_nonneg _), Int.natAbs_ofNat]
  congr 1
  by_cases hm : m < 2 ^ 53
  · exact arredondar_nat_mantissa m (h + 1) h1 hm
  · have hm2 : m = 2 ^ 52 * 2 := by norm_num; norm_num at h2 hm; omega
    rw [hm2, Nat.mul_assoc, ← pow_succ']
    exact arredondar_nat_mantissa (2 ^ 52) (h + 1 + 1) (Nat.le_refl _) (by decide)

/-- The double returned by sqrt for an int argument in range: it is not changed by the
doubling, and it differs from the real square root by at most 2^14 units of 2^-52. -/
theorem sqrt_duplo_erro (A : Int) (h0 : 0 ≤ A) (h1 : A < 2147483648) :
    ∃ d : Int, sqrt_duplo A = some d ∧ arredondar (2 * d) = 2 * d ∧
      |(d : ℝ) - 4503599627370496 * Real.sqrt (A : ℝ)| ≤ 16384 := by
  rcases eq_or_lt_of_le h0 with hz | hpos
  · subst hz
    refine ⟨0, rfl, by decide, ?_⟩
    simp
  · obtain ⟨a, rfl⟩ := Int.eq_ofNat_of_zero_le h0
    have ha1 : 1 ≤ a := by omega
    have ha2 : a < 2147483648 := by omega
    obtain ⟨hh, h4, h5⟩ := expoente_metade a ha1 ha2
    obtain ⟨hm1, hm2⟩ := mantissa_limites a ha1 ha2
    refine ⟨_, sqrt_duplo_pos_eq a ha1, arredondar_dobro _ _ hm1 hm2, ?_⟩
    have hs0 := Real.sqrt_nonneg (a : ℝ)
    have hss := Real.mul_self_sqrt (Nat.cast_nonneg a : (0 : ℝ) ≤ a)
    have hk : (2 : ℝ) ^ (52 - expoente a / 2) * 2 ^ (expoente a / 2) = 4503599627370496 := by
      rw [← pow_add, Nat.sub_add_cancel (by omega)]
      norm_num
    have hp1 : (0 : ℝ) < 2 ^ (52 - expoente a / 2) := by positivity
    have hp2 : (0 : ℝ) < 2 ^ (expoente a / 2) := by positivity
    have hp3 : (2 : ℝ) ^ (expoente a / 2) ≤ 32768 := by
      have : (2 : ℝ) ^ (expoente a / 2) ≤ 2 ^ 15 :=
        pow_le_pow_right₀ (by norm_num) hh
      norm_num at this
      exact this
    have hN : (((a * 4 ^ (52 - expoente a / 2) : Nat)) : ℝ) =
        (2 ^ (52 - expoente a / 2) * Real.sqrt (a : ℝ)) *
          (2 ^ (52 - expoente a / 2) * Real.sqrt (a : ℝ)) := by
      push_cast
      have : (4 : ℝ) ^ (52 - expoente a / 2) =
          2 ^ (52 - expoente a / 2) * 2 ^ (52 - expoente a / 2) := by
        rw [← mul_pow]
        norm_num
      rw [this]
      nlinarith
    have hr := raiz_proxima_real (a * 4 ^ (52 - expoente a / 2))
      (Nat.le_trans ha1 (Nat.le_mul_of_pos_right _ (Nat.pow_pos (by decide))))
      (2 ^ (52 - expoente a / 2) * Real.sqrt (a : ℝ)) (by positivity) hN.symm
    generalize raiz_proxima (a * 4 ^ (52 - expoente a / 2)) = m at hr ⊢
    push_cast
    rw [← hk]
    obtain ⟨hr1, hr2⟩ := abs_le.1 hr
    rw [abs_le]
    constructor
    · nlinarith
    · nlinarith

theorem expoente_quadruplo (b : Nat) (hb : 1 ≤ b) : expoente (4 * b) = expoente b + 2 := by
  obtain ⟨h1, h2⟩ := expoente_limites b hb
  apply expoente_unico
  · rw [pow_add]
    omega
  · rw [show expoente b + 2 + 1 = (expoente b + 1) + 2 by omega, pow_add]
    omega

/-- The double square root of four times an int is exactly twice the double square root
of the int. -/
theorem sqrt_duplo_quadruplo (B : Int) (h0 : 0 ≤ B) (h1 : 4 * B < 2147483648) :
    ∃ d : Int, sqrt_duplo B = some d ∧ sqrt_duplo (4 * B) = some (2 * d) := by
  rcases eq_or_lt_of_le h0 with hz | hpos
  · subst hz
    exact ⟨0, rfl, rfl⟩
  · obtain ⟨b, rfl⟩ := Int.eq_ofNat_of_zero_le h0
    have hb1 : 1 ≤ b := by omega
    have hb2 : b < 2147483648 := by omega
    obtain ⟨hh, -, -⟩ := expoente_metade b hb1 hb2
    refine ⟨_, sqrt_duplo_pos_eq b hb1, ?_⟩
    have e4 : (4 : Int) * (b : Int) = ((4 * b : Nat) : Int) := by push_cast; ring
    rw [e4, sqrt_duplo_pos_eq (4 * b) (by omega), expoente_quadruplo b hb1]
    have hd : (expoente b + 2) / 2 = expoente b / 2 + 1 := by omega
    have hN : 4 * b * 4 ^ (52 - (expoente b / 2 + 1)) = b * 4 ^ (52 - expoente b / 2) := by
      have : 52 - expoente b / 2 = (52 - (expoente b / 2 + 1)) + 1 := by omega
      rw [this, pow_succ]
      ring
    rw [hd, hN, pow_succ]
    push_cast
    ring_nf

theorem perto_quadruplo (d : Int) (h : arredondar (2 * d) = 2 * d) : perto (2 * d) d = true := by
  unfold perto
  rw [h, sub_self]
  decide

/-- The distance, in units of 2^-52, between the double square root of A and twice the
double square root of B when A is not four times B. -/
theorem duplos_afastados (A B : Int) (hA : 0 ≤ A) (hA2 : A < 2147483648) (hB : 0 ≤ B)
    (hB2 : B < 2147483648) (hne : A ≠ 4 * B) (dA dB : Int)
    (eA : |(dA : ℝ) - 4503599627370496 * Real.sqrt (A : ℝ)| ≤ 16384)
    (eB : |(dB : ℝ) - 4503599627370496 * Real.sqrt (B : ℝ)| ≤ 16384) :
    8589934592 ≤ |dA - 2 * dB| := by
  have hAr : (0:ℝ) ≤ A := by exact_mod_cast hA
  have hBr : (0:ℝ) ≤ B := by exact_mod_cast hB
  have ha := Real.mul_self_sqrt hAr
  have hb := Real.mul_self_sqrt hBr
  have ha0 := Real.sqrt_nonneg (A : ℝ)
  have hb0 := Real.sqrt_nonneg (B : ℝ)
  have hA3 : (A : ℝ) < 2147483648 := by exact_mod_cast hA2
  have hB3 : (B : ℝ) < 2147483648 := by exact_mod_cast hB2
  have ha1 : Real.sqrt (A : ℝ) < 46341 := by
    by_contra hc
    push_neg at hc
    nlinarith
  have hb1 : Real.sqrt (B : ℝ) < 46341 := by
    by_contra hc
    push_neg at hc
    nlinarith
  obtain ⟨eA1, eA2⟩ := abs_le.1 eA
  obtain ⟨eB1, eB2⟩ := abs_le.1 eB
  have hprod : (Real.sqrt (A : ℝ) - 2 * Real.sqrt (B : ℝ)) *
      (Real.sqrt (A : ℝ) + 2 * Real.sqrt (B : ℝ)) = ((A - 4 * B : Int) : ℝ) := by
    push_cast
    nlinarith
  have hgoal : (8589934592 : ℝ) ≤ |((dA - 2 * dB : Int) : ℝ)| := by
    rcases lt_or_gt_of_ne hne with hlt | hgt
    · have h1 : ((A - 4 * B : Int) : ℝ) ≤ -1 := by
        have : A - 4 * B ≤ -1 := by omega
        exact_mod_cast this
      have h2 : Real.sqrt (A : ℝ) - 2 * Real.sqrt (B : ℝ) ≤ -(1 / 139023) := by
        by_contra hc
        push_neg at hc
        nlinarith
      rw [le_abs]
      right
      push_cast
      linarith
    · have h1 : (1 : ℝ) ≤ ((A - 4 * B : Int) : ℝ) := by
        have : 1 ≤ A - 4 * B := by omega
        exact_mod_cast this
      have h2 : 1 / 139023 ≤ Real.sqrt (A : ℝ) - 2 * Real.sqrt (B : ℝ) := by
        by_contra hc
        push_neg at hc
        nlinarith
      rw [le_abs]
      left
      push_cast
      linarith
  exact_mod_cast hgoal

/-- The double precision test of lines 195-197 agrees with exact real arithmetic on every
pair of arguments that a non-negative int can hold. -/
theorem teste_exato_duplo : teste_exato harmonico_duplo := by
  intro A B hA hA2 hB hB2
  rw [harmonico_exato_iff A B hA hA2 hB hB2]
  obtain ⟨dA, sA, rA, eA⟩ := sqrt_duplo_erro A hA hA2
  obtain ⟨dB, sB, rB, eB⟩ := sqrt_duplo_erro B hB hB2
  have hd : harmonico_duplo A B = (perto dA dB || perto dB dA) := by
    unfold harmonico_duplo
    rw [sA, sB]
  rw [hd, Bool.or_eq_true]
  constructor
  · rintro (h | h)
    · left
      by_contra hne
      unfold perto at h
      rw [rB] at h
      exact perto_longe dA (2 * dB)
        (duplos_afastados A B hA hA2 hB hB2 hne dA dB eA eB) (of_decide_eq_true h)
    · right
      by_contra hne
      unfold perto at h
      rw [rA] at h
      exact perto_longe dB (2 * dA)
        (duplos_afastados B A hB hB2 hA hA2 hne dB dA eB eA) (of_decide_eq_true h)
  · rintro (h | h)
    · left
      obtain ⟨d, s1, s2⟩ := sqrt_duplo_quadruplo B hB (by omega)
      rw [← h, sA] at s2
      rw [sB] at s1
      cases s1
      cases s2
      exact perto_quadruplo dB rB
    · right
      obtain ⟨d, s1, s2⟩ := sqrt_duplo_quadruplo A hA (by omega)
      rw [← h, sB] at s2
      rw [sA] at s1
      cases s1
      cases s2
      exact perto_quadruplo dA rA

theorem harmonico_duplo_inteiro (A B : Int) (hA : 0 ≤ A) (hA2 : A < 2147483648) (hB : 0 ≤ B)
    (hB2 : B < 2147483648) : harmonico_duplo A B = harmonico_inteiro A B := by
  have h1 := teste_exato_duplo A B hA hA2 hB hB2
  have h2 := teste_exato_inteiro A B hA hA2 hB hB2
  have h3 : harmonico_duplo A B = true ↔ harmonico_inteiro A B = true := h1.trans h2.symm
  cases hx : harmonico_duplo A B <;> cases hy : harmonico_inteiro A B <;> simp_all

theorem criterio_int_par (g : Grafo) (freqA freqB : Byte) (a b : Nat)
    (hsa : (g.mem a).sem_transbordo) (hsb : (g.mem b).sem_transbordo) :
    g.criterio_int freqA freqB (a, b) = g.criterio freqA freqB (a, b) := by
  obtain ⟨ha1, ha2⟩ := quadrado_dist_limites _ hsa
  obtain ⟨hb1, hb2⟩ := quadrado_dist_limites _ hsb
  have h1 := alinhadas_exata (g.mem a) (g.mem b) hsa hsb
  unfold Grafo.criterio_int Grafo.criterio
  rw [soma_quadrados_exata _ hsa, soma_quadrados_exata _ hsb,
    harmonico_duplo_inteiro _ _ ha1 ha2 hb1 hb2]
  by_cases h2 : alinhadas (g.mem a) (g.mem b) = true
  · have h3 := h1.1 h2
    simp [h2, h3]
  · have h3 : ¬ alinhadas_exato (g.mem a) (g.mem b) := fun h => h2 (h1.2 h)
    simp [h2, h3]

theorem criterio_iff (g : Grafo) (freqA freqB : Byte) (a b : Nat)
    (hsa : (g.mem a).sem_transbordo) (hsb : (g.mem b).sem_transbordo) :
    g.criterio freqA freqB (a, b) = true ↔
      g.freq a = freqA ∧ g.freq b = freqB ∧ alinhadas_exato (g.mem a) (g.mem b) ∧
        harmonico_exato (quadrado_dist (g.mem a)) (quadrado_dist (g.mem b)) := by
  obtain ⟨ha1, ha2⟩ := quadrado_dist_limites _ hsa
  obtain ⟨hb1, hb2⟩ := quadrado_dist_limites _ hsb
  unfold Grafo.criterio
  simp only [Bool.and_eq_true, decide_eq_true_eq, teste_exato_inteiro _ _ ha1 ha2 hb1 hb2]
  tauto

/-- Without int overflow the program reports the pairs selected by the exact condition, in
the order of the list of all ordered pairs. -/
theorem listar_intersecoes_exata (g : Grafo) (freqA freqB : Byte) (hs : g.sem_transbordo) :
    listar_intersecoes g freqA freqB = g.pares.filter (g.criterio freqA freqB) := by
  rw [listar_intersecoes_eq]
  apply List.filter_congr
  rintro ⟨a, b⟩ hab
  obtain ⟨ha, hb⟩ := (mem_pares g a b).1 hab
  exact criterio_int_par g freqA freqB a b (hs a ha) (hs b hb)

/-- The intersection finder on a graph without int overflow: for every graph whose stored
nodes have int coordinates with x*x + y*y below 2^31 and all frequencies fA, fB, the
sequence of reports of listar_intersecoes is the list of all ordered pairs of stored nodes,
ordered by node-store order of a and then of b, filtered by the exact condition; no pair is
reported twice when the chain has no repeated node; and (a, b) is reported if and only if a
and b are stored, have the frequencies fA and fB, are aligned and satisfy the harmonic
distance condition in exact real arithmetic. -/
theorem listar_intersecoes_pares (g : Grafo) (freqA freqB : Byte) (hs : g.sem_transbordo) :
    listar_intersecoes g freqA freqB = g.pares.filter (g.criterio freqA freqB) ∧
    (g.vertices.Nodup → (listar_intersecoes g freqA freqB).Nodup) ∧
    (∀ a b : Nat,
      ((a, b) ∈ listar_intersecoes g freqA freqB ↔
        a ∈ g.vertices ∧ b ∈ g.vertices ∧ g.freq a = freqA ∧ g.freq b = freqB ∧
          alinhadas_exato (g.mem a) (g.mem b) ∧
          harmonico_exato (quadrado_dist (g.mem a)) (quadrado_dist (g.mem b)))) := by
  refine ⟨listar_intersecoes_exata g freqA freqB hs, ?_, ?_⟩
  · intro hn
    rw [listar_intersecoes_exata g freqA freqB hs]
    exact (pares_nodup g hn).filter _
  · intro a b
    rw [listar_intersecoes_exata g freqA freqB hs, List.mem_filter, mem_pares]
    constructor
    · rintro ⟨⟨ha, hb⟩, h⟩
      exact ⟨ha, hb, (criterio_iff g freqA freqB a b (hs a ha) (hs b hb)).1 h⟩
    · rintro ⟨ha, hb, h⟩
      exact ⟨⟨ha, hb⟩, (criterio_iff g freqA freqB a b (hs a ha) (hs b hb)).2 h⟩

theorem listar_intersecoes_pares_exemplo :
    grafo_cruzado.sem_transbordo ∧ grafo_cruzado.vertices.Nodup ∧
    listar_intersecoes grafo_cruzado 65 66 = [(0, 1)] ∧
    (listar_intersecoes grafo_cruzado 65 66 =
        grafo_cruzado.pares.filter (grafo_cruzado.criterio 65 66) ∧
    (grafo_cruzado.vertices.Nodup → (listar_intersecoes grafo_cruzado 65 66).Nodup) ∧
    (∀ a b : Nat,
      ((a, b) ∈ listar_intersecoes grafo_cruzado 65 66 ↔
        a ∈ grafo_cruzado.vertices ∧ b ∈ grafo_cruzado.vertices ∧
          grafo_cruzado.freq a = 65 ∧ grafo_cruzado.freq b = 66 ∧
          alinhadas_exato (grafo_cruzado.mem a) (grafo_cruzado.mem b) ∧
          harmonico_exato (quadrado_dist (grafo_cruzado.mem a))
            (quadrado_dist (grafo_cruzado.mem b))))) :=
  ⟨by decide, by decide,
    (listar_intersecoes_pares grafo_cruzado 65 66 (by decide)).1.trans (by decide),
    listar_intersecoes_pares grafo_cruzado 65 66 (by decide)⟩

/-- The two distance ratios on nodes without int overflow: for every pair of stored nodes a
and b with int coordinates whose sums of squares x*x + y*y are below 2^31 and that satisfy
the alignment condition, if a.x²+a.y² = 4·(b.x²+b.y²) or vice versa, listar_intersecoes
called with the frequencies of a and b reports the pair; if 4·(a.x²+a.y²) = 9·(b.x²+b.y²)
with b not at the origin, or vice versa, the pair is not reported, whatever the frequencies
asked for. -/
theorem listar_intersecoes_razao (g : Grafo) (a b : Nat) (ha : a ∈ g.vertices)
    (hb : b ∈ g.vertices) (hsa : (g.mem a).sem_transbordo) (hsb : (g.mem b).sem_transbordo)
    (hal : alinhadas_exato (g.mem a) (g.mem b)) :
    ((quadrado_dist (g.mem a) = 4 * quadrado_dist (g.mem b) ∨
        quadrado_dist (g.mem b) = 4 * quadrado_dist (g.mem a)) →
      (a, b) ∈ listar_intersecoes g (g.freq a) (g.freq b)) ∧
    (((4 * quadrado_dist (g.mem a) = 9 * quadrado_dist (g.mem b) ∧
          ((g.mem b).x ≠ 0 ∨ (g.mem b).y ≠ 0)) ∨
        (4 * quadrado_dist (g.mem b) = 9 * quadrado_dist (g.mem a) ∧
          ((g.mem a).x ≠ 0 ∨ (g.mem a).y ≠ 0))) →
      ∀ freqA freqB : Byte, (a, b) ∉ listar_intersecoes g freqA freqB) := by
  obtain ⟨ha1, ha2⟩ := quadrado_dist_limites _ hsa
  obtain ⟨hb1, hb2⟩ := quadrado_dist_limites _ hsb
  have hiff := harmonico_exato_iff _ _ ha1 ha2 hb1 hb2
  have hzero : ∀ c : Antena, (c.x ≠ 0 ∨ c.y ≠ 0) → quadrado_dist c ≠ 0 := by
    intro c hc h0
    unfold quadrado_dist at h0
    have h1 := mul_self_add_mul_self_eq_zero.1 h0
    rcases hc with hc | hc
    · exact hc h1.1
    · exact hc h1.2
  constructor
  · intro h
    rw [listar_intersecoes_eq, List.mem_filter, mem_pares,
      criterio_int_par g _ _ a b hsa hsb, criterio_iff g _ _ a b hsa hsb]
    exact ⟨⟨ha, hb⟩, rfl, rfl, hal, hiff.2 h⟩
  · intro h freqA freqB hin
    rw [listar_intersecoes_eq, List.mem_filter, mem_pares,
      criterio_int_par g _ _ a b hsa hsb, criterio_iff g _ _ a b hsa hsb] at hin
    have h4 := hiff.1 hin.2.2.2.2
    rcases h with ⟨h9, hn⟩ | ⟨h9, hn⟩
    · have := hzero _ hn
      omega
    · have := hzero _ hn
      omega

theorem listar_intersecoes_razao_exemplo :
    0 ∈ grafo_cruzado.vertices ∧ 1 ∈ grafo_cruzado.vertices ∧
    (grafo_cruzado.mem 0).sem_transbordo ∧ (grafo_cruzado.mem 1).sem_transbordo ∧
    alinhadas_exato (grafo_cruzado.mem 0) (grafo_cruzado.mem 1) ∧
    quadrado_dist (grafo_cruzado.mem 0) = 4 * quadrado_dist (grafo_cruzado.mem 1) ∧
    (0, 1) ∈ listar_intersecoes grafo_cruzado 65 66 ∧
    (4 * quadrado_dist (grafo_cruzado.mem 2) = 9 * quadrado_dist (grafo_cruzado.mem 0) ∧
      ∀ freqA freqB : Byte, (2, 0) ∉ listar_intersecoes grafo_cruzado freqA freqB) :=
  ⟨by decide, by decide, by decide, by decide, by decide, by decide,
    (listar_intersecoes_razao grafo_cruzado 0 1
      (by decide) (by decide) (by decide) (by decide) (by decide)).1 (Or.inl (by decide)),
    by decide,
    (listar_intersecoes_razao grafo_cruzado 2 0
      (by decide) (by decide) (by decide) (by decide) (by decide)).2
      (Or.inl ⟨by decide, Or.inl (by decide)⟩)⟩

theorem sqrt_65536 : Real.sqrt ((4294967296 : Int) : ℝ) = 65536 := by
  rw [show (((4294967296 : Int)) : ℝ) = (65536 : ℝ) ^ 2 by norm_num]
  exact Real.sqrt_sq (by norm_num)

theorem harmonico_exato_grande : ¬ harmonico_exato 4294967296 4294967296 := by
  unfold harmonico_exato
  rw [sqrt_65536]
  rintro (h | h) <;> · rw [abs_lt] at h; norm_num at h

theorem ficheiro_grande_grafo :
    carregar_grafo_binario ficheiro_grande =
      some (conectar_antenas (construir [(65, 65536, 0), (66, 0, 65536)])) := rfl

theorem ficheiro_dobro_grafo :
    carregar_grafo_binario ficheiro_dobro =
      some (conectar_antenas (construir [(65, 65536, 0), (66, 32768, 0)])) := rfl

set_option maxRecDepth 100000 in
/-- Claim C13, the failing input: the binary file ficheiro_grande loads into a graph with
A at (65536, 0) and B at (0, 65536).  The two nodes are on a diagonal and both at distance
65536 from the origin, so the pair does not satisfy the harmonic distance condition; but
in 32-bit int arithmetic the products x*x and y*y wrap to 0, both arguments of sqrt are 0,
and listar_intersecoes reports the pair. -/
theorem intersecao_com_transbordo :
    ∃ g, carregar_grafo_binario ficheiro_grande = some g ∧
      g.vertices = [1, 0] ∧
      g.triplo 0 = (65, 65536, 0) ∧ g.triplo 1 = (66, 0, 65536) ∧
      alinhadas_exato (g.mem 0) (g.mem 1) ∧
      quadrado_dist (g.mem 0) = 4294967296 ∧ quadrado_dist (g.mem 1) = 4294967296 ∧
      ¬ harmonico_exato (quadrado_dist (g.mem 0)) (quadrado_dist (g.mem 1)) ∧
      soma_quadrados (g.mem 0) = 0 ∧ soma_quadrados (g.mem 1) = 0 ∧
      listar_intersecoes g 65 66 = [(0, 1)] := by
  refine ⟨_, ficheiro_grande_grafo, by decide, by decide, by decide, by decide, by decide,
    by decide, ?_, by decide, by decide, by decide⟩
  have h1 : quadrado_dist
      ((conectar_antenas (construir [(65, 65536, 0), (66, 0, 65536)])).mem 0) = 4294967296 := by
    decide
  have h2 : quadrado_dist
      ((conectar_antenas (construir [(65, 65536, 0), (66, 0, 65536)])).mem 1) = 4294967296 := by
    decide
  rw [h1, h2]
  exact harmonico_exato_grande

set_option maxRecDepth 100000 in
/-- Claim C14, the failing input: the binary file ficheiro_dobro loads into a graph with
A at (65536, 0) and B at (32768, 0).  The two nodes are on one row and the origin distance
of A is exactly twice that of B (the sum of squares of A is four times that of B); but in
32-bit int arithmetic the product 65536*65536 wraps to 0, the arguments of sqrt are 0 and
2^30, and listar_intersecoes does not report the pair. -/
theorem dobro_com_transbordo :
    ∃ g, carregar_grafo_binario ficheiro_dobro = some g ∧
      g.vertices = [1, 0] ∧
      g.triplo 0 = (65, 65536, 0) ∧ g.triplo 1 = (66, 32768, 0) ∧
      alinhadas_exato (g.mem 0) (g.mem 1) ∧
      quadrado_dist (g.mem 0) = 4 * quadrado_dist (g.mem 1) ∧
      soma_quadrados (g.mem 0) = 0 ∧ soma_quadrados (g.mem 1) = 1073741824 ∧
      listar_intersecoes g 65 66 = [] :=
  ⟨_, ficheiro_dobro_grafo, by decide, by decide, by decide, by decide, by decide, by decide,
    by decide, by decide⟩

/-! ### Buffer bounds and restoration of state -/

theorem comprimento_limitado (l vs : List Nat) (hn : l.Nodup) (hs : ∀ p ∈ l, p ∈ vs) :
    l.length ≤ vs.length :=
  (hn.subperm hs).length_le

/-- What bfs leaves behind on a graph whose edges lead to stored nodes: the trace is the
final queue, and the loop invariant holds for the whole queue. -/
theorem bfs_final (g : Grafo) (inicio : Nat) (hf : g.fechado) (hi : inicio ∈ g.vertices) :
    ∃ g1 fila, bfs g inicio = some (g1, fila, fila) ∧ g1.vertices = g.vertices ∧
      (∀ p, g1.adj p = g.adj p) ∧ g1.bfs_inv inicio fila fila.length fila := by
  have hf0 : ((reiniciar_visitas g).marcar inicio true).fechado :=
    Grafo.fechado_marcar _ _ _ (reiniciar_visitas_fechado g hf)
  have hinv0 : ((reiniciar_visitas g).marcar inicio true).bfs_inv inicio [inicio] 0 [] := by
    refine ⟨List.nodup_singleton _, ?_, ?_, List.mem_singleton.2 rfl, rfl, Nat.zero_le _, ?_⟩
    · intro p hp
      simp only [Grafo.vertices_marcar, reiniciar_visitas_vertices] at hp
      rw [Grafo.vis_marcar, List.mem_singleton]
      by_cases h : p = inicio
      · simp [h]
      · simp [h, reiniciar_visitas_vis g hp]
    · intro p hp
      rw [List.mem_singleton] at hp
      subst hp
      simp only [Grafo.vertices_marcar, reiniciar_visitas_vertices]
      exact ⟨hi, Relation.ReflTransGen.refl⟩
    · intro p hp
      simp at hp
  have hpend : ((reiniciar_visitas g).marcar inicio true).pendentes + ([inicio].length - 0)
      < g.vertices.length + 1 := by
    have h1 := (reiniciar_visitas g).pendentes_marcar_lt (a := inicio) (by simpa using hi)
      (reiniciar_visitas_vis g hi)
    rw [reiniciar_visitas_pendentes] at h1
    simp only [List.length_singleton]
    omega
  obtain ⟨g1, fila1, e, hadj, hvert, hinv⟩ :=
    bfs_ciclo_spec inicio _ _ _ _ _ hf0 hinv0 hpend
  refine ⟨g1, fila1, e, by simpa using hvert, ?_, hinv⟩
  intro p
  rw [hadj]
  simp

theorem caminhos_arestas_restaura
    (chamada : Grafo → Nat → List Nat →
      Option (Grafo × List Nat × List (List Nat) × List (List Nat)))
    (hrec : ∀ (g : Grafo) (y : Nat) (c : List Nat)
      (r : Grafo × List Nat × List (List Nat) × List (List Nat)),
      chamada g y c = some r → r.1 = g.marcar y false ∧ r.2.1 = c)
    (ds : List Nat) (g : Grafo) (c : List Nat) (acc esc : List (List Nat))
    (r : Grafo × List Nat × List (List Nat) × List (List Nat))
    (h : caminhos_arestas chamada g c acc esc ds = some r) :
    r.1 = g ∧ r.2.1 = c := by
  induction ds generalizing acc esc with
  | nil =>
    simp only [caminhos_arestas, Option.some.injEq] at h
    subst h
    exact ⟨rfl, rfl⟩
  | cons y resto ih =>
    rw [caminhos_arestas] at h
    by_cases hv : g.vis y = true
    · simp only [hv, Bool.not_true, Bool.false_eq_true, if_false] at h
      exact ih acc esc h
    · have hv0 : g.vis y = false := by simpa using hv
      simp only [hv0, Bool.not_false, if_true] at h
      cases h1 : chamada g y c with
      | none => simp [h1] at h
      | some r1 =>
        obtain ⟨g1, c1, novos, novas⟩ := r1
        simp only [h1] at h
        obtain ⟨e1, e2⟩ := hrec g y c _ h1
        simp only at e1 e2
        rw [g.marcar_falso_igual y hv0] at e1
        subst e1
        subst e2
        exact ih (acc ++ novos) (esc ++ novas) h

/-- Whatever the heap and the buffer, a call of encontrar_caminhos_util that returns leaves
the buffer as it was and the heap as it was with the flag of its node cleared. -/
theorem encontrar_caminhos_util_restaura (d fuel : Nat) (g : Grafo) (x : Nat) (c : List Nat)
    (r : Grafo × List Nat × List (List Nat) × List (List Nat))
    (h : encontrar_caminhos_util fuel g x d c = some r) :
    r.1 = g.marcar x false ∧ r.2.1 = c := by
  induction fuel generalizing g x c r with
  | zero => simp [encontrar_caminhos_util] at h
  | succ fuel ih =>
    rw [encontrar_caminhos_util] at h
    by_cases hxd : x = d
    · subst hxd
      simp only [if_true, Option.some.injEq] at h
      subst h
      exact ⟨by simp [Grafo.marcar_marcar], by simp⟩
    · simp only [hxd, if_false, Grafo.adj_marcar] at h
      cases h1 : caminhos_arestas (fun h y c => encontrar_caminhos_util fuel h y d c)
          (g.marcar x true) (c ++ [x]) [] [c ++ [x]] (g.adj x) with
      | none => simp [h1] at h
      | some r1 =>
        obtain ⟨g2, c2, achados, escritas⟩ := r1
        simp only [h1, Option.some.injEq] at h
        subst h
        obtain ⟨e1, e2⟩ := caminhos_arestas_restaura _
          (fun h y c1 r2 a1 => ih h y c1 r2 a1) _ _ _ _ _ _ h1
        simp only at e1 e2
        subst e1
        subst e2
        exact ⟨by simp [Grafo.marcar_marcar], by simp⟩

theorem caminhos_arestas_total (d fuel : Nat)
    (hrec : ∀ (g : Grafo) (x : Nat) (c : List Nat), g.fechado → x ∈ g.vertices →
      g.vis x = false → g.pendentes ≤ fuel →
      ∃ r, encontrar_caminhos_util fuel g x d c = some r)
    (ds : List Nat) (g : Grafo) (c : List Nat) (acc esc : List (List Nat)) (hf : g.fechado)
    (hds : ∀ x ∈ ds, x ∈ g.vertices) (hp : g.pendentes ≤ fuel) :
    ∃ r, caminhos_arestas (fun h x c => encontrar_caminhos_util fuel h x d c) g c acc esc ds
      = some r := by
  induction ds generalizing acc esc with
  | nil => exact ⟨_, rfl⟩
  | cons y resto ih =>
    have hr : ∀ x ∈ resto, x ∈ g.vertices := fun x hx => hds x (List.mem_cons_of_mem _ hx)
    rw [caminhos_arestas]
    by_cases hv : g.vis y = true
    · simp only [hv, Bool.not_true, Bool.false_eq_true, if_false]
      exact ih acc esc hr
    · have hv0 : g.vis y = false := by simpa using hv
      simp only [hv0, Bool.not_false, if_true]
      obtain ⟨r, e⟩ := hrec g y c hf (hds y (List.mem_cons_self _ _)) hv0 hp
      obtain ⟨e1, e2⟩ := encontrar_caminhos_util_restaura d fuel g y c r e
      obtain ⟨g1, c1, novos, novas⟩ := r
      simp only at e1 e2
      rw [g.marcar_falso_igual y hv0] at e1
      subst e1
      subst e2
      simp only [e]
      exact ih (acc ++ novos) (esc ++ novas) hr

/-- A recursion bound equal to the number of stored nodes whose flag is clear is enough for
encontrar_caminhos_util to return. -/
theorem encontrar_caminhos_util_total (d fuel : Nat) (g : Grafo) (x : Nat) (c : List Nat)
    (hf : g.fechado) (hx : x ∈ g.vertices) (hv : g.vis x = false) (hp : g.pendentes ≤ fuel) :
    ∃ r, encontrar_caminhos_util fuel g x d c = some r := by
  induction fuel generalizing g x c with
  | zero =>
    have := g.pendentes_marcar_lt hx hv
    omega
  | succ fuel ih =>
    rw [encontrar_caminhos_util]
    by_cases hxd : x = d
    · subst hxd
      simp only [if_true]
      exact ⟨_, rfl⟩
    · simp only [hxd, if_false, Grafo.adj_marcar]
      have h1 := g.pendentes_marcar_lt hx hv
      obtain ⟨r, e⟩ := caminhos_arestas_total d fuel
        (fun h y c1 a1 a2 a3 a4 => ih h y c1 a1 a2 a3 a4) (g.adj x) (g.marcar x true)
        (c ++ [x]) [] [c ++ [x]] (Grafo.fechado_marcar _ _ _ hf)
        (fun y hy => by simpa using hf x hx y hy) (by omega)
      obtain ⟨g2, c2, achados, escritas⟩ := r
      simp only [e]
      exact ⟨_, rfl⟩

theorem bfs_ciclo_prefixo (fuel : Nat) (g : Grafo) (fila : List Nat) (i : Nat) (tr : List Nat)
    (r : Grafo × List Nat × List Nat) (h : bfs_ciclo fuel g fila i tr = some r) :
    fila <+: r.2.1 := by
  induction fuel generalizing g fila i tr with
  | zero => simp [bfs_ciclo] at h
  | succ fuel ih =>
    rw [bfs_ciclo] at h
    by_cases hi : i < fila.length
    · simp only [hi, dif_pos] at h
      obtain ⟨novos, e, -⟩ := bfs_arestas_spec (g.adj (fila.get ⟨i, hi⟩)) g fila
      have h1 := ih _ _ _ _ h
      have e2 : (bfs_arestas g fila (g.adj fila[i])).2 = fila ++ novos := by
        have := congrArg Prod.snd e
        simpa using this
      rw [e2] at h1
      exact (List.prefix_append fila novos).trans h1
    · simp only [hi, dif_neg, not_false_eq_true, Option.some.injEq] at h
      subst h
      exact List.prefix_refl _

/-- Claim C17: for every graph in which num_vertices equals the number of stored nodes and
every adjacency destination is a stored node, and every stored start node, bfs returns; its
queue (the list of all cells written, which starts with the start node and only grows) holds
no node twice, holds stored nodes only, holds exactly the stored nodes that are marked
visited, and its final length, the final value of the write index fim_fila, is at most
num_vertices. -/
theorem bfs_fila_limitada (g : Grafo) (inicio : Nat)
    (hn : g.num_vertices = g.vertices.length) (hf : g.fechado) (hi : inicio ∈ g.vertices) :
    ∃ g1 fila t, bfs g inicio = some (g1, fila, t) ∧ [inicio] <+: fila ∧ fila.Nodup ∧
      (∀ p ∈ fila, p ∈ g.vertices) ∧ (∀ p ∈ g.vertices, (g1.vis p = true ↔ p ∈ fila)) ∧
      (fila.length : Int) ≤ g.num_vertices := by
  obtain ⟨g1, fila, e, hv, -, hnd, hvis, hmem, -⟩ := bfs_final g inicio hf hi
  have hsub : ∀ p ∈ fila, p ∈ g.vertices := fun p hp => hv ▸ (hmem p hp).1
  refine ⟨g1, fila, fila, e, bfs_ciclo_prefixo _ _ _ _ _ _ e, hnd, hsub, ?_, ?_⟩
  · intro p hp
    exact hvis p (hv ▸ hp)
  · rw [hn]
    exact_mod_cast comprimento_limitado fila g.vertices hnd hsub

theorem bfs_fila_limitada_witness :
    grafo_exemplo.num_vertices = grafo_exemplo.vertices.length ∧ grafo_exemplo.fechado ∧
    3 ∈ grafo_exemplo.vertices ∧
    ∃ g1 fila t, bfs grafo_exemplo 3 = some (g1, fila, t) ∧ [3] <+: fila ∧ fila.Nodup ∧
      (∀ p ∈ fila, p ∈ grafo_exemplo.vertices) ∧
      (∀ p ∈ grafo_exemplo.vertices, (g1.vis p = true ↔ p ∈ fila)) ∧
      (fila.length : Int) ≤ grafo_exemplo.num_vertices :=
  ⟨by decide, by decide, by decide,
    bfs_fila_limitada grafo_exemplo 3 (by decide) (by decide) (by decide)⟩

/-- Claim C18: for every graph in which num_vertices equals the number of stored nodes and
every adjacency destination is a stored node, and every stored origin and destination,
encontrar_caminhos returns; after every write into the path buffer the written part holds
pairwise distinct stored nodes, so its length, the path index, is at most num_vertices; and
a recursion bound equal to the number of stored nodes is enough for the enumeration to
return. -/
theorem encontrar_caminhos_indice_limitado (g : Grafo) (origem destino : Nat)
    (hn : g.num_vertices = g.vertices.length) (hf : g.fechado) (ho : origem ∈ g.vertices)
    (hd : destino ∈ g.vertices) :
    ∃ g1 ps es, encontrar_caminhos g origem destino = some (g1, ps, es) ∧
      (∀ e ∈ es, e.Nodup ∧ (∀ z ∈ e, z ∈ g.vertices) ∧ (e.length : Int) ≤ g.num_vertices) ∧
      ∃ r, encontrar_caminhos_util g.vertices.length (reiniciar_visitas g) origem destino []
        = some r := by
  have _ := hd
  obtain ⟨g1, ps, es, e, -, -, h⟩ := encontrar_caminhos_spec g origem destino hf ho
  refine ⟨g1, ps, es, e, ?_, ?_⟩
  · intro b hb
    obtain ⟨h1, h2⟩ := h b hb
    refine ⟨h1, h2, ?_⟩
    rw [hn]
    exact_mod_cast comprimento_limitado b g.vertices h1 h2
  · exact encontrar_caminhos_util_total destino g.vertices.length (reiniciar_visitas g) origem
      [] (reiniciar_visitas_fechado g hf) (by simpa using ho) (reiniciar_visitas_vis g ho)
      (by rw [reiniciar_visitas_pendentes])

theorem encontrar_caminhos_indice_limitado_witness :
    grafo_exemplo.num_vertices = grafo_exemplo.vertices.length ∧ grafo_exemplo.fechado ∧
    3 ∈ grafo_exemplo.vertices ∧ 2 ∈ grafo_exemplo.vertices ∧
    ∃ g1 ps es, encontrar_caminhos grafo_exemplo 3 2 = some (g1, ps, es) ∧
      (∀ e ∈ es, e.Nodup ∧ (∀ z ∈ e, z ∈ grafo_exemplo.vertices) ∧
        (e.length : Int) ≤ grafo_exemplo.num_vertices) ∧
      ∃ r, encontrar_caminhos_util grafo_exemplo.vertices.length
        (reiniciar_visitas grafo_exemplo) 3 2 [] = some r :=
  ⟨by decide, by decide, by decide, by decide,
    encontrar_caminhos_indice_limitado grafo_exemplo 3 2 (by decide) (by decide) (by decide)
      (by decide)⟩

/-- Claim C19: a call of encontrar_caminhos_util on a node whose visited flag is false, if
it returns, returns the heap and the path buffer below the index exactly as they were at
entry; on a graph whose edges lead to stored nodes it does return, with any recursion bound
above the number of unvisited stored nodes; and encontrar_caminhos from a stored origin
returns a heap in which every stored node has visited = false and the node chain, the node
count, the (frequency, x, y) triples and the edge chains are those of the graph at entry. -/
theorem encontrar_caminhos_restaura (g : Grafo) (x d : Nat) (c : List Nat) :
    (∀ fuel r, g.vis x = false → encontrar_caminhos_util fuel g x d c = some r →
      r.1 = g ∧ r.2.1 = c) ∧
    (g.fechado → x ∈ g.vertices → g.vis x = false → ∀ fuel, g.pendentes < fuel →
      ∃ ps es, encontrar_caminhos_util fuel g x d c = some (g, c, ps, es)) ∧
    (g.fechado → x ∈ g.vertices →
      ∃ g1 ps es, encontrar_caminhos g x d = some (g1, ps, es) ∧
        (∀ p ∈ g.vertices, g1.vis p = false) ∧ g1.vertices = g.vertices ∧
        g1.num_vertices = g.num_vertices ∧
        ∀ p, g1.triplo p = g.triplo p ∧ g1.adj p = g.adj p) := by
  refine ⟨?_, ?_, ?_⟩
  · intro fuel r hv h
    obtain ⟨e1, e2⟩ := encontrar_caminhos_util_restaura d fuel g x c r h
    rw [g.marcar_falso_igual x hv] at e1
    exact ⟨e1, e2⟩
  · intro hf hx hv fuel hp
    obtain ⟨ps, es, e, -⟩ := encontrar_caminhos_util_spec d fuel g x c hf hx hv hp
    exact ⟨_, es, e⟩
  · intro hf hx
    obtain ⟨ps, es, e, -⟩ := encontrar_caminhos_util_spec d (g.vertices.length + 1)
      (reiniciar_visitas g) x [] (reiniciar_visitas_fechado g hf) (by simpa using hx)
      (reiniciar_visitas_vis g hx) (by rw [reiniciar_visitas_pendentes]; omega)
    refine ⟨reiniciar_visitas g, _, es, by rw [encontrar_caminhos, e], ?_, by simp, ?_, ?_⟩
    · intro p hp
      exact reiniciar_visitas_vis g hp
    · simp [reiniciar_visitas_eq]
    · intro p
      exact ⟨by simp [reiniciar_visitas_eq], by simp⟩

theorem encontrar_caminhos_restaura_witness :
    grafo_exemplo.fechado ∧ 3 ∈ grafo_exemplo.vertices ∧ grafo_exemplo.vis 3 = false ∧
    grafo_exemplo.pendentes < 5 ∧
    (∃ ps es, encontrar_caminhos_util 5 grafo_exemplo 3 2 [7] =
      some (grafo_exemplo, [7], ps, es)) ∧
    ∃ g1 ps es, encontrar_caminhos grafo_exemplo 3 2 = some (g1, ps, es) ∧
      (∀ p ∈ grafo_exemplo.vertices, g1.vis p = false) ∧
      g1.vertices = grafo_exemplo.vertices ∧
      g1.num_vertices = grafo_exemplo.num_vertices ∧
      ∀ p, g1.triplo p = grafo_exemplo.triplo p ∧ g1.adj p = grafo_exemplo.adj p :=
  ⟨by decide, by decide, by decide, by decide,
    (encontrar_caminhos_restaura grafo_exemplo 3 2 [7]).2.1 (by decide) (by decide)
      (by decide) 5 (by decide),
    (encontrar_caminhos_restaura grafo_exemplo 3 2 [7]).2.2 (by decide) (by decide)⟩

/-! ### Traversals of a graph whose frequency classes are fully interconnected -/

theorem filtro_sublista {l1 l2 : List Nat} (h : l1.Sublist l2) (hn : l2.Nodup)
    (p : Nat → Bool) (hp : ∀ x ∈ l2, p x = true → x ∈ l1) : l2.filter p = l1.filter p := by
  induction h with
  | slnil => rfl
  | cons a hs ih =>
    rename_i m1 m2
    have ha : a ∉ m2 := (List.nodup_cons.1 hn).1
    have hpa : p a = false := by
      by_contra hc
      have hc1 : p a = true := by simpa using hc
      exact ha (hs.subset (hp a (List.mem_cons_self _ _) hc1))
    rw [List.filter_cons_of_neg (by simp [hpa])]
    exact ih (List.nodup_cons.1 hn).2 (fun x hx hpx => hp x (List.mem_cons_of_mem _ hx) hpx)
  | cons₂ a hs ih =>
    rename_i m1 m2
    have ha : a ∉ m2 := (List.nodup_cons.1 hn).1
    have ih1 := ih (List.nodup_cons.1 hn).2 (fun x hx hpx => by
      rcases List.mem_cons.1 (hp x (List.mem_cons_of_mem _ hx) hpx) with h1 | h1
      · exact absurd (h1 ▸ hx) ha
      · exact h1)
    by_cases hpa : p a = true
    · rw [List.filter_cons_of_pos hpa, List.filter_cons_of_pos hpa, ih1]
    · rw [List.filter_cons_of_neg hpa, List.filter_cons_of_neg hpa, ih1]

theorem acumular_filtro (c : Nat → Bool) (vs acc : List Nat) (hn : vs.Nodup)
    (hd : ∀ x ∈ vs, x ∉ acc) : acumular c vs acc = (vs.filter c).reverse ++ acc := by
  induction vs generalizing acc with
  | nil => rfl
  | cons b resto ih =>
    obtain ⟨hb, hr⟩ := List.nodup_cons.1 hn
    have hbacc : b ∉ acc := hd b (List.mem_cons_self _ _)
    rw [acumular]
    by_cases hc : c b = true
    · rw [if_pos ⟨hc, hbacc⟩, ih _ hr, List.filter_cons_of_pos hc, List.reverse_cons,
        List.append_assoc]
      · rfl
      · intro x hx hx2
        rcases List.mem_cons.1 hx2 with h1 | h1
        · exact hb (h1 ▸ hx)
        · exact hd x (List.mem_cons_of_mem _ hx) h1
    · rw [if_neg (fun h => hc h.1), ih _ hr (fun x hx => hd x (List.mem_cons_of_mem _ hx)),
        List.filter_cons_of_neg hc]

/-- After conectar_antenas on a graph built by adicionar_antena alone, the edge chain of a
stored node holds the other stored nodes of its frequency, oldest first. -/
theorem conectar_construir_adj (ts : List (Byte × Int × Int)) (p : Nat)
    (hp : p ∈ (construir ts).vertices) :
    (conectar_antenas (construir ts)).adj p =
      (construir ts).vertices.reverse.filter ((construir ts).par p) := by
  obtain ⟨hn, -, hadj, -⟩ := construir_fresco ts
  rw [conectar_antenas_adj _ hp, hadj p, acumular_filtro _ _ _ hn (fun x _ h => by cases h),
    List.append_nil, List.filter_reverse]

theorem conectar_construir_clique (ts : List (Byte × Int × Int)) (f : Byte) :
    (conectar_antenas (construir ts)).clique ((conectar_antenas (construir ts)).classe f) := by
  obtain ⟨hn, -⟩ := construir_fresco ts
  unfold Grafo.clique Grafo.classe
  rw [conectar_antenas_vertices]
  refine ⟨(List.nodup_reverse.2 hn).filter _, ?_⟩
  intro b hb
  obtain ⟨hb1, hb2⟩ := List.mem_filter.1 hb
  have hbv : b ∈ (construir ts).vertices := List.mem_reverse.1 hb1
  have hbf : (construir ts).freq b = f := by simpa [conectar_antenas_freq] using hb2
  refine ⟨hbv, ?_⟩
  rw [conectar_construir_adj ts b hbv, List.filter_filter]
  apply List.filter_congr
  intro x _
  simp only [Grafo.par, conectar_antenas_freq, hbf]
  by_cases h1 : x = b
  · simp [h1]
  · have h2 : ¬ b = x := fun h => h1 h.symm
    by_cases h3 : (construir ts).freq x = f
    · simp [h1, h2, h3]
    · have h4 : ¬ f = (construir ts).freq x := fun h => h3 h.symm
      simp [h1, h2, h3, h4]

theorem Grafo.clique_marcar_lista (g : Grafo) (F ps : List Nat) (b : Bool) (h : g.clique F) :
    (g.marcar_lista ps b).clique F := by
  obtain ⟨h1, h2⟩ := h
  refine ⟨h1, ?_⟩
  intro x hx
  simpa using h2 x hx

theorem Grafo.clique_marcar (g : Grafo) (F : List Nat) (p : Nat) (b : Bool) (h : g.clique F) :
    (g.marcar p b).clique F := by
  obtain ⟨h1, h2⟩ := h
  refine ⟨h1, ?_⟩
  intro x hx
  simpa using h2 x hx

theorem dfs_arestas_clique (fuel : Nat) (F : List Nat)
    (hrec : ∀ (g : Grafo) (d : Nat), g.clique F → d ∈ F → g.vis d = false →
      g.pendentes < fuel →
      dfs_util fuel g (some d) =
        some (g.marcar_lista (d :: F.filter (fun x => decide (x ≠ d) && !g.vis x)) true,
          d :: F.filter (fun x => decide (x ≠ d) && !g.vis x)))
    (ds : List Nat) (g : Grafo) (tr : List Nat) (hc : g.clique F) (hsub : ds.Sublist F)
    (hall : ∀ x ∈ F, g.vis x = false → x ∈ ds) (hp : g.pendentes < fuel) :
    dfs_arestas (dfs_util fuel) g tr ds =
      some (g.marcar_lista (ds.filter (fun x => !g.vis x)) true,
        tr ++ ds.filter (fun x => !g.vis x)) := by
  induction ds generalizing g tr with
  | nil => simp [dfs_arestas]
  | cons b resto ih =>
    have hsub1 : resto.Sublist F := (List.sublist_cons_self b resto).trans hsub
    have hnd : (b :: resto).Nodup := hc.1.sublist hsub
    have hbr : b ∉ resto := (List.nodup_cons.1 hnd).1
    have hbF : b ∈ F := hsub.subset (List.mem_cons_self _ _)
    rw [dfs_arestas]
    by_cases hv : g.vis b = true
    · have e : dfs_util fuel g (some b) = some (g, []) := by
        cases fuel with
        | zero => omega
        | succ k => simp [dfs_util, hv]
      rw [e]
      simp only [List.append_nil]
      rw [ih g tr hc hsub1 ?_ hp, List.filter_cons_of_neg (by simp [hv])]
      intro x hx hvx
      rcases List.mem_cons.1 (hall x hx hvx) with h1 | h1
      · rw [h1, hv] at hvx; cases hvx
      · exact h1
    · have hv0 : g.vis b = false := by simpa using hv
      rw [hrec g b hc hbF hv0 hp]
      simp only
      have hfil : F.filter (fun x => decide (x ≠ b) && !g.vis x) =
          resto.filter (fun x => !g.vis x) := by
        rw [filtro_sublista hsub1 hc.1 _ ?_]
        · apply List.filter_congr
          intro x hx
          have : x ≠ b := fun h => hbr (h ▸ hx)
          simp [this]
        · intro x hx hpx
          simp only [Bool.and_eq_true, decide_eq_true_eq, Bool.not_eq_true'] at hpx
          rcases List.mem_cons.1 (hall x hx hpx.2) with h1 | h1
          · exact absurd h1 hpx.1
          · exact h1
      rw [hfil]
      have hvis : ∀ x ∈ F, (g.marcar_lista (b :: resto.filter (fun x => !g.vis x)) true).vis x
          = true := by
        intro x hx
        rw [Grafo.vis_marcar_lista_true]
        by_cases hvx : g.vis x = true
        · exact Or.inr hvx
        · have hvx0 : g.vis x = false := by simpa using hvx
          left
          rcases List.mem_cons.1 (hall x hx hvx0) with h1 | h1
          · rw [h1]; exact List.mem_cons_self _ _
          · exact List.mem_cons_of_mem _ (List.mem_filter.2 ⟨h1, by simp [hvx0]⟩)
      rw [ih _ _ (Grafo.clique_marcar_lista g F _ true hc) hsub1 ?_
        (lt_of_le_of_lt (Grafo.pendentes_marcar_lista_le g _) hp)]
      · have hnil : resto.filter (fun x =>
            !(g.marcar_lista (b :: resto.filter (fun x => !g.vis x)) true).vis x) = [] := by
          rw [List.filter_eq_nil_iff]
          intro x hx
          have h1 := hvis x (hsub1.subset hx)
          simp only [Bool.not_eq_true', Bool.not_eq_false]
          exact h1
        rw [hnil, List.filter_cons_of_pos (by simp [hv0])]
        simp
      · intro x hx hvx
        rw [hvis x hx] at hvx
        cases hvx

theorem dfs_util_clique (fuel : Nat) (F : List Nat) (g : Grafo) (d : Nat) (hc : g.clique F)
    (hd : d ∈ F) (hv : g.vis d = false) (hp : g.pendentes < fuel) :
    dfs_util fuel g (some d) =
      some (g.marcar_lista (d :: F.filter (fun x => decide (x ≠ d) && !g.vis x)) true,
        d :: F.filter (fun x => decide (x ≠ d) && !g.vis x)) := by
  induction fuel generalizing g d with
  | zero => omega
  | succ fuel ih =>
    have hdv : d ∈ g.vertices := (hc.2 d hd).1
    have hadj : g.adj d = F.filter (fun x => decide (x ≠ d)) := (hc.2 d hd).2
    have h1 := g.pendentes_marcar_lt hdv hv
    rw [dfs_util]
    simp only [hv, Bool.false_eq_true, if_false, Grafo.adj_marcar]
    rw [hadj, dfs_arestas_clique fuel F (fun h y a1 a2 a3 a4 => ih h y a1 a2 a3 a4) _ _ _
      (Grafo.clique_marcar g F d true hc) (List.filter_sublist _) ?_ (by omega)]
    · have hfil : (F.filter (fun x => decide (x ≠ d))).filter
          (fun x => !(g.marcar d true).vis x) =
          F.filter (fun x => decide (x ≠ d) && !g.vis x) := by
        rw [List.filter_filter]
        apply List.filter_congr
        intro x _
        by_cases hx : x = d
        · simp [hx]
        · simp [Grafo.vis_marcar, hx]
      rw [hfil]
      simp
    · intro x hx hvx
      apply List.mem_filter.2
      refine ⟨hx, ?_⟩
      have : x ≠ d := by
        intro h
        rw [h, Grafo.vis_marcar_mesmo] at hvx
        cases hvx
      simp [this]

theorem bfs_arestas_visitados (ds : List Nat) (g : Grafo) (fila : List Nat)
    (h : ∀ d ∈ ds, g.vis d = true) : bfs_arestas g fila ds = (g, fila) := by
  induction ds with
  | nil => rfl
  | cons d resto ih =>
    rw [bfs_arestas]
    simp only [h d (List.mem_cons_self _ _), Bool.not_true, Bool.false_eq_true, if_false]
    exact ih (fun x hx => h x (List.mem_cons_of_mem _ hx))

theorem bfs_arestas_filtro (ds : List Nat) (g : Grafo) (fila : List Nat) (hn : ds.Nodup) :
    bfs_arestas g fila ds =
      (g.marcar_lista (ds.filter (fun x => !g.vis x)) true,
        fila ++ ds.filter (fun x => !g.vis x)) := by
  induction ds generalizing g fila with
  | nil => simp [bfs_arestas]
  | cons d resto ih =>
    obtain ⟨hd, hr⟩ := List.nodup_cons.1 hn
    rw [bfs_arestas]
    by_cases hv : g.vis d = true
    · simp only [hv, Bool.not_true, Bool.false_eq_true, if_false]
      rw [ih g fila hr, List.filter_cons_of_neg (by simp [hv])]
    · have hv0 : g.vis d = false := by simpa using hv
      simp only [hv0, Bool.not_false, if_true]
      have hfil : resto.filter (fun x => !(g.marcar d true).vis x) =
          resto.filter (fun x => !g.vis x) := by
        apply List.filter_congr
        intro x hx
        have : x ≠ d := fun h => hd (h ▸ hx)
        simp [Grafo.vis_marcar, this]
      rw [ih _ _ hr, hfil, List.filter_cons_of_pos (by simp [hv0])]
      simp

theorem bfs_ciclo_passo (fuel : Nat) (g : Grafo) (fila : List Nat) (i : Nat) (tr : List Nat)
    (hi : i < fila.length) :
    bfs_ciclo (fuel + 1) g fila i tr =
      bfs_ciclo fuel (bfs_arestas g fila (g.adj (fila.get ⟨i, hi⟩))).1
        (bfs_arestas g fila (g.adj (fila.get ⟨i, hi⟩))).2 (i + 1)
        (tr ++ [fila.get ⟨i, hi⟩]) := by
  rw [bfs_ciclo, dif_pos hi]
  rfl

/-- When every edge that leaves a node still waiting in the queue leads to a visited node,
the loop of bfs only empties the queue. -/
theorem bfs_ciclo_esvazia (fuel : Nat) (g : Grafo) (fila : List Nat) (i : Nat) (tr : List Nat)
    (hi : i ≤ fila.length)
    (hvis : ∀ p ∈ fila.drop i, ∀ d ∈ g.adj p, g.vis d = true)
    (hfuel : fila.length - i < fuel) :
    bfs_ciclo fuel g fila i tr = some (g, fila, tr ++ fila.drop i) := by
  induction fuel generalizing i tr with
  | zero => omega
  | succ fuel ih =>
    by_cases h : i < fila.length
    · have hd : fila.drop i = fila.get ⟨i, h⟩ :: fila.drop (i + 1) :=
        List.drop_eq_getElem_cons h
      rw [bfs_ciclo_passo fuel g fila i tr h,
        bfs_arestas_visitados _ g fila (hvis _ (by rw [hd]; exact List.mem_cons_self _ _))]
      simp only
      rw [ih (i + 1) _ (by omega) ?_ (by omega), hd]
      · simp
      · intro p hp
        exact hvis p (by rw [hd]; exact List.mem_cons_of_mem _ hp)
    · have hil : i = fila.length := by omega
      rw [bfs_ciclo, dif_neg h, hil, List.drop_length, List.append_nil]

theorem reiniciar_visitas_clique (g : Grafo) (F : List Nat) (h : g.clique F) :
    (reiniciar_visitas g).clique F := by
  rw [reiniciar_visitas_eq]
  exact Grafo.clique_marcar_lista g F _ false h

/-- In a graph whose class F is fully interconnected, dfs from a node s of F reports s and
then the rest of F in the order of F. -/
theorem dfs_clique (g : Grafo) (F : List Nat) (s : Nat) (hc : g.clique F) (hs : s ∈ F) :
    ∃ g1, dfs g (some s) = some (g1, s :: F.filter (fun x => decide (x ≠ s))) := by
  have hsv : s ∈ g.vertices := (hc.2 s hs).1
  have e := dfs_util_clique (g.vertices.length + 1) F (reiniciar_visitas g) s
    (reiniciar_visitas_clique g F hc) hs (reiniciar_visitas_vis g hsv)
    (by rw [reiniciar_visitas_pendentes]; omega)
  have hfil : F.filter (fun x => decide (x ≠ s) && !(reiniciar_visitas g).vis x) =
      F.filter (fun x => decide (x ≠ s)) := by
    apply List.filter_congr
    intro x hx
    simp [reiniciar_visitas_vis g (hc.2 x hx).1]
  rw [hfil] at e
  exact ⟨_, e⟩

/-- In a graph whose class F is fully interconnected, bfs from a node s of F reports s and
then the rest of F in the order of F. -/
theorem bfs_clique (g : Grafo) (F : List Nat) (s : Nat) (hc : g.clique F) (hs : s ∈ F) :
    ∃ g1, bfs g s = some (g1, s :: F.filter (fun x => decide (x ≠ s)),
      s :: F.filter (fun x => decide (x ≠ s))) := by
  have hsv : s ∈ g.vertices := (hc.2 s hs).1
  have hA : (F.filter (fun x => decide (x ≠ s))).Nodup := hc.1.filter _
  have hAs : ∀ x ∈ F.filter (fun x => decide (x ≠ s)), x ∈ F ∧ x ≠ s := by
    intro x hx
    obtain ⟨h1, h2⟩ := List.mem_filter.1 hx
    exact ⟨h1, by simpa using h2⟩
  have hadj : ((reiniciar_visitas g).marcar s true).adj s =
      F.filter (fun x => decide (x ≠ s)) := by
    simp only [Grafo.adj_marcar, reiniciar_visitas_adj]
    exact (hc.2 s hs).2
  have hfil : (F.filter (fun x => decide (x ≠ s))).filter
      (fun x => !((reiniciar_visitas g).marcar s true).vis x) =
      F.filter (fun x => decide (x ≠ s)) := by
    rw [List.filter_eq_self]
    intro x hx
    obtain ⟨h1, h2⟩ := hAs x hx
    simp [Grafo.vis_marcar, h2, reiniciar_visitas_vis g (hc.2 x h1).1]
  have hlen : (F.filter (fun x => decide (x ≠ s))).length < g.vertices.length := by
    have h1 : (s :: F.filter (fun x => decide (x ≠ s))).Nodup := by
      rw [List.nodup_cons]
      exact ⟨fun h => (hAs s h).2 rfl, hA⟩
    have h2 := comprimento_limitado _ g.vertices h1 (fun p hp => by
      rcases List.mem_cons.1 hp with h3 | h3
      · rw [h3]; exact hsv
      · exact (hc.2 p (hAs p h3).1).1)
    simp only [List.length_cons] at h2
    omega
  refine ⟨((reiniciar_visitas g).marcar s true).marcar_lista
    (F.filter (fun x => decide (x ≠ s))) true, ?_⟩
  rw [bfs, bfs_ciclo_passo _ _ [s] 0 [] (by simp)]
  simp only [List.get_eq_getElem, List.getElem_cons_zero, List.nil_append]
  rw [hadj, bfs_arestas_filtro _ _ _ hA, hfil]
  simp only [List.singleton_append]
  rw [bfs_ciclo_esvazia _ _ _ 1 [s] (by simp) ?_ (by simpa using hlen)]
  · simp
  · intro p hp d hd
    simp only [List.drop_succ_cons, List.drop_zero] at hp
    obtain ⟨hp1, -⟩ := hAs p hp
    simp only [Grafo.adj_marcar_lista, Grafo.adj_marcar, reiniciar_visitas_adj,
      (hc.2 p hp1).2] at hd
    obtain ⟨hd1, hd2⟩ := List.mem_filter.1 hd
    rw [Grafo.vis_marcar_lista_true]
    by_cases hds : d = s
    · right
      rw [hds]
      simp
    · left
      exact List.mem_filter.2 ⟨hd1, by simpa using hds⟩

theorem classe_sequencia (g : Grafo) (s : Nat) :
    s :: (g.classe (g.freq s)).filter (fun x => decide (x ≠ s)) = g.sequencia s := by
  unfold Grafo.classe Grafo.sequencia
  rw [List.filter_filter]
  congr 1
  apply List.filter_congr
  intro x _
  simp [Bool.decide_and]

/-- Both traversals of a graph built by adicionar_antena and one conectar_antenas report
the start node and then the other stored nodes of its frequency, oldest first. -/
theorem travessias_construir (ts : List (Byte × Int × Int)) (s : Nat)
    (hs : s ∈ (conectar_antenas (construir ts)).vertices) :
    (∃ g1, dfs (conectar_antenas (construir ts)) (some s) =
      some (g1, (conectar_antenas (construir ts)).sequencia s)) ∧
    (∃ g2, bfs (conectar_antenas (construir ts)) s =
      some (g2, (conectar_antenas (construir ts)).sequencia s,
        (conectar_antenas (construir ts)).sequencia s)) := by
  have hc := conectar_construir_clique ts ((conectar_antenas (construir ts)).freq s)
  have hsF : s ∈ (conectar_antenas (construir ts)).classe
      ((conectar_antenas (construir ts)).freq s) :=
    List.mem_filter.2 ⟨List.mem_reverse.2 hs, by simp⟩
  rw [← classe_sequencia]
  exact ⟨dfs_clique _ _ s hc hsF, bfs_clique _ _ s hc hsF⟩

theorem sequencia_nodup (g : Grafo) (s : Nat) (hn : g.vertices.Nodup) :
    (g.sequencia s).Nodup := by
  unfold Grafo.sequencia
  rw [List.nodup_cons]
  refine ⟨?_, (List.nodup_reverse.2 hn).filter _⟩
  intro h
  have := (List.mem_filter.1 h).2
  simp at this

theorem mem_sequencia (g : Grafo) (s : Nat) (hs : s ∈ g.vertices) (n : Nat) :
    n ∈ g.sequencia s ↔ n ∈ g.vertices ∧ g.freq n = g.freq s := by
  unfold Grafo.sequencia
  rw [List.mem_cons, List.mem_filter, List.mem_reverse]
  constructor
  · rintro (h | ⟨h1, h2⟩)
    · rw [h]; exact ⟨hs, rfl⟩
    · exact ⟨h1, (of_decide_eq_true h2).2⟩
  · rintro ⟨h1, h2⟩
    by_cases h : n = s
    · exact Or.inl h
    · exact Or.inr ⟨h1, decide_eq_true ⟨h, h2⟩⟩

/-- Claim C20: for every graph built by a sequence of adicionar_antena calls on an empty
graph followed by one conectar_antenas, and every stored start node s, dfs and bfs both
return, and both invoke the callback on the same sequence of nodes: s first, then the other
stored nodes of the frequency of s in the order in which they were added (the node added by
the i-th call, counted from 0, has address i, and the chain holds the nodes newest first). -/
theorem dfs_bfs_mesma_sequencia (ts : List (Byte × Int × Int)) (s : Nat)
    (hs : s ∈ (conectar_antenas (construir ts)).vertices) :
    (conectar_antenas (construir ts)).vertices.reverse = List.range ts.length ∧
    (∀ i, i < ts.length → ts[i]? = some ((conectar_antenas (construir ts)).triplo i)) ∧
    ∃ g1 g2 fila,
      dfs (conectar_antenas (construir ts)) (some s) =
        some (g1, (conectar_antenas (construir ts)).sequencia s) ∧
      bfs (conectar_antenas (construir ts)) s =
        some (g2, fila, (conectar_antenas (construir ts)).sequencia s) := by
  obtain ⟨⟨g1, e1⟩, ⟨g2, e2⟩⟩ := travessias_construir ts s hs
  refine ⟨?_, ?_, g1, g2, _, e1, e2⟩
  · rw [conectar_antenas_vertices, construir_vertices, List.reverse_reverse]
  · intro i hi
    rw [conectar_antenas_triplo]
    exact (construir_triplo ts i _).2 ⟨hi, rfl⟩

theorem dfs_bfs_mesma_sequencia_witness :
    2 ∈ (conectar_antenas (construir [(65, 0, 0), (66, 1, 0), (65, 2, 0), (65, 0, 2)])).vertices ∧
    (conectar_antenas (construir [(65, 0, 0), (66, 1, 0), (65, 2, 0), (65, 0, 2)])).sequencia 2
      = [2, 0, 3] ∧
    ((conectar_antenas (construir [(65, 0, 0), (66, 1, 0), (65, 2, 0), (65, 0, 2)])).vertices.reverse
        = List.range [((65 : Byte), (0 : Int), (0 : Int)), (66, 1, 0), (65, 2, 0), (65, 0, 2)].length ∧
    (∀ i, i < [((65 : Byte), (0 : Int), (0 : Int)), (66, 1, 0), (65, 2, 0), (65, 0, 2)].length →
      [((65 : Byte), (0 : Int), (0 : Int)), (66, 1, 0), (65, 2, 0), (65, 0, 2)][i]? =
        some ((conectar_antenas
          (construir [(65, 0, 0), (66, 1, 0), (65, 2, 0), (65, 0, 2)])).triplo i)) ∧
    ∃ g1 g2 fila,
      dfs (conectar_antenas (construir [(65, 0, 0), (66, 1, 0), (65, 2, 0), (65, 0, 2)]))
          (some 2) =
        some (g1, (conectar_antenas
          (construir [(65, 0, 0), (66, 1, 0), (65, 2, 0), (65, 0, 2)])).sequencia 2) ∧
      bfs (conectar_antenas (construir [(65, 0, 0), (66, 1, 0), (65, 2, 0), (65, 0, 2)])) 2 =
        some (g2, fila, (conectar_antenas
          (construir [(65, 0, 0), (66, 1, 0), (65, 2, 0), (65, 0, 2)])).sequencia 2)) :=
  ⟨by decide, by decide,
    dfs_bfs_mesma_sequencia [(65, 0, 0), (66, 1, 0), (65, 2, 0), (65, 0, 2)] 2 (by decide)⟩

theorem grelha_exemplo_grafo :
    carregar_grafo_arquivo grelha_exemplo =
      some (conectar_antenas (construir [(65, 0, 0), (65, 2, 0), (65, 0, 2), (65, 2, 2)])) := by
  rw [carregar_grafo_arquivo_eq]
  have h : triplos_fluxo (grelha_exemplo.length + 1) 0 grelha_exemplo =
      [(65, 0, 0), (65, 2, 0), (65, 0, 2), (65, 2, 2)] := by decide
  rw [h]

/-- Claim C16: for every file content, carregar_grafo_arquivo returns a graph in which,
from every stored start node s, bfs and dfs both return and report exactly the stored nodes
whose frequency equals the frequency of s, each once.  For the grid "A.A\n...\nA.A" the
graph holds four nodes of frequency A at (0,0), (2,0), (0,2), (2,2), every node has an edge
to each of the three others, 12 directed edges in total, and bfs from the node at (0,0)
reports all 4 nodes. -/
theorem travessia_arquivo_mesma_frequencia :
    (∀ texto : List Byte, ∃ g, carregar_grafo_arquivo texto = some g ∧
      ∀ s ∈ g.vertices,
        (∃ g1 fila t, bfs g s = some (g1, fila, t) ∧ t.Nodup ∧
          ∀ n, n ∈ t ↔ n ∈ g.vertices ∧ g.freq n = g.freq s) ∧
        (∃ g1 t, dfs g (some s) = some (g1, t) ∧ t.Nodup ∧
          ∀ n, n ∈ t ↔ n ∈ g.vertices ∧ g.freq n = g.freq s)) ∧
    (∃ g, carregar_grafo_arquivo grelha_exemplo = some g ∧
      g.vertices.map g.triplo = [(65, 2, 2), (65, 0, 2), (65, 2, 0), (65, 0, 0)] ∧
      (g.vertices.map (fun p => (g.adj p).length)).sum = 12 ∧
      (∀ a ∈ g.vertices, ∀ b ∈ g.vertices, a ≠ b → b ∈ g.adj a) ∧
      ∃ s ∈ g.vertices, g.triplo s = (65, 0, 0) ∧
        ∃ g1 fila t, bfs g s = some (g1, fila, t) ∧ t.length = 4 ∧ t.Nodup ∧
          ∀ p ∈ g.vertices, p ∈ t) := by
  have geral : ∀ (ts : List (Byte × Int × Int)),
      ∀ s ∈ (conectar_antenas (construir ts)).vertices,
        (∃ g1 fila t, bfs (conectar_antenas (construir ts)) s = some (g1, fila, t) ∧ t.Nodup ∧
          ∀ n, n ∈ t ↔ n ∈ (conectar_antenas (construir ts)).vertices ∧
            (conectar_antenas (construir ts)).freq n =
              (conectar_antenas (construir ts)).freq s) ∧
        (∃ g1 t, dfs (conectar_antenas (construir ts)) (some s) = some (g1, t) ∧ t.Nodup ∧
          ∀ n, n ∈ t ↔ n ∈ (conectar_antenas (construir ts)).vertices ∧
            (conectar_antenas (construir ts)).freq n =
              (conectar_antenas (construir ts)).freq s) := by
    intro ts s hs
    obtain ⟨⟨g1, e1⟩, ⟨g2, e2⟩⟩ := travessias_construir ts s hs
    have hn := sequencia_nodup (conectar_antenas (construir ts)) s
      (conectar_construir_estrutura ts).1
    have hm := mem_sequencia (conectar_antenas (construir ts)) s hs
    exact ⟨⟨g2, _, _, e2, hn, hm⟩, ⟨g1, _, e1, hn, hm⟩⟩
  constructor
  · intro texto
    exact ⟨_, carregar_grafo_arquivo_eq texto, geral _⟩
  · refine ⟨_, grelha_exemplo_grafo, by decide, by decide, by decide, 0, by decide, by decide,
      ?_⟩
    obtain ⟨g2, e2⟩ := (travessias_construir
      [(65, 0, 0), (65, 2, 0), (65, 0, 2), (65, 2, 2)] 0 (by decide)).2
    have hseq : (conectar_antenas
        (construir [(65, 0, 0), (65, 2, 0), (65, 0, 2), (65, 2, 2)])).sequencia 0 =
        [0, 1, 2, 3] := by decide
    rw [hseq] at e2
    exact ⟨g2, _, _, e2, by decide, by decide, by decide⟩

/-! ### Node order across save/load cycles -/

theorem conectar_construir_triplos (ts : List (Byte × Int × Int)) :
    (conectar_antenas (construir ts)).vertices.map (conectar_antenas (construir ts)).triplo =
      ts.reverse := by
  rw [conectar_antenas_vertices, ← construir_triplos ts]
  apply List.map_congr_left
  intro p _
  exact conectar_antenas_triplo _ p

theorem conectar_construir_tipado (ts : List (Byte × Int × Int))
    (hl : ts.length < 2147483648) (ht : ∀ t ∈ ts, int32 t.2.1 ∧ int32 t.2.2) :
    (conectar_antenas (construir ts)).tipado := by
  have h := conectar_construir_triplos ts
  constructor
  · have h1 := congrArg List.length h
    simp only [List.length_map, List.length_reverse] at h1
    omega
  · intro p hp
    have hm : (conectar_antenas (construir ts)).triplo p ∈ ts := by
      rw [← List.mem_reverse, ← h]
      exact List.mem_map_of_mem _ hp
    exact ht _ hm

theorem tipado_triplos (g : Grafo) (ht : g.tipado) :
    (g.vertices.map g.triplo).length < 2147483648 ∧
      ∀ t ∈ g.vertices.map g.triplo, int32 t.2.1 ∧ int32 t.2.2 := by
  refine ⟨by simpa using ht.1, ?_⟩
  intro t hm
  obtain ⟨p, hp, rfl⟩ := List.mem_map.1 hm
  exact ht.2 p hp

/-- Claim C21: for every graph g whose num_vertices equals the number of stored nodes (the
node count and the coordinates being values of the C type int), one save/load cycle
(salvar_grafo_binario then carregar_grafo_binario) succeeds and returns a graph whose
sequence of (frequency, x, y) triples in node-store order is the exact reverse of the
sequence of g, and a second save/load cycle on the result succeeds and returns a graph
whose sequence of triples in node-store order is identical to the sequence of g. -/
theorem salvar_carregar_inverte (g : Grafo) (hnum : g.num_vertices = g.vertices.length)
    (ht : g.tipado) :
    ∃ g1 g2, carregar_grafo_binario (salvar_grafo_binario g) = some g1 ∧
      g1.vertices.map g1.triplo = (g.vertices.map g.triplo).reverse ∧
      carregar_grafo_binario (salvar_grafo_binario g1) = some g2 ∧
      g2.vertices.map g2.triplo = g.vertices.map g.triplo := by
  obtain ⟨hl, hts⟩ := tipado_triplos g ht
  have e1 := carregar_salvar g hnum ht
  have h1 := conectar_construir_triplos (g.vertices.map g.triplo)
  have hnum1 := (carregar_grafo_binario_estrutura e1).2.2.2.2
  have ht1 := conectar_construir_tipado (g.vertices.map g.triplo) hl hts
  have e2 := carregar_salvar _ hnum1 ht1
  refine ⟨_, _, e1, h1, e2, ?_⟩
  rw [conectar_construir_triplos, h1, List.reverse_reverse]

theorem salvar_carregar_inverte_witness :
    grafo_exemplo.num_vertices = grafo_exemplo.vertices.length ∧ grafo_exemplo.tipado ∧
    grafo_exemplo.vertices.map grafo_exemplo.triplo =
      [(67, 0, 3), (65, 2, 2), (66, 1, 0), (65, 0, 0)] ∧
    ∃ g1 g2, carregar_grafo_binario (salvar_grafo_binario grafo_exemplo) = some g1 ∧
      g1.vertices.map g1.triplo = (grafo_exemplo.vertices.map grafo_exemplo.triplo).reverse ∧
      carregar_grafo_binario (salvar_grafo_binario g1) = some g2 ∧
      g2.vertices.map g2.triplo = grafo_exemplo.vertices.map grafo_exemplo.triplo :=
  ⟨by decide, by decide, by decide,
    salvar_carregar_inverte grafo_exemplo (by decide) (by decide)⟩

/-! ### The tolerance of the harmonic test on bounded grids -/

theorem limitada_sem_transbordo (a : Antena) (hx : |a.x| ≤ 30000) (hy : |a.y| ≤ 30000) :
    a.sem_transbordo := by
  obtain ⟨hx1, hx2⟩ := abs_le.1 hx
  obtain ⟨hy1, hy2⟩ := abs_le.1 hy
  refine ⟨⟨by omega, by omega⟩, ⟨by omega, by omega⟩, ?_⟩
  nlinarith

theorem quadrado_dist_zero (a : Antena) : quadrado_dist a = 0 ↔ a.x = 0 ∧ a.y = 0 := by
  unfold quadrado_dist
  exact mul_self_add_mul_self_eq_zero

/-- Claim C22: for all nodes a, b with integer coordinates of absolute value at most 30000,
the int arguments of sqrt computed by listar_intersecoes are the exact sums of squares (no
overflow), and the harmonic test on them, evaluated in exact real arithmetic, holds if and
only if a.x²+a.y² = 4·(b.x²+b.y²) or b.x²+b.y² = 4·(a.x²+a.y²); a node paired with itself
passes exactly when it lies at the origin (0,0). -/
theorem harmonico_sem_folga (a b : Antena) (hax : |a.x| ≤ 30000) (hay : |a.y| ≤ 30000)
    (hbx : |b.x| ≤ 30000) (hby : |b.y| ≤ 30000) :
    soma_quadrados a = a.x * a.x + a.y * a.y ∧ soma_quadrados b = b.x * b.x + b.y * b.y ∧
    (harmonico_exato (soma_quadrados a) (soma_quadrados b) ↔
      (a.x * a.x + a.y * a.y = 4 * (b.x * b.x + b.y * b.y) ∨
        b.x * b.x + b.y * b.y = 4 * (a.x * a.x + a.y * a.y))) ∧
    (harmonico_exato (soma_quadrados a) (soma_quadrados a) ↔ (a.x = 0 ∧ a.y = 0)) := by
  have hsa := limitada_sem_transbordo a hax hay
  have hsb := limitada_sem_transbordo b hbx hby
  have ea := soma_quadrados_exata a hsa
  have eb := soma_quadrados_exata b hsb
  obtain ⟨ha1, ha2⟩ := quadrado_dist_limites a hsa
  obtain ⟨hb1, hb2⟩ := quadrado_dist_limites b hsb
  refine ⟨ea, eb, ?_, ?_⟩
  · rw [ea, eb]
    exact harmonico_exato_iff _ _ ha1 ha2 hb1 hb2
  · rw [ea, harmonico_exato_iff _ _ ha1 ha2 ha1 ha2, ← quadrado_dist_zero]
    constructor
    · rintro (h | h) <;> omega
    · intro h
      left
      omega

theorem harmonico_sem_folga_witness :
    |(⟨65, 4, 0, false, []⟩ : Antena).x| ≤ 30000 ∧
    |(⟨65, 4, 0, false, []⟩ : Antena).y| ≤ 30000 ∧
    |(⟨66, 0, 2, false, []⟩ : Antena).x| ≤ 30000 ∧
    |(⟨66, 0, 2, false, []⟩ : Antena).y| ≤ 30000 ∧
    harmonico_exato (soma_quadrados ⟨65, 4, 0, false, []⟩)
      (soma_quadrados ⟨66, 0, 2, false, []⟩) ∧
    ¬ harmonico_exato (soma_quadrados ⟨65, 4, 0, false, []⟩)
      (soma_quadrados ⟨65, 4, 0, false, []⟩) :=
  ⟨by decide, by decide, by decide, by decide,
    (harmonico_sem_folga ⟨65, 4, 0, false, []⟩ ⟨66, 0, 2, false, []⟩ (by decide) (by decide)
      (by decide) (by decide)).2.2.1.2 (Or.inl (by decide)),
    fun h => absurd
      ((harmonico_sem_folga ⟨65, 4, 0, false, []⟩ ⟨66, 0, 2, false, []⟩ (by decide)
        (by decide) (by decide) (by decide)).2.2.2.1 h).1 (by decide)⟩

end Grafo2
